import Mathlib

/-!
# Verification of the `re-parse` compile-time regex pipeline

A shallow embedding, in Lean 4, of the compile-time pipeline of the
`re-parse-proc-macro` crate: tokenizer → recursive-descent parser → regex
tree → Thompson-style NFA → subset-construction DFA with deduplication →
scanner semantics of the generated code.  Definitions mirror the Rust
sources (`tokenizer.rs`, `parser.rs`, `regex.rs`, `nfa.rs`, `dfa.rs`,
`util.rs`, `codegen.rs`); machine maps/sets are modelled by lists
(content-equal to the Rust hash maps, with a deterministic order), Rust
panics by an explicit `panicked` outcome, and unbounded loops by a fuel
parameter together with adequacy lemmas.
-/

set_option maxHeartbeats 1000000

namespace ReParse

/-! ## Tokenizer (`tokenizer.rs`) -/

/-- `PostfixToken` from `tokenizer.rs`: the `?`, `*`, `+` operators. -/
inductive PostfixToken
  | questionMark
  | star
  | plus
deriving DecidableEq, Repr

/-- Perl character classes (`\s`, `\d`, `\w`) from `tokenizer.rs`. -/
inductive CharacterClass
  | whitespace
  | digit
  | word
deriving DecidableEq, Repr

/-- `Token` from `tokenizer.rs`. -/
inductive Token
  | char (c : Char)
  | dot
  | characterClass (cls : CharacterClass)
  | leftBrace
  | rightBrace
  | leftParenthesis
  | rightParenthesis
  | leftBracket
  | rightBracket
  | minus
  | postfixOp (p : PostfixToken)
  | pipe
  | eof
deriving DecidableEq, Repr

/-- `Token::is_valid_after_value` from `tokenizer.rs`. -/
def Token.is_valid_after_value : Token → Bool
  | .rightBrace | .rightParenthesis | .rightBracket
  | .postfixOp _ | .pipe | .minus | .eof => false
  | .char _ | .dot | .characterClass _
  | .leftBrace | .leftParenthesis | .leftBracket => true

/-- The token emitted for a single non-backslash character
(the `match char` arms of `Tokenizer::next`). -/
def charToken (c : Char) : Token :=
  if c = '{' then .leftBrace
  else if c = '}' then .rightBrace
  else if c = '(' then .leftParenthesis
  else if c = ')' then .rightParenthesis
  else if c = '[' then .leftBracket
  else if c = ']' then .rightBracket
  else if c = '-' then .minus
  else if c = '?' then .postfixOp .questionMark
  else if c = '*' then .postfixOp .star
  else if c = '+' then .postfixOp .plus
  else if c = '|' then .pipe
  else if c = '.' then .dot
  else .char c

/-- The token emitted for the character following a backslash. -/
def escapeToken (c : Char) : Token :=
  if c = 's' then .characterClass .whitespace
  else if c = 'd' then .characterClass .digit
  else if c = 'w' then .characterClass .word
  else .char c

/-- `Tokenizer::next`, iterated to exhaustion.  On a trailing backslash the
Rust iterator returns `None` (the stream just ends; the source carries a
TODO saying this should be an error). -/
def tokenizeChars : List Char → List Token
  | [] => []
  | c :: rest =>
    if c = '\\' then
      match rest with
      | [] => []
      | next :: rest' => escapeToken next :: tokenizeChars rest'
    else
      charToken c :: tokenizeChars rest

/-- `tokenize` from `tokenizer.rs`. -/
def tokenize (input : String) : List Token :=
  tokenizeChars input.toList

/-- The `Display` impl for `Token` in `tokenizer.rs`. -/
def tokenDisplay : Token → String
  | .char c => String.singleton c
  | .dot => "."
  | .characterClass .whitespace => "\\s"
  | .characterClass .digit => "\\d"
  | .characterClass .word => "\\w"
  | .leftBrace => "\x7b"
  | .rightBrace => "\x7d"
  | .leftParenthesis => "("
  | .rightParenthesis => ")"
  | .leftBracket => "["
  | .rightBracket => "]"
  | .minus => "-"
  | .postfixOp .questionMark => "?"
  | .postfixOp .star => "*"
  | .postfixOp .plus => "+"
  | .pipe => "|"
  | .eof => "<EOF>"

/-! ## Regex tree (`regex.rs`)

The Rust code stores `RegexNode`s in an arena with indices; the parser
builds a tree (each node is referenced exactly once), so we embed the
arena-of-nodes as an inductive tree. -/

/-- `RegexPattern` from `regex.rs`. -/
inductive RegexPattern
  | char (c : Char)
  | range (a b : Char)
  | anyChar
  | anyCharLazy
deriving DecidableEq, Repr

/-- `VariableKind` from `regex.rs`. -/
inductive VariableKind
  | singular
  | multiple
deriving DecidableEq, Repr

/-- `RegexVariable` from `regex.rs`. -/
structure RegexVariable where
  name : String
  kind : VariableKind
deriving DecidableEq, Repr

/-- `RegexNode` from `regex.rs` (arena indices replaced by subtrees). -/
inductive RegexNode
  | and (children : List RegexNode)
  | or (children : List RegexNode)
  | literal (p : RegexPattern)
  | var (v : RegexVariable)
  | zeroOrOne (c : RegexNode)
  | many (c : RegexNode)
  | oneOrMore (c : RegexNode)
deriving Repr

mutual

/-- Structural (Boolean) equality of regex trees. -/
def RegexNode.beq : RegexNode → RegexNode → Bool
  | .and xs, .and ys => RegexNode.beqList xs ys
  | .or xs, .or ys => RegexNode.beqList xs ys
  | .literal p, .literal q => p = q
  | .var v, .var w => v = w
  | .zeroOrOne x, .zeroOrOne y => RegexNode.beq x y
  | .many x, .many y => RegexNode.beq x y
  | .oneOrMore x, .oneOrMore y => RegexNode.beq x y
  | _, _ => false

def RegexNode.beqList : List RegexNode → List RegexNode → Bool
  | [], [] => true
  | x :: xs, y :: ys => RegexNode.beq x y && RegexNode.beqList xs ys
  | _, _ => false

end

mutual

theorem RegexNode.beq_iff : ∀ x y : RegexNode, RegexNode.beq x y = true ↔ x = y
  | .and xs, y => by
    cases y <;> simp [RegexNode.beq] <;> exact RegexNode.beqList_iff xs _
  | .or xs, y => by
    cases y <;> simp [RegexNode.beq] <;> exact RegexNode.beqList_iff xs _
  | .literal p, y => by
    cases y <;> simp [RegexNode.beq]
  | .var v, y => by
    cases y <;> simp [RegexNode.beq]
  | .zeroOrOne x, y => by
    cases y <;> simp [RegexNode.beq] <;> exact RegexNode.beq_iff x _
  | .many x, y => by
    cases y <;> simp [RegexNode.beq] <;> exact RegexNode.beq_iff x _
  | .oneOrMore x, y => by
    cases y <;> simp [RegexNode.beq] <;> exact RegexNode.beq_iff x _

theorem RegexNode.beqList_iff : ∀ xs ys : List RegexNode,
    RegexNode.beqList xs ys = true ↔ xs = ys
  | [], ys => by cases ys <;> simp [RegexNode.beqList]
  | x :: xs, ys => by
    cases ys with
    | nil => simp [RegexNode.beqList]
    | cons y ys =>
      simp only [RegexNode.beqList, Bool.and_eq_true, List.cons.injEq]
      rw [RegexNode.beq_iff, RegexNode.beqList_iff]

end

instance : DecidableEq RegexNode := fun x y =>
  decidable_of_iff (RegexNode.beq x y = true) (RegexNode.beq_iff x y)

/-- `CharacterClass::as_patterns` from `tokenizer.rs`. -/
def CharacterClass.as_patterns : CharacterClass → List RegexPattern
  | .whitespace => [.char '\r', .char '\n', .char '\t', .char ' ']
  | .digit => [.range '0' '9']
  | .word => [.range 'a' 'z', .range 'A' 'Z', .range '0' '9', .char '_']

/-! ## Parser (`parser.rs`) -/

/-- `ParseError` from `parser.rs`. -/
inductive ParseError
  | unexpectedRightBrace
  | unexpectedRightParenthesis
  | unexpectedRightBracket
  | unexpectedMinus
  | unexpectedPostfixToken (got : Token)
  | unexpectedBar
  | unexpectedToken (got : Token) (expected : Token)
  | expectedIdent (got : Token)
  | expectedChar (got : Token)
  | expectedPostfixOperator (got : Token)
  | expectedEof (got : Token)
deriving DecidableEq, Repr

/-- Outcome of a fallible parser step.  `panicked` models a Rust panic
(`assert!` / `.expect` / `.unwrap`); `outOfFuel` is an embedding artifact
for the fuelled recursion and never occurs at the fuel used by `parse`
on the inputs of the theorems below. -/
inductive ParseFailure
  | err (e : ParseError)
  | panicked
  | outOfFuel
deriving DecidableEq, Repr

abbrev PResult (α : Type) := Except ParseFailure α

/-- `RegexParser`'s state: the token source (peekable iterator) and the
stack of rows of already-built nodes.  The most recently pushed row is
at the head. -/
structure ParserState where
  source : List Token
  stack : List (List RegexNode)
deriving DecidableEq, Repr

namespace Parser

/-- `RegexParser::peek` (returns `Eof` when the stream is exhausted). -/
def peek (st : ParserState) : Token :=
  st.source.headD .eof

/-- `RegexParser::consume`. -/
def consume (st : ParserState) : Token × ParserState :=
  (st.source.headD .eof, { st with source := st.source.tail })

/-- `RegexParser::expect`. -/
def expect (st : ParserState) (token : Token) : PResult ParserState :=
  let (next, st') := consume st
  if next = token then .ok st'
  else .error (.err (.unexpectedToken next token))

/-- `RegexParser::push_node_idx` (pushes onto the last stack row;
panics when the stack is empty). -/
def push_node (st : ParserState) (node : RegexNode) : PResult ParserState :=
  match st.stack with
  | [] => .error .panicked
  | row :: rest => .ok { st with stack := (row ++ [node]) :: rest }

/-- `RegexParser::pop_row` (panics when the stack is empty). -/
def pop_row (st : ParserState) : PResult (List RegexNode × ParserState) :=
  match st.stack with
  | [] => .error .panicked
  | row :: rest => .ok (row, { st with stack := rest })

/-- `RegexParser::pop_single` (pops from the last row; panics when
the stack or the row is empty). -/
def pop_single (st : ParserState) : PResult (RegexNode × ParserState) :=
  match st.stack with
  | [] => .error .panicked
  | row :: rest =>
    match row.getLast? with
    | none => .error .panicked
    | some node => .ok (node, { st with stack := row.dropLast :: rest })

/-- `RegexParser::push_row`. -/
def push_row (st : ParserState) : ParserState :=
  { st with stack := [] :: st.stack }

/-- The local `single_char` helper of `RegexParser::consume_as_char`;
`none` models the assertion panic on a string whose length is not one. -/
def single_char (input : String) : Option Char :=
  match input.toList with
  | [c] => some c
  | _ => none

/-- `RegexParser::consume_as_char`. -/
def consume_as_char (st : ParserState) : PResult (Char × ParserState) :=
  if peek st = .eof ∨ peek st = .rightBracket then
    .error (.err .unexpectedRightBracket)
  else
    let (tok, st') := consume st
    match single_char (tokenDisplay tok) with
    | some c => .ok (c, st')
    | none => .error .panicked

/-- `RegexParser::parse_ident`'s accumulation loop. -/
def parse_ident_chars : List Token → String → String × List Token
  | .char c :: rest, acc => parse_ident_chars rest (acc.push c)
  | toks, acc => (acc, toks)

/-- `RegexParser::parse_ident`. -/
def parse_ident (st : ParserState) : PResult (String × ParserState) :=
  let (ident, rest) := parse_ident_chars st.source ""
  if ident.isEmpty then
    .error (.err (.expectedIdent (peek { st with source := rest })))
  else
    .ok (ident, { st with source := rest })

/-- `RegexParser::parse_postfix`.  Note: `parse_postfix` applies the
operator to the node popped from the current row. -/
def parse_postfix (st : ParserState) : PResult ParserState := do
  let (token, st) := consume st
  match token with
  | .postfixOp p =>
    let node : RegexNode → RegexNode :=
      match p with
      | .questionMark => RegexNode.zeroOrOne
      | .star => RegexNode.many
      | .plus => RegexNode.oneOrMore
    let (child, st) ← pop_single st
    push_node st (node child)
  | _ => .error (.err (.expectedPostfixOperator token))

/-- Modelled from the spec: the `parse_value` arm for a character-class
token is absent from the given `parser.rs` (its `match` is not even
exhaustive there).  Spec §4.2: "A class shortcut expands to an `Or` of
literal/range patterns", and the grammar allows a postfix operator after
any atom (the crate's own DFA test uses the pattern `([abc]\s*)*`).
So: consume the token, push `Or` of the class's patterns, then parse an
optional postfix operator, exactly like `parse_char`. -/
def parse_character_class (st : ParserState) : PResult ParserState := do
  let (token, st) := consume st
  let st ←
    match token with
    | .characterClass cls =>
      push_node st (.or ((cls.as_patterns).map .literal))
    | _ => .error (.err (.expectedChar token))
  if (peek st) matches .postfixOp _ then
    parse_postfix st
  else
    .ok st

/-- `RegexParser::parse_char`. -/
def parse_char (st : ParserState) : PResult ParserState := do
  let (token, st) := consume st
  let st ←
    match token with
    | .char c => push_node st (.literal (.char c))
    | .dot => push_node st (.literal .anyChar)
    | _ => .error (.err (.expectedChar token))
  if (peek st) matches .postfixOp _ then
    parse_postfix st
  else
    .ok st

/-- `RegexParser::parse_variable`.

Note: the Rust source writes `self.push_node(RegexNode::Variable(ident))`
with `ident : String` although `RegexNode::Variable` carries a
`RegexVariable { name, kind }`, and it never parses a `*` inside the
braces; no `VariableKind` is ever chosen (the claim C3 case).  To obtain
a total definition we complete the node with the arbitrary kind
`singular`; no theorem below depends on this choice. -/
def parse_variable (st : ParserState) : PResult ParserState := do
  let st ← expect st .leftBrace
  let (ident, st) ← parse_ident st
  let st ← push_node st (.var ⟨ident, .singular⟩)
  expect st .rightBrace

/-- `RegexParser::parse_group_inner`'s `while let Ok(char)` loop: collect
literal/range nodes until `consume_as_char` fails (its parse error is
swallowed by the loop; a panic propagates). -/
def parse_group_chars (fuel : Nat) (st : ParserState) (chars : List RegexNode) :
    PResult (List RegexNode × ParserState) :=
  match fuel with
  | 0 => .error .outOfFuel
  | fuel + 1 =>
    match consume_as_char st with
    | .error (.err _) => .ok (chars, st)
    | .error e => .error e
    | .ok (c, st) =>
      if peek st = .minus then
        let (_, st) := consume st
        match consume_as_char st with
        | .error e => .error e
        | .ok (final_char, st) =>
          parse_group_chars fuel st (chars ++ [.literal (.range c final_char)])
      else
        parse_group_chars fuel st (chars ++ [.literal (.char c)])

/-- The tail of `RegexParser::parse_group_inner`: push the single char
node, or an `Or` of all of them. -/
def finish_row (st : ParserState) (nodes : List RegexNode)
    (mk : List RegexNode → RegexNode) : PResult ParserState :=
  match nodes with
  | [single] => push_node st single
  | _ => push_node st (mk nodes)

/-- `RegexParser::parse_group_inner`. -/
def parse_group_inner (fuel : Nat) (st : ParserState) : PResult ParserState := do
  let (chars, st) ← parse_group_chars fuel st []
  finish_row st chars RegexNode.or

mutual

/-- `RegexParser::parse_regex`. -/
def parse_regex (fuel : Nat) (st : ParserState) : PResult ParserState :=
  match fuel with
  | 0 => .error .outOfFuel
  | fuel + 1 => parse_or fuel st

/-- `RegexParser::parse_or`. -/
def parse_or (fuel : Nat) (st : ParserState) : PResult ParserState :=
  match fuel with
  | 0 => .error .outOfFuel
  | fuel + 1 => do
    let st := push_row st
    let st ← parse_or_loop fuel st
    let (nodes, st) ← pop_row st
    finish_row st nodes RegexNode.or

/-- The `loop` inside `parse_or`. -/
def parse_or_loop (fuel : Nat) (st : ParserState) : PResult ParserState :=
  match fuel with
  | 0 => .error .outOfFuel
  | fuel + 1 => do
    let st ← parse_and fuel st
    if peek st = .pipe then
      let (_, st) := consume st
      parse_or_loop fuel st
    else
      .ok st

/-- `RegexParser::parse_and`. -/
def parse_and (fuel : Nat) (st : ParserState) : PResult ParserState :=
  match fuel with
  | 0 => .error .outOfFuel
  | fuel + 1 => do
    let st := push_row st
    let st ← parse_and_loop fuel st
    let (nodes, st) ← pop_row st
    finish_row st nodes RegexNode.and

/-- The `loop` inside `parse_and`. -/
def parse_and_loop (fuel : Nat) (st : ParserState) : PResult ParserState :=
  match fuel with
  | 0 => .error .outOfFuel
  | fuel + 1 => do
    let st ← parse_value fuel st
    if (peek st).is_valid_after_value then
      parse_and_loop fuel st
    else
      .ok st

/-- `RegexParser::parse_value`. -/
def parse_value (fuel : Nat) (st : ParserState) : PResult ParserState :=
  match fuel with
  | 0 => .error .outOfFuel
  | fuel + 1 =>
    match peek st with
    | .eof => .ok st
    | .char _ | .dot => parse_char st
    | .rightBrace => .error (.err .unexpectedRightBrace)
    | .leftBrace => parse_variable st
    | .leftParenthesis => parse_parenthesis fuel st
    | .rightParenthesis => .error (.err .unexpectedRightParenthesis)
    | .leftBracket => parse_group fuel st
    | .rightBracket => .error (.err .unexpectedRightBracket)
    | .minus => .error (.err .unexpectedMinus)
    | .pipe => .error (.err .unexpectedBar)
    | .postfixOp p => .error (.err (.unexpectedPostfixToken (.postfixOp p)))
    | .characterClass _ => parse_character_class st

/-- `RegexParser::parse_group`. -/
def parse_group (fuel : Nat) (st : ParserState) : PResult ParserState :=
  match fuel with
  | 0 => .error .outOfFuel
  | fuel + 1 => do
    let st ← expect st .leftBracket
    let st ← parse_group_inner fuel st
    let st ← expect st .rightBracket
    if (peek st) matches .postfixOp _ then
      parse_postfix st
    else
      .ok st

/-- `RegexParser::parse_parenthesis`. -/
def parse_parenthesis (fuel : Nat) (st : ParserState) : PResult ParserState :=
  match fuel with
  | 0 => .error .outOfFuel
  | fuel + 1 => do
    let st ← expect st .leftParenthesis
    let st ← parse_regex fuel st
    let st ← expect st .rightParenthesis
    if (peek st) matches .postfixOp _ then
      parse_postfix st
    else
      .ok st

end

/-- `RegexParser::parse`: run `parse_regex` on a fresh state, require
`Eof`, and extract the single root node (the final `expect`s/`assert!`
are modelled by `panicked`). -/
def parseTokens (source : List Token) : PResult RegexNode := do
  let fuel := 8 * source.length + 16
  let st : ParserState := { source := source, stack := [[]] }
  let st ← parse_regex fuel st
  if peek st ≠ .eof then
    .error (.err (.expectedEof (peek st)))
  else
    match st.stack with
    | [[root]] => .ok root
    | _ => .error .panicked

end Parser

/-- `Regex::from_str` from `regex.rs`: tokenize, then parse. -/
def fromStr (input : String) : PResult RegexNode :=
  Parser.parseTokens (tokenize input)

/-! Sanity checks of the parser embedding on the crate's own test inputs. -/

example : fromStr "a" = .ok (.literal (.char 'a')) := by rfl

example : fromStr "abc" =
    .ok (.and [.literal (.char 'a'), .literal (.char 'b'), .literal (.char 'c')]) := by rfl

example : fromStr "a|b" =
    .ok (.or [.literal (.char 'a'), .literal (.char 'b')]) := by rfl

example : fromStr "a?" = .ok (.zeroOrOne (.literal (.char 'a'))) := by rfl

example : fromStr "(ab)*" =
    .ok (.many (.and [.literal (.char 'a'), .literal (.char 'b')])) := by rfl

example : fromStr "" = .ok (.and []) := by rfl

example : fromStr "[]" = .ok (.or []) := by rfl

example : fromStr "[a-z]" = .ok (.literal (.range 'a' 'z')) := by rfl

example : fromStr "[ABC]" =
    .ok (.or [.literal (.char 'A'), .literal (.char 'B'), .literal (.char 'C')]) := by rfl

example : fromStr "a**" = .error (.err (.expectedEof (.postfixOp .star))) := by rfl

example : fromStr "{a}" = .ok (.var ⟨"a", .singular⟩) := by rfl

/-! ## NFA (`nfa.rs`)

The NFA arena is a list of nodes addressed by position; `connect` and
`add_after` mirror the `NfaArena` helpers. -/

/-- `NfaError` from `nfa.rs`. -/
inductive NfaError
  | duplicateVariable (name : String)
deriving DecidableEq, Repr

/-- `NfaEdge` from `nfa.rs`. -/
inductive NfaEdge
  | epsilon
  | pattern (p : RegexPattern)
deriving DecidableEq, Repr

/-- `NfaEdge::is_epsilon`. -/
def NfaEdge.is_epsilon : NfaEdge → Bool
  | .epsilon => true
  | .pattern _ => false

/-- `NfaNodeKind` from `nfa.rs`. -/
inductive NfaNodeKind
  | simple
  | var (v : RegexVariable)
deriving DecidableEq, Repr

/-- `NfaNode` from `nfa.rs`. -/
structure NfaNode where
  edges : List Nat
  edge_kind : NfaEdge
  kind : NfaNodeKind
  is_accepting : Bool
deriving DecidableEq, Repr

/-- `NfaNode::EPSILON`. -/
def NfaNode.EPSILON : NfaNode :=
  { edges := [], edge_kind := .epsilon, kind := .simple, is_accepting := false }

/-- Arena lookup (indices are in bounds whenever the Rust code would not
panic; out of bounds we return the inert `EPSILON` node). -/
def getNode (nodes : List NfaNode) (i : Nat) : NfaNode :=
  nodes.getD i .EPSILON

/-- `Arena::add`: append a node, return the new arena and the index. -/
def addNode (nodes : List NfaNode) (node : NfaNode) : List NfaNode × Nat :=
  (nodes ++ [node], nodes.length)

/-- `NfaArena::connect`: push `target` onto the edge list of `source`. -/
def connect (nodes : List NfaNode) (source target : Nat) : List NfaNode :=
  nodes.set source
    { getNode nodes source with edges := (getNode nodes source).edges ++ [target] }

/-- `NfaArena::add_after`. -/
def add_after (nodes : List NfaNode) (source : Nat) (new_node : NfaNode) :
    List NfaNode × Nat :=
  let (nodes, idx) := addNode nodes new_node
  (connect nodes source idx, idx)

mutual

/-- `convert_regex_node` from `nfa.rs`: Thompson-style construction,
threading the predecessor node and returning the subtree's target. -/
def convert_regex_node (nodes : List NfaNode) (node : RegexNode)
    (predecessor : Nat) : List NfaNode × Nat :=
  match node with
  | .and children => convert_and_children nodes children predecessor
  | .or children =>
    let (nodes, target_node) := addNode nodes .EPSILON
    let nodes := convert_or_children nodes children predecessor target_node
    (nodes, target_node)
  | .literal p =>
    add_after nodes predecessor
      { edges := [], edge_kind := .pattern p, kind := .simple, is_accepting := false }
  | .var v =>
    let (nodes, n) := add_after nodes predecessor
      { edges := [], edge_kind := .pattern .anyCharLazy, kind := .var v,
        is_accepting := false }
    (connect nodes n n, n)
  | .zeroOrOne child =>
    let (nodes, target_node) := addNode nodes .EPSILON
    let nodes := connect nodes predecessor target_node
    let (nodes, new_node) := convert_regex_node nodes child predecessor
    (connect nodes new_node target_node, target_node)
  | .many child =>
    let (nodes, iteration_node) := addNode nodes .EPSILON
    let nodes := connect nodes predecessor iteration_node
    let (nodes, target_node) := addNode nodes .EPSILON
    let nodes := connect nodes predecessor target_node
    let (nodes, new_node) := convert_regex_node nodes child iteration_node
    let nodes := connect nodes new_node iteration_node
    (connect nodes new_node target_node, target_node)
  | .oneOrMore child =>
    let (nodes, iteration_node) := addNode nodes .EPSILON
    let nodes := connect nodes predecessor iteration_node
    let (nodes, target_node) := addNode nodes .EPSILON
    let (nodes, new_node) := convert_regex_node nodes child iteration_node
    let nodes := connect nodes new_node iteration_node
    (connect nodes new_node target_node, target_node)

/-- The `And` fold of `convert_regex_node`: each child's target becomes
the next child's predecessor. -/
def convert_and_children (nodes : List NfaNode) (children : List RegexNode)
    (predecessor : Nat) : List NfaNode × Nat :=
  match children with
  | [] => (nodes, predecessor)
  | c :: rest =>
    let (nodes, new_node) := convert_regex_node nodes c predecessor
    convert_and_children nodes rest new_node

/-- The `Or` loop of `convert_regex_node`: compile each child against the
same predecessor and connect its target to the fresh target node. -/
def convert_or_children (nodes : List NfaNode) (children : List RegexNode)
    (predecessor target_node : Nat) : List NfaNode :=
  match children with
  | [] => nodes
  | c :: rest =>
    let (nodes, new_node) := convert_regex_node nodes c predecessor
    convert_or_children (connect nodes new_node target_node) rest predecessor target_node

end

/-- `Nfa` from `nfa.rs`. -/
structure Nfa where
  root : Nat
  nodes : List NfaNode
deriving DecidableEq, Repr

/-- `check_variables` from `nfa.rs`: reject a duplicate variable name. -/
def check_variables_go (nodes : List NfaNode) (visited : List String) :
    Except NfaError Unit :=
  match nodes with
  | [] => .ok ()
  | node :: rest =>
    match node.kind with
    | .var v =>
      if v.name ∈ visited then .error (.duplicateVariable v.name)
      else check_variables_go rest (visited ++ [v.name])
    | .simple => check_variables_go rest visited

/-- `check_variables` from `nfa.rs`. -/
def check_variables (nodes : List NfaNode) : Except NfaError Unit :=
  check_variables_go nodes []

/-- `impl TryFrom<Regex> for Nfa`. -/
def nfaTryFrom (value : RegexNode) : Except NfaError Nfa :=
  let (nodes, root_node) := addNode [] .EPSILON
  let (nodes, target_node) := convert_regex_node nodes value root_node
  let nodes := nodes.set target_node
    { getNode nodes target_node with is_accepting := true }
  match check_variables nodes with
  | .error e => .error e
  | .ok _ => .ok { root := root_node, nodes := nodes }

/-! Sanity checks of the NFA embedding. -/

example : nfaTryFrom (.many (.literal (.char 'A'))) = .ok
    { root := 0,
      nodes := [
        { edges := [1, 2], edge_kind := .epsilon, kind := .simple, is_accepting := false },
        { edges := [3], edge_kind := .epsilon, kind := .simple, is_accepting := false },
        { edges := [], edge_kind := .epsilon, kind := .simple, is_accepting := true },
        { edges := [1, 2], edge_kind := .pattern (.char 'A'), kind := .simple,
          is_accepting := false }] } := by rfl

example : nfaTryFrom (.or []) = .ok
    { root := 0,
      nodes := [
        { edges := [], edge_kind := .epsilon, kind := .simple, is_accepting := false },
        { edges := [], edge_kind := .epsilon, kind := .simple, is_accepting := true }] } := by
  rfl

/-- The NFA of `(a?)*`, whose ε-edges contain the two-cycle `1 ↔ 3`. -/
example : nfaTryFrom (.many (.zeroOrOne (.literal (.char 'a')))) = .ok
    { root := 0,
      nodes := [
        { edges := [1, 2], edge_kind := .epsilon, kind := .simple, is_accepting := false },
        { edges := [3, 4], edge_kind := .epsilon, kind := .simple, is_accepting := false },
        { edges := [], edge_kind := .epsilon, kind := .simple, is_accepting := true },
        { edges := [1, 2], edge_kind := .epsilon, kind := .simple, is_accepting := false },
        { edges := [3], edge_kind := .pattern (.char 'a'), kind := .simple,
          is_accepting := false }] } := by rfl

/-! ## DFA (`dfa.rs`)

Hash maps and sets (`FxHashMap`/`FxHashSet`) are modelled by lists:
insertion-ordered for the worklist and the bucket maps, and normalised to
ascending order where the Rust code sorts (`sort_unstable` + `dedup`) or
where only the map's content matters (map equality in `dedup` compares
content, so the edge map is stored sorted by key). -/

/-- `DfaError` from `dfa.rs`. -/
inductive DfaError
  | ambiguousVariables (first second : String)
deriving DecidableEq, Repr

/-- Insert into an ascending duplicate-free list of naturals
(the normal form of Rust's `sort_unstable` + `dedup`). -/
def insertSorted (x : Nat) : List Nat → List Nat
  | [] => [x]
  | y :: ys =>
    if x = y then y :: ys
    else if x < y then x :: y :: ys
    else y :: insertSorted x ys

/-- Sort ascending and remove duplicates (`sort_unstable` + `dedup`;
also the sorted image of an `FxHashSet`). -/
def sortDedup (l : List Nat) : List Nat :=
  l.foldr insertSorted []

/-- Set-insert into an insertion-ordered list-set. -/
def insertSet (s : List Nat) (x : Nat) : List Nat :=
  if x ∈ s then s else s ++ [x]

/-- Set-extend an insertion-ordered list-set. -/
def extendSet (s : List Nat) (xs : List Nat) : List Nat :=
  xs.foldl insertSet s

/-- The ε-successors of a node: the outgoing edges whose target node has
an ε edge kind (the filter inside `get_connected_nodes`). -/
def epsilon_successors (nfa : Nfa) (i : Nat) : List Nat :=
  (getNode nfa.nodes i).edges.filter fun t => (getNode nfa.nodes t).edge_kind.is_epsilon

/-- The state of `get_connected_nodes`' worklist loop from `dfa.rs`:
the visited set (`nodes`) and the worklist (`pending_nodes`). -/
structure ClosureState where
  nodes : List Nat
  pending_nodes : List Nat
deriving DecidableEq, Repr

/-- One iteration of the `while let Some(node)` loop of
`get_connected_nodes`: pop a pending node, insert it into the visited
set, and extend the worklist with all its ε-successors.  Note that, unlike
`FloodFillIter` in `util.rs`, this loop does **not** filter out
already-visited successors. -/
def closureStep (nfa : Nfa) (s : ClosureState) : ClosureState :=
  match s.pending_nodes with
  | [] => s
  | node :: rest =>
    { nodes := insertSet s.nodes node,
      pending_nodes := extendSet rest (epsilon_successors nfa node) }

/-- Run the `get_connected_nodes` loop for at most `fuel` iterations
(the Rust loop runs until `pending_nodes` is empty, which may never
happen — see the divergence theorem for claim C1). -/
def runClosure (nfa : Nfa) : Nat → ClosureState → ClosureState
  | 0, s => s
  | fuel + 1, s =>
    match s.pending_nodes with
    | [] => s
    | _ => runClosure nfa fuel (closureStep nfa s)

/-- `get_connected_nodes` from `dfa.rs` (fuelled). -/
def get_connected_nodes (nfa : Nfa) (fuel : Nat) (idx : Nat) : List Nat :=
  sortDedup (runClosure nfa fuel { nodes := [], pending_nodes := [idx] }).nodes

/-- `expand_group` from `dfa.rs`: the sorted union of the ε-closures of
the group members. -/
def expand_group (nfa : Nfa) (fuel : Nat) (group : List Nat) : List Nat :=
  sortDedup (group.foldr (fun i acc => get_connected_nodes nfa fuel i ++ acc) [])

/-- `get_non_epsilon_edges` from `dfa.rs`: every `(pattern, target)` edge
out of the group whose target carries a pattern edge kind. -/
def get_non_epsilon_edges (nfa : Nfa) (group : List Nat) : List (RegexPattern × Nat) :=
  group.foldr
    (fun node_idx acc =>
      ((getNode nfa.nodes node_idx).edges.filterMap fun edge_idx =>
        match (getNode nfa.nodes edge_idx).edge_kind with
        | .pattern p => some (p, edge_idx)
        | .epsilon => none) ++ acc)
    []

/-- `DfaEdges` from `dfa.rs`; `edges` holds the content of the
`Map<char, DfaIndex>`, stored sorted by key. -/
structure DfaEdges where
  default : Option Nat
  edges : List (Char × Nat)
deriving DecidableEq, Repr

/-- `DfaEdges::default()`. -/
def DfaEdges.emptyEdges : DfaEdges :=
  { default := none, edges := [] }

/-- `DfaNode` from `dfa.rs` (`var` is the `variable` field). -/
structure DfaNode where
  is_accepting : Bool
  var : Option RegexVariable
  edges : DfaEdges
deriving DecidableEq, Repr

/-- `DfaNode::default()`. -/
def DfaNode.defaultNode : DfaNode :=
  { is_accepting := false, var := none, edges := .emptyEdges }

/-- Arena lookup for DFA nodes. -/
def getDfaNode (nodes : List DfaNode) (i : Nat) : DfaNode :=
  nodes.getD i .defaultNode

/-- `DfaBuilder` from `dfa.rs`. -/
structure DfaBuilder where
  nodes : List DfaNode
  nfa_to_dfa : List (List Nat × Nat)
  pending_nodes : List (List Nat)
deriving DecidableEq, Repr

/-- Lookup in the `nfa_to_dfa` map. -/
def lookupGroup : List (List Nat × Nat) → List Nat → Option Nat
  | [], _ => none
  | (k, v) :: rest, key => if k = key then some v else lookupGroup rest key

/-- `DfaBuilder::insert`. -/
def DfaBuilder.insert (b : DfaBuilder) (key : List Nat) (node : DfaNode) :
    DfaBuilder × Nat :=
  match lookupGroup b.nfa_to_dfa key with
  | some idx => ({ b with nodes := b.nodes.set idx node }, idx)
  | none =>
    let idx := b.nodes.length
    ({ b with nodes := b.nodes ++ [node], nfa_to_dfa := b.nfa_to_dfa ++ [(key, idx)] },
      idx)

/-- `DfaBuilder::entry`. -/
def DfaBuilder.entry (b : DfaBuilder) (key : List Nat) : DfaBuilder × Nat :=
  match lookupGroup b.nfa_to_dfa key with
  | some idx => (b, idx)
  | none =>
    DfaBuilder.insert { b with pending_nodes := b.pending_nodes ++ [key] } key
      .defaultNode

/-- The edge buckets accumulated by `DfaEdges::from_nfa_group` before
closure conversion: the per-char map, the greedy-default bucket
(`AnyChar`), and the lazy-default bucket (`AnyCharLazy`). -/
structure Buckets where
  edge_map : List (Char × List Nat)
  default_edges : List Nat
  lazy_default_edges : List Nat
deriving DecidableEq, Repr

/-- `edge_map.entry(char).or_default().push(target)`. -/
def bucketPush (m : List (Char × List Nat)) (c : Char) (t : Nat) :
    List (Char × List Nat) :=
  match m with
  | [] => [(c, [t])]
  | (c', ts) :: rest =>
    if c' = c then (c', ts ++ [t]) :: rest
    else (c', ts) :: bucketPush rest c t

/-- Construct a `Char` from a valid scalar value. -/
def charOfNat? (n : Nat) : Option Char :=
  if h : n.isValidChar then some (Char.ofNatAux n h) else none

/-- The characters of the Rust range `start..=end` (valid scalar values
from `a` to `b` inclusive). -/
def rangeChars (a b : Char) : List Char :=
  (List.range' a.toNat (b.toNat + 1 - a.toNat)).filterMap charOfNat?

/-- The first loop of `DfaEdges::from_nfa_group`: distribute every edge
into the char buckets, the greedy-default bucket, or the lazy-default
bucket. -/
def collectBuckets (edges : List (RegexPattern × Nat)) : Buckets :=
  edges.foldl
    (fun b (pt : RegexPattern × Nat) =>
      match pt.1 with
      | .char c => { b with edge_map := bucketPush b.edge_map c pt.2 }
      | .range a z =>
        { b with edge_map := (rangeChars a z).foldl (fun m c => bucketPush m c pt.2) b.edge_map }
      | .anyChar => { b with default_edges := b.default_edges ++ [pt.2] }
      | .anyCharLazy => { b with lazy_default_edges := b.lazy_default_edges ++ [pt.2] })
    { edge_map := [], default_edges := [], lazy_default_edges := [] }

/-- The two normalisation steps of `DfaEdges::from_nfa_group`:
every char bucket additionally receives all greedy-default targets
(then `sort`+`dedup`), and the greedy-default bucket, when non-empty,
replaces the lazy-default bucket (then `sort`+`dedup`). -/
def finalizeBuckets (b : Buckets) : List (Char × List Nat) × List Nat :=
  let edge_map := b.edge_map.map fun cts => (cts.1, sortDedup (cts.2 ++ b.default_edges))
  let default_edges :=
    if b.default_edges.isEmpty then b.lazy_default_edges else b.default_edges
  (edge_map, sortDedup default_edges)

/-- Insert into a list of `(char, target)` pairs sorted by char. -/
def insertEdgePair (p : Char × Nat) : List (Char × Nat) → List (Char × Nat)
  | [] => [p]
  | q :: qs => if p.1.toNat ≤ q.1.toNat then p :: q :: qs else q :: insertEdgePair p qs

/-- Sort an edge list by char (the canonical representation of the
`FxHashMap` content). -/
def sortEdges (l : List (Char × Nat)) : List (Char × Nat) :=
  l.foldr insertEdgePair []

/-- The per-char-bucket `entry` fold of `DfaEdges::from_nfa_group`. -/
def entryFold (closureFuel : Nat) (nfa : Nfa) (edge_map : List (Char × List Nat))
    (acc : DfaBuilder × List (Char × Nat)) : DfaBuilder × List (Char × Nat) :=
  edge_map.foldl
    (fun acc cts =>
      ((acc.1.entry (expand_group nfa closureFuel cts.2)).1,
        acc.2 ++ [(cts.1, (acc.1.entry (expand_group nfa closureFuel cts.2)).2)]))
    acc

/-- `DfaEdges::from_nfa_group` from `dfa.rs`. -/
def from_nfa_group (closureFuel : Nat) (dfa : DfaBuilder) (nfa : Nfa)
    (group : List Nat) : DfaBuilder × DfaEdges :=
  let fb := finalizeBuckets (collectBuckets (get_non_epsilon_edges nfa group))
  let withDefault : DfaBuilder × Option Nat :=
    if fb.2.isEmpty then (dfa, none)
    else
      ((dfa.entry (expand_group nfa closureFuel fb.2)).1,
        some (dfa.entry (expand_group nfa closureFuel fb.2)).2)
  let folded := entryFold closureFuel nfa fb.1 (withDefault.1, [])
  (folded.1, { default := withDefault.2, edges := sortEdges folded.2 })

/-- `DfaBuilder::compute_group_variable` from `dfa.rs`: fold over the
group members; a second variable-carrying member is an
ambiguous-variables error. -/
def compute_group_variable_go (nfa : Nfa) (acc : Option RegexVariable) :
    List Nat → Except DfaError (Option RegexVariable)
  | [] => .ok acc
  | nfa_idx :: rest =>
    match (getNode nfa.nodes nfa_idx).kind with
    | .simple => compute_group_variable_go nfa acc rest
    | .var v =>
      match acc with
      | none => compute_group_variable_go nfa (some v) rest
      | some other_var => .error (.ambiguousVariables other_var.name v.name)

/-- `DfaBuilder::compute_group_variable`. -/
def compute_group_variable (nfa : Nfa) (group : List Nat) :
    Except DfaError (Option RegexVariable) :=
  compute_group_variable_go nfa none group

/-- `DfaBuilder::compute_group`. -/
def compute_group (closureFuel : Nat) (b : DfaBuilder) (nfa : Nfa)
    (group : List Nat) : Except DfaError DfaBuilder :=
  let fg := from_nfa_group closureFuel b nfa group
  let is_accepting := group.any fun nfa_idx => (getNode nfa.nodes nfa_idx).is_accepting
  match compute_group_variable nfa group with
  | .error e => .error e
  | .ok v =>
    .ok (fg.1.insert group
      { is_accepting := is_accepting, var := v, edges := fg.2 }).1

/-- The `while let Some(group)` worklist loop of
`impl TryFrom<Nfa> for Dfa` (fuelled). -/
def buildLoop (nfa : Nfa) (closureFuel : Nat) :
    Nat → DfaBuilder → Except DfaError DfaBuilder
  | 0, b => .ok b
  | fuel + 1, b =>
    match b.pending_nodes with
    | [] => .ok b
    | group :: rest => do
      let b' ← compute_group closureFuel { b with pending_nodes := rest } nfa group
      buildLoop nfa closureFuel fuel b'

/-! ### Deduplication (`DfaBuilder::dedup`) -/

/-- `DfaEdges::replace`: retarget every edge equal to `old_target`. -/
def DfaEdges.replace (e : DfaEdges) (old_target new_target : Nat) : DfaEdges :=
  { default := e.default.map fun d => if d = old_target then new_target else d,
    edges := e.edges.map fun ct => (ct.1, if ct.2 = old_target then new_target else ct.2) }

/-- Apply `DfaEdges::replace` to every node of the arena
(the `for (_, node) in self.nodes.iter_mut()` loop). -/
def replaceAll (nodes : List DfaNode) (old_target new_target : Nat) : List DfaNode :=
  nodes.map fun n => { n with edges := n.edges.replace old_target new_target }

/-- One scan for duplicates: walk the arena in index order, skipping the
already-retired nodes, and pair every node structurally equal to an
earlier visited node with that node. -/
def findDuplicates_go (nodes : List DfaNode) (retired : List Nat) :
    List Nat → List Nat → List (Nat × Nat) → List Nat × List (Nat × Nat)
  | [], visited, dups => (visited, dups)
  | i :: rest, visited, dups =>
    if i ∈ retired then findDuplicates_go nodes retired rest visited dups
    else
      match visited.find? (fun j => getDfaNode nodes j = getDfaNode nodes i) with
      | some j => findDuplicates_go nodes retired rest visited (dups ++ [(i, j)])
      | none => findDuplicates_go nodes retired rest (visited ++ [i]) dups

/-- The duplicate scan of one round of `DfaBuilder::dedup`. -/
def findDuplicates (nodes : List DfaNode) (retired : List Nat) : List (Nat × Nat) :=
  (findDuplicates_go nodes retired (List.range nodes.length) [] []).2

/-- The `for (previous, new) in duplicates` loop: retire each duplicate
and retarget every edge pointing at it. -/
def applyDuplicates (nodes : List DfaNode) (retired : List Nat) :
    List (Nat × Nat) → List DfaNode × List Nat
  | [] => (nodes, retired)
  | (previous, new_idx) :: rest =>
    applyDuplicates (replaceAll nodes previous new_idx) (retired ++ [previous]) rest

/-- The fixpoint loop of `DfaBuilder::dedup` (fuelled; it terminates
within `nodes.length + 1` rounds because every round retires at least
one further node). -/
def dedupLoop (nodes : List DfaNode) (retired : List Nat) :
    Nat → List DfaNode × List Nat
  | 0 => (nodes, retired)
  | fuel + 1 =>
    let dups := findDuplicates nodes retired
    if dups.isEmpty then (nodes, retired)
    else
      dedupLoop (applyDuplicates nodes retired dups).1
        (applyDuplicates nodes retired dups).2 fuel

/-- `DfaBuilder::dedup`. -/
def DfaBuilder.dedup (b : DfaBuilder) : DfaBuilder :=
  { b with nodes := (dedupLoop b.nodes [] (b.nodes.length + 1)).1 }

/-- `Dfa` from `dfa.rs`. -/
structure Dfa where
  root : Nat
  nodes : List DfaNode
deriving DecidableEq, Repr

/-- `impl TryFrom<Nfa> for Dfa`.  The worklist and closure fuels are
sufficient for every terminating run (there are at most `2 ^ n` distinct
group keys); `get_connected_nodes` itself need not terminate (claim C1). -/
def dfaTryFrom (nfa : Nfa) : Except DfaError Dfa :=
  let closureFuel := 2 ^ nfa.nodes.length + 1
  let root_group := expand_group nfa closureFuel [nfa.root]
  let b : DfaBuilder := { nodes := [], nfa_to_dfa := [], pending_nodes := [root_group] }
  match buildLoop nfa closureFuel (2 ^ nfa.nodes.length + 2) b with
  | .error e => .error e
  | .ok b =>
    let b := b.dedup
    .ok { root := (lookupGroup b.nfa_to_dfa root_group).getD 0, nodes := b.nodes }

/-! Sanity checks of the DFA embedding. -/

/-- The DFA of `A*`: the root group materialises *after* its successor
group, the two states end up structurally equal, `dedup` retires the
later one (the root), and the returned root still points at the retired
duplicate. -/
example : (nfaTryFrom (.many (.literal (.char 'A')))).map dfaTryFrom = .ok (.ok
    { root := 1,
      nodes := [
        { is_accepting := true, var := none,
          edges := { default := none, edges := [('A', 0)] } },
        { is_accepting := true, var := none,
          edges := { default := none, edges := [('A', 0)] } }] }) := by rfl

/-- The DFA of `A`. -/
example : (nfaTryFrom (.literal (.char 'A'))).map dfaTryFrom = .ok (.ok
    { root := 1,
      nodes := [
        { is_accepting := true, var := none, edges := .emptyEdges },
        { is_accepting := false, var := none,
          edges := { default := none, edges := [('A', 0)] } }] }) := by rfl

/-! ## Claim C3 (`{name*}` / `{name}` parsing)

`RegexParser::parse_variable` consumes `{`, an identifier, and then
immediately expects `}`: it never consumes a `*`, so `{name*}` is
rejected with an `UnexpectedToken` error instead of producing a
`Multiple`-kind variable (the source even passes the bare identifier
`String` where a `RegexVariable { name, kind }` is required, so no kind
is ever chosen).  This contradicts the crate's own documentation
(`lib.rs`: "`{var_name*}`: Captures multiple") and its tests
(`tests/compile.rs` uses `{result*}` and `{var*}`). -/

/-- C3: parsing the pattern `{a*}` does not succeed with a
`Multiple`-kind variable; it fails with
`UnexpectedToken {{ got: '*', expected: '}}' }}`. -/
theorem parse_variable_star_is_rejected :
    fromStr "{a*}" =
      .error (.err (.unexpectedToken (.postfixOp .star) .rightBrace)) := by rfl

/-! ## Claim C8 (trailing backslash)

`Tokenizer::next` on a trailing `\` returns `None` (with a TODO comment
"This should probably return an error"): the token stream silently ends
and no tokenization error exists anywhere in the pipeline's error
taxonomy.  The spec says it is a tokenization error. -/

/-- C8: tokenizing an input that ends in an unescaped `\` silently drops
the backslash and ends the stream; no error is reported (the tokenizer
has no error channel at all). -/
theorem tokenize_trailing_backslash_silently_ends :
    tokenize "\\" = [] ∧ tokenize "a\\" = [Token.char 'a'] :=
  ⟨rfl, rfl⟩

/-! ## Claim C9 (totality of `Regex::from_str`)

`RegexParser::consume_as_char` stringifies the consumed token via its
`Display` form and asserts that the result is a single character.  For a
character-class token inside `[...]` the `Display` form is the
two-character string `\d` (or `\s`, `\w`), so the assertion fires and
the parser panics.  This contradicts the crate's own
`macro_does_not_panic` property test. -/

/-- C9: `Regex::from_str` panics on the pattern `[\d]`: inside a group,
`consume_as_char` passes the two-character `Display` form `"\d"` of the
class token to `single_char`, whose single-character assertion fails. -/
theorem from_str_panics_on_digit_class_in_group :
    fromStr "[\\d]" = .error .panicked := by rfl

/-! ## Claim C2 (default-edge precedence in `DfaEdges::from_nfa_group`) -/

/-- The greedy-default (`AnyChar`) targets of an edge list. -/
def greedyTargets (edges : List (RegexPattern × Nat)) : List Nat :=
  edges.filterMap fun pt => if pt.1 = .anyChar then some pt.2 else none

/-- The lazy-default (`AnyCharLazy`) targets of an edge list. -/
def lazyTargets (edges : List (RegexPattern × Nat)) : List Nat :=
  edges.filterMap fun pt => if pt.1 = .anyCharLazy then some pt.2 else none

theorem mem_insertSorted {x a : Nat} {l : List Nat} :
    x ∈ insertSorted a l ↔ x = a ∨ x ∈ l := by
  induction l with
  | nil => simp [insertSorted]
  | cons y ys ih =>
    simp only [insertSorted]
    split
    · next heq =>
      subst heq
      constructor
      · exact fun hx => Or.inr hx
      · rintro (rfl | hx)
        · exact List.mem_cons_self _ _
        · exact hx
    · split
      · constructor
        · intro hx
          rcases List.mem_cons.mp hx with rfl | hx
          · exact Or.inl rfl
          · exact Or.inr hx
        · rintro (rfl | hx)
          · exact List.mem_cons_self _ _
          · exact List.mem_cons_of_mem _ hx
      · constructor
        · intro hx
          rcases List.mem_cons.mp hx with rfl | hx
          · exact Or.inr (List.mem_cons_self _ _)
          · rcases ih.mp hx with rfl | hx
            · exact Or.inl rfl
            · exact Or.inr (List.mem_cons_of_mem _ hx)
        · rintro (rfl | hx)
          · exact List.mem_cons_of_mem _ (ih.mpr (Or.inl rfl))
          · rcases List.mem_cons.mp hx with rfl | hx
            · exact List.mem_cons_self _ _
            · exact List.mem_cons_of_mem _ (ih.mpr (Or.inr hx))

theorem mem_sortDedup {x : Nat} {l : List Nat} :
    x ∈ sortDedup l ↔ x ∈ l := by
  induction l with
  | nil => simp [sortDedup]
  | cons y ys ih =>
    simp only [sortDedup, List.foldr_cons, List.mem_cons]
    rw [show ys.foldr insertSorted [] = sortDedup ys from rfl] at *
    rw [mem_insertSorted, ih]

/-- The `default_edges` accumulator of `collectBuckets` collects exactly
the `AnyChar` targets, in order. -/
theorem collectBuckets_default_edges (edges : List (RegexPattern × Nat)) :
    (collectBuckets edges).default_edges = greedyTargets edges := by
  suffices h : ∀ (edges : List (RegexPattern × Nat)) (b : Buckets),
      (edges.foldl
        (fun b (pt : RegexPattern × Nat) =>
          match pt.1 with
          | .char c => { b with edge_map := bucketPush b.edge_map c pt.2 }
          | .range a z =>
            { b with edge_map :=
                (rangeChars a z).foldl (fun m c => bucketPush m c pt.2) b.edge_map }
          | .anyChar => { b with default_edges := b.default_edges ++ [pt.2] }
          | .anyCharLazy =>
            { b with lazy_default_edges := b.lazy_default_edges ++ [pt.2] })
        b).default_edges = b.default_edges ++ greedyTargets edges by
    simpa [collectBuckets] using h edges _
  intro edges
  induction edges with
  | nil => intro b; simp [greedyTargets]
  | cons pt rest ih =>
    intro b
    obtain ⟨p, t⟩ := pt
    cases p <;> simp [greedyTargets, ih, List.filterMap_cons]

/-- The `lazy_default_edges` accumulator of `collectBuckets` collects
exactly the `AnyCharLazy` targets, in order. -/
theorem collectBuckets_lazy_default_edges (edges : List (RegexPattern × Nat)) :
    (collectBuckets edges).lazy_default_edges = lazyTargets edges := by
  suffices h : ∀ (edges : List (RegexPattern × Nat)) (b : Buckets),
      (edges.foldl
        (fun b (pt : RegexPattern × Nat) =>
          match pt.1 with
          | .char c => { b with edge_map := bucketPush b.edge_map c pt.2 }
          | .range a z =>
            { b with edge_map :=
                (rangeChars a z).foldl (fun m c => bucketPush m c pt.2) b.edge_map }
          | .anyChar => { b with default_edges := b.default_edges ++ [pt.2] }
          | .anyCharLazy =>
            { b with lazy_default_edges := b.lazy_default_edges ++ [pt.2] })
        b).lazy_default_edges = b.lazy_default_edges ++ lazyTargets edges by
    simpa [collectBuckets] using h edges _
  intro edges
  induction edges with
  | nil => intro b; simp [lazyTargets]
  | cons pt rest ih =>
    intro b
    obtain ⟨p, t⟩ := pt
    cases p <;> simp [lazyTargets, ih, List.filterMap_cons]

/-- C2: in `DfaEdges::from_nfa_group`'s edge derivation for any NFA group:
every explicit-char bucket of the finalised edge map additionally
contains every greedy-default (`AnyChar`) target; if the greedy-default
bucket is non-empty the final default bucket is exactly the (sorted,
deduplicated) greedy bucket — the lazy bucket is discarded; otherwise
the final default bucket is exactly the (sorted, deduplicated)
lazy-default (`AnyCharLazy`) bucket. -/
theorem from_nfa_group_bucket_spec (nfa : Nfa) (group : List Nat) :
    (∀ c ts, (c, ts) ∈ (finalizeBuckets (collectBuckets
        (get_non_epsilon_edges nfa group))).1 →
      ∀ t ∈ greedyTargets (get_non_epsilon_edges nfa group), t ∈ ts) ∧
    (greedyTargets (get_non_epsilon_edges nfa group) ≠ [] →
      (finalizeBuckets (collectBuckets (get_non_epsilon_edges nfa group))).2 =
        sortDedup (greedyTargets (get_non_epsilon_edges nfa group))) ∧
    (greedyTargets (get_non_epsilon_edges nfa group) = [] →
      (finalizeBuckets (collectBuckets (get_non_epsilon_edges nfa group))).2 =
        sortDedup (lazyTargets (get_non_epsilon_edges nfa group))) := by
  set edges := get_non_epsilon_edges nfa group with hedges
  have hdef := collectBuckets_default_edges edges
  have hlazy := collectBuckets_lazy_default_edges edges
  refine ⟨?_, ?_, ?_⟩
  · intro c ts hmem t ht
    simp only [finalizeBuckets, List.mem_map] at hmem
    obtain ⟨⟨c', ts'⟩, _, heq⟩ := hmem
    obtain ⟨rfl, rfl⟩ := Prod.mk.injEq .. ▸ heq
    rw [mem_sortDedup, List.mem_append]
    right
    rw [hdef]
    exact ht
  · intro hne
    simp only [finalizeBuckets]
    rw [hdef, if_neg (by simpa [List.isEmpty_iff] using hne)]
  · intro he
    simp only [finalizeBuckets]
    rw [hdef, if_pos (by simpa [List.isEmpty_iff] using he), hlazy]

/-- Witness for C2 on a concrete one-state NFA with an explicit `a` edge,
an `AnyChar` edge and an `AnyCharLazy` edge. -/
theorem from_nfa_group_bucket_spec_witness :
    let nfa : Nfa :=
      { root := 0,
        nodes := [
          { edges := [1, 2, 3], edge_kind := .epsilon, kind := .simple,
            is_accepting := false },
          { edges := [], edge_kind := .pattern (.char 'a'), kind := .simple,
            is_accepting := false },
          { edges := [], edge_kind := .pattern .anyChar, kind := .simple,
            is_accepting := false },
          { edges := [], edge_kind := .pattern .anyCharLazy, kind := .simple,
            is_accepting := false }] }
    (2 : Nat) ∈ [1, 2] ∧
      (finalizeBuckets (collectBuckets (get_non_epsilon_edges nfa [0]))).2 = [2] := by
  intro nfa
  constructor
  · exact (from_nfa_group_bucket_spec nfa [0]).1 'a' [1, 2] (by decide) 2 (by decide)
  · have h := (from_nfa_group_bucket_spec nfa [0]).2.1 (by decide)
    rw [h]
    decide

/-! ## Claim C4 (per-group accepting flag and variable tag) -/

/-- The variables carried by the members of a group. -/
def groupVars (nfa : Nfa) (group : List Nat) : List RegexVariable :=
  group.filterMap fun i =>
    match (getNode nfa.nodes i).kind with
    | .var v => some v
    | .simple => none

theorem groupVars_cons_simple {nfa : Nfa} {i : Nat} {rest : List Nat}
    (hk : (getNode nfa.nodes i).kind = .simple) :
    groupVars nfa (i :: rest) = groupVars nfa rest := by
  simp [groupVars, List.filterMap_cons, hk]

theorem groupVars_cons_var {nfa : Nfa} {i : Nat} {rest : List Nat}
    {v : RegexVariable} (hk : (getNode nfa.nodes i).kind = .var v) :
    groupVars nfa (i :: rest) = v :: groupVars nfa rest := by
  simp [groupVars, List.filterMap_cons, hk]

theorem compute_group_variable_go_of_no_var (nfa : Nfa) :
    ∀ (group : List Nat) (acc : Option RegexVariable),
      groupVars nfa group = [] → compute_group_variable_go nfa acc group = .ok acc := by
  intro group
  induction group with
  | nil => intro acc _; rfl
  | cons i rest ih =>
    intro acc h
    cases hk : (getNode nfa.nodes i).kind with
    | simple =>
      simp only [compute_group_variable_go, hk]
      exact ih acc (by rwa [groupVars_cons_simple hk] at h)
    | var v =>
      rw [groupVars_cons_var hk] at h
      simp at h

theorem compute_group_variable_go_some_of_var (nfa : Nfa) :
    ∀ (group : List Nat) (w : RegexVariable),
      groupVars nfa group ≠ [] →
      ∃ a b, compute_group_variable_go nfa (some w) group =
        .error (.ambiguousVariables a b) := by
  intro group
  induction group with
  | nil => intro w h; simp [groupVars] at h
  | cons i rest ih =>
    intro w h
    cases hk : (getNode nfa.nodes i).kind with
    | simple =>
      simp only [compute_group_variable_go, hk]
      exact ih w (by rwa [groupVars_cons_simple hk] at h)
    | var v =>
      exact ⟨w.name, v.name, by simp [compute_group_variable_go, hk]⟩

theorem compute_group_variable_go_of_single (nfa : Nfa) :
    ∀ (group : List Nat) (v : RegexVariable),
      groupVars nfa group = [v] →
      compute_group_variable_go nfa none group = .ok (some v) := by
  intro group
  induction group with
  | nil => intro v h; simp [groupVars] at h
  | cons i rest ih =>
    intro v h
    cases hk : (getNode nfa.nodes i).kind with
    | simple =>
      simp only [compute_group_variable_go, hk]
      exact ih v (by rwa [groupVars_cons_simple hk] at h)
    | var w =>
      rw [groupVars_cons_var hk] at h
      obtain ⟨rfl, htail⟩ := List.cons.injEq .. ▸ h
      simp only [compute_group_variable_go, hk]
      exact compute_group_variable_go_of_no_var nfa rest _ htail

theorem compute_group_variable_go_ambiguous (nfa : Nfa) :
    ∀ (group : List Nat) (v w : RegexVariable),
      v ∈ groupVars nfa group → w ∈ groupVars nfa group → v.name ≠ w.name →
      ∃ a b, compute_group_variable_go nfa none group =
        .error (.ambiguousVariables a b) := by
  intro group
  induction group with
  | nil => intro v w hv _ _; simp [groupVars] at hv
  | cons i rest ih =>
    intro v w hv hw hne
    cases hk : (getNode nfa.nodes i).kind with
    | simple =>
      rw [groupVars_cons_simple hk] at hv hw
      simp only [compute_group_variable_go, hk]
      exact ih v w hv hw hne
    | var u =>
      rw [groupVars_cons_var hk] at hv hw
      simp only [compute_group_variable_go, hk]
      apply compute_group_variable_go_some_of_var
      simp only [List.mem_cons] at hv hw
      intro htail
      rcases hv with rfl | hv
      · rcases hw with rfl | hw
        · exact hne rfl
        · rw [htail] at hw
          simp at hw
      · rw [htail] at hv
        simp at hv

/-- A successful map lookup yields a map entry. -/
theorem lookupGroup_mem : ∀ (m : List (List Nat × Nat)) (k : List Nat) (i : Nat),
    lookupGroup m k = some i → (k, i) ∈ m := by
  intro m
  induction m with
  | nil => intro k i h; simp [lookupGroup] at h
  | cons kv rest ih =>
    intro k i h
    obtain ⟨k', v'⟩ := kv
    simp only [lookupGroup] at h
    split at h
    · next he =>
      subst he
      cases h
      exact List.mem_cons_self _ _
    · exact List.mem_cons_of_mem _ (ih k i h)

/-- Appending a fresh entry makes it found. -/
theorem lookupGroup_append_self : ∀ (m : List (List Nat × Nat)) (k : List Nat) (v : Nat),
    lookupGroup m k = none → lookupGroup (m ++ [(k, v)]) k = some v := by
  intro m
  induction m with
  | nil => intro k v _; simp [lookupGroup]
  | cons kv rest ih =>
    intro k v h
    obtain ⟨k', v'⟩ := kv
    simp only [lookupGroup] at h ⊢
    split at h
    · exact absurd h (by simp)
    · next he =>
      rw [if_neg he]
      exact ih k v h

/-- `DfaBuilder.insert` makes the key map to a node slot holding exactly
the inserted node, provided every map value is a valid arena index. -/
theorem insert_lookup_get (b : DfaBuilder) (key : List Nat) (node : DfaNode)
    (hb : ∀ kv ∈ b.nfa_to_dfa, kv.2 < b.nodes.length) :
    lookupGroup (b.insert key node).1.nfa_to_dfa key = some (b.insert key node).2 ∧
    getDfaNode (b.insert key node).1.nodes (b.insert key node).2 = node := by
  rcases hcase : lookupGroup b.nfa_to_dfa key with _ | idx
  · constructor
    · simp only [DfaBuilder.insert, hcase]
      exact lookupGroup_append_self _ _ _ hcase
    · simp only [DfaBuilder.insert, hcase, getDfaNode]
      rw [List.getD_eq_getElem?_getD, List.getElem?_append_right (le_refl _)]
      simp
  · have hidx := hb _ (lookupGroup_mem _ _ _ hcase)
    constructor
    · simpa only [DfaBuilder.insert, hcase] using hcase
    · simp only [DfaBuilder.insert, hcase, getDfaNode]
      rw [List.getD_eq_getElem?_getD, List.getElem?_set_self (by exact hidx)]
      simp

/-- The builder invariant: every map value is a valid arena index. -/
def mapInv (b : DfaBuilder) : Prop :=
  ∀ kv ∈ b.nfa_to_dfa, kv.2 < b.nodes.length

theorem mapInv_insert {b : DfaBuilder} (h : mapInv b) (key : List Nat)
    (node : DfaNode) : mapInv (b.insert key node).1 := by
  rcases hcase : lookupGroup b.nfa_to_dfa key with _ | idx
  · intro kv hkv
    simp only [DfaBuilder.insert, hcase] at hkv ⊢
    simp only [List.mem_append, List.mem_singleton] at hkv
    rcases hkv with hkv | rfl
    · simp only [List.length_append, List.length_singleton]
      exact Nat.lt_succ_of_lt (h kv hkv)
    · simp
  · intro kv hkv
    simp only [DfaBuilder.insert, hcase] at hkv ⊢
    simpa using h kv hkv

theorem mapInv_entry {b : DfaBuilder} (h : mapInv b) (key : List Nat) :
    mapInv (b.entry key).1 := by
  rcases hcase : lookupGroup b.nfa_to_dfa key with _ | idx
  · simp only [DfaBuilder.entry, hcase]
    exact mapInv_insert (b := { b with pending_nodes := b.pending_nodes ++ [key] })
      h key .defaultNode
  · simpa only [DfaBuilder.entry, hcase] using h

theorem mapInv_entryFold {nfa : Nfa} (fuel : Nat) :
    ∀ (l : List (Char × List Nat)) (acc : DfaBuilder × List (Char × Nat)),
      mapInv acc.1 → mapInv (entryFold fuel nfa l acc).1 := by
  intro l
  induction l with
  | nil => intro acc hacc; exact hacc
  | cons cts rest ih =>
    intro acc hacc
    exact ih _ (mapInv_entry hacc _)

theorem mapInv_from_nfa_group {b : DfaBuilder} (h : mapInv b) (fuel : Nat)
    (nfa : Nfa) (group : List Nat) :
    mapInv (from_nfa_group fuel b nfa group).1 := by
  rw [from_nfa_group]
  apply mapInv_entryFold
  dsimp only
  split
  · exact h
  · exact mapInv_entry h _

/-- C4: for `DfaBuilder::compute_group` on an NFA group, given the builder
invariant that every map value is a valid arena index:
the resulting DFA node for the group is accepting iff some member NFA
node is accepting; when exactly one member carries a variable, the
node's variable tag is that variable (and with no variable-carrying
members the tag is `none`); and when two members carry different
variable names, `compute_group` fails with an `AmbiguousVariables`
error. -/
theorem compute_group_spec (nfa : Nfa) (group : List Nat) (fuel : Nat)
    (b : DfaBuilder) (hb : mapInv b) :
    (∀ b', compute_group fuel b nfa group = .ok b' →
      ∃ idx, lookupGroup b'.nfa_to_dfa group = some idx ∧
        ((getDfaNode b'.nodes idx).is_accepting = true ↔
          ∃ i ∈ group, (getNode nfa.nodes i).is_accepting = true) ∧
        (∀ v, groupVars nfa group = [v] → (getDfaNode b'.nodes idx).var = some v) ∧
        (groupVars nfa group = [] → (getDfaNode b'.nodes idx).var = none)) ∧
    ((∃ v ∈ groupVars nfa group, ∃ w ∈ groupVars nfa group, v.name ≠ w.name) →
      ∃ a c, compute_group fuel b nfa group = .error (.ambiguousVariables a c)) := by
  have hinv : mapInv (from_nfa_group fuel b nfa group).1 :=
    mapInv_from_nfa_group hb fuel nfa group
  constructor
  · intro b' hok
    rw [compute_group] at hok
    rcases hcv : compute_group_variable nfa group with e | v
    · rw [hcv] at hok
      cases hok
    · rw [hcv] at hok
      simp only [Except.ok.injEq] at hok
      subst hok
      set fg := from_nfa_group fuel b nfa group with hfg
      set node : DfaNode :=
        { is_accepting := group.any fun nfa_idx => (getNode nfa.nodes nfa_idx).is_accepting,
          var := v, edges := fg.2 } with hnode
      have h2 := insert_lookup_get fg.1 group node hinv
      refine ⟨(fg.1.insert group node).2, h2.1, ?_, ?_, ?_⟩
      · rw [h2.2, hnode]
        simpa using List.any_eq_true
      · intro v' hsingle
        have hv' := compute_group_variable_go_of_single nfa group v' hsingle
        rw [show compute_group_variable nfa group =
          compute_group_variable_go nfa none group from rfl, hv'] at hcv
        cases hcv
        rw [h2.2]
      · intro hnone
        have hv' := compute_group_variable_go_of_no_var nfa group none hnone
        rw [show compute_group_variable nfa group =
          compute_group_variable_go nfa none group from rfl, hv'] at hcv
        cases hcv
        rw [h2.2]
  · rintro ⟨v, hv, w, hw, hne⟩
    obtain ⟨a, c, he⟩ := compute_group_variable_go_ambiguous nfa group v w hv hw hne
    refine ⟨a, c, ?_⟩
    rw [compute_group, show compute_group_variable nfa group =
      compute_group_variable_go nfa none group from rfl, he]

/-- Witness for C4: a two-node group whose second member is accepting and
carries the only variable, and a two-variable group with different names
that fails with an ambiguous-variables error. -/
theorem compute_group_spec_witness :
    (∃ idx,
      lookupGroup
        (DfaBuilder.mk
          [{ is_accepting := false, var := none, edges := .emptyEdges },
           { is_accepting := true,
             var := some { name := "v", kind := .singular },
             edges := { default := some 0, edges := [] } }]
          [([1], 0), ([0, 1], 1)] [[1]]).nfa_to_dfa [0, 1] = some idx ∧
      ((getDfaNode
        (DfaBuilder.mk
          [{ is_accepting := false, var := none, edges := .emptyEdges },
           { is_accepting := true,
             var := some { name := "v", kind := .singular },
             edges := { default := some 0, edges := [] } }]
          [([1], 0), ([0, 1], 1)] [[1]]).nodes idx).is_accepting = true ↔
        ∃ i ∈ [0, 1], (getNode (Nfa.mk 0
          [{ edges := [1], edge_kind := .epsilon, kind := .simple, is_accepting := false },
           { edges := [1], edge_kind := .pattern .anyCharLazy,
             kind := .var { name := "v", kind := .singular }, is_accepting := true }]).nodes
          i).is_accepting = true) ∧
      (∀ v, groupVars (Nfa.mk 0
          [{ edges := [1], edge_kind := .epsilon, kind := .simple, is_accepting := false },
           { edges := [1], edge_kind := .pattern .anyCharLazy,
             kind := .var { name := "v", kind := .singular }, is_accepting := true }])
          [0, 1] = [v] →
        (getDfaNode
          (DfaBuilder.mk
            [{ is_accepting := false, var := none, edges := .emptyEdges },
             { is_accepting := true,
               var := some { name := "v", kind := .singular },
               edges := { default := some 0, edges := [] } }]
            [([1], 0), ([0, 1], 1)] [[1]]).nodes idx).var = some v) ∧
      (groupVars (Nfa.mk 0
          [{ edges := [1], edge_kind := .epsilon, kind := .simple, is_accepting := false },
           { edges := [1], edge_kind := .pattern .anyCharLazy,
             kind := .var { name := "v", kind := .singular }, is_accepting := true }])
          [0, 1] = [] →
        (getDfaNode
          (DfaBuilder.mk
            [{ is_accepting := false, var := none, edges := .emptyEdges },
             { is_accepting := true,
               var := some { name := "v", kind := .singular },
               edges := { default := some 0, edges := [] } }]
            [([1], 0), ([0, 1], 1)] [[1]]).nodes idx).var = none)) ∧
    (∃ a c,
      compute_group 2 (DfaBuilder.mk [] [] []) (Nfa.mk 0
        [{ edges := [1], edge_kind := .pattern .anyCharLazy,
           kind := .var { name := "x", kind := .singular }, is_accepting := false },
         { edges := [], edge_kind := .pattern .anyCharLazy,
           kind := .var { name := "y", kind := .singular }, is_accepting := true }])
        [0, 1] = .error (.ambiguousVariables a c)) := by
  constructor
  · exact (compute_group_spec
      (Nfa.mk 0
        [{ edges := [1], edge_kind := .epsilon, kind := .simple, is_accepting := false },
         { edges := [1], edge_kind := .pattern .anyCharLazy,
           kind := .var { name := "v", kind := .singular }, is_accepting := true }])
      [0, 1] 2 (DfaBuilder.mk [] [] []) (by intro kv hkv; cases hkv)).1 _ rfl
  · exact (compute_group_spec
      (Nfa.mk 0
        [{ edges := [1], edge_kind := .pattern .anyCharLazy,
           kind := .var { name := "x", kind := .singular }, is_accepting := false },
         { edges := [], edge_kind := .pattern .anyCharLazy,
           kind := .var { name := "y", kind := .singular }, is_accepting := true }])
      [0, 1] 2 (DfaBuilder.mk [] [] []) (by intro kv hkv; cases hkv)).2
      ⟨{ name := "x", kind := .singular }, by decide,
       { name := "y", kind := .singular }, by decide, by decide⟩

/-! ## Claim C10 (`FloodFillIter` in `util.rs`)

The flood-fill iterator over an arbitrary neighbour function.  Unlike
`get_connected_nodes` in `dfa.rs`, `FloodFillIter::next` filters the
neighbours through the visited set, so it never revisits a node. -/

/-- `FloodFillIter::next`, iterated: pop a pending node, insert it into
the visited set, push its not-yet-visited neighbours, and yield it. -/
def floodFillGo (g : Nat → List Nat) : Nat → List Nat → List Nat → List Nat
  | 0, _, _ => []
  | fuel + 1, pending, visited =>
    match pending with
    | [] => []
    | next :: rest =>
      let visited' := insertSet visited next
      next :: floodFillGo g fuel
        (extendSet rest ((g next).filter fun t => decide (t ∉ visited'))) visited'

/-- `FloodFill::iter` from `util.rs` (fuelled; `n + 1` iterations suffice
for a graph with `n` nodes). -/
def floodFillIter (g : Nat → List Nat) (n : Nat) (start : Nat) : List Nat :=
  floodFillGo g (n + 1) [start] []

/-- Reachability in the neighbour graph (including the start itself). -/
inductive ReachG (g : Nat → List Nat) (start : Nat) : Nat → Prop
  | refl : ReachG g start start
  | step {i j : Nat} : ReachG g start i → j ∈ g i → ReachG g start j

/-- The neighbour function of the `FloodFill` impl for `Dfa`:
the default edge first, then the per-char targets. -/
def Dfa.neighbors (dfa : Dfa) (i : Nat) : List Nat :=
  (getDfaNode dfa.nodes i).edges.default.toList ++
    (getDfaNode dfa.nodes i).edges.edges.map Prod.snd

/-- `Dfa::iter` from `dfa.rs`: flood fill from the root. -/
def Dfa.iterList (dfa : Dfa) : List Nat :=
  floodFillIter dfa.neighbors dfa.nodes.length dfa.root

/-- `Codegen::collect_states` from `codegen.rs`: enumerate the reachable
DFA states in flood-fill order and pair each with its identifier index
(`State_{index}`). -/
def collect_states (dfa : Dfa) : List (Nat × Nat) :=
  dfa.iterList.enum.map fun p => (p.2, p.1)

theorem mem_insertSet {x a : Nat} {s : List Nat} :
    x ∈ insertSet s a ↔ x ∈ s ∨ x = a := by
  by_cases h : a ∈ s
  · simp only [insertSet, if_pos h]
    constructor
    · exact Or.inl
    · rintro (hx | rfl)
      · exact hx
      · exact h
  · simp [insertSet, if_neg h]

theorem insertSet_nodup {a : Nat} {s : List Nat} (h : s.Nodup) :
    (insertSet s a).Nodup := by
  by_cases hm : a ∈ s
  · simpa [insertSet, if_pos hm] using h
  · rw [insertSet, if_neg hm]
    refine List.Nodup.append h (List.nodup_singleton a) ?_
    intro x hx hxa
    rw [List.mem_singleton] at hxa
    subst hxa
    exact hm hx

theorem insertSet_length_of_not_mem {a : Nat} {s : List Nat} (h : a ∉ s) :
    (insertSet s a).length = s.length + 1 := by
  simp [insertSet, if_neg h]

theorem mem_extendSet {x : Nat} {xs s : List Nat} :
    x ∈ extendSet s xs ↔ x ∈ s ∨ x ∈ xs := by
  induction xs generalizing s with
  | nil => simp [extendSet]
  | cons y ys ih =>
    show x ∈ extendSet (insertSet s y) ys ↔ _
    rw [ih, mem_insertSet]
    simp only [List.mem_cons]
    tauto

theorem extendSet_nodup {xs s : List Nat} (h : s.Nodup) :
    (extendSet s xs).Nodup := by
  induction xs generalizing s with
  | nil => exact h
  | cons y ys ih => exact ih (insertSet_nodup h)

theorem length_lt_of_nodup_bound (l : List Nat) (n x : Nat) (hnd : l.Nodup)
    (hb : ∀ y ∈ l, y < n) (hx : x < n) (hxl : x ∉ l) : l.length < n := by
  classical
  have hsub : l.toFinset ⊆ Finset.range n := by
    intro y hy
    exact Finset.mem_range.mpr (hb y (List.mem_toFinset.mp hy))
  have hss : l.toFinset ⊂ Finset.range n := by
    refine Finset.ssubset_iff_of_subset hsub |>.mpr ?_
    exact ⟨x, Finset.mem_range.mpr hx, fun hc => hxl (List.mem_toFinset.mp hc)⟩
  have := Finset.card_lt_card hss
  rwa [List.toFinset_card_of_nodup hnd, Finset.card_range] at this

/-- The workhorse invariant lemma for `floodFillGo`: with disjoint
duplicate-free bounded pending/visited sets, all reachable, and enough
fuel, the output is duplicate-free, avoids the visited set, contains the
pending set, consists of reachable nodes, and is closed under the
neighbour function modulo the visited set; moreover one more unit of
fuel changes nothing. -/
theorem floodFillGo_spec (g : Nat → List Nat) (n start : Nat)
    (hg : ∀ i < n, ∀ j ∈ g i, j < n) :
    ∀ (fuel : Nat) (pending visited : List Nat),
      pending.Nodup → visited.Nodup →
      (∀ x ∈ pending, x ∉ visited) →
      (∀ x ∈ pending, x < n) → (∀ x ∈ visited, x < n) →
      (∀ x ∈ pending, ReachG g start x) →
      n ≤ fuel + visited.length →
      (∀ x ∈ floodFillGo g fuel pending visited, x ∉ visited) ∧
      (floodFillGo g fuel pending visited).Nodup ∧
      (∀ x ∈ floodFillGo g fuel pending visited, ReachG g start x) ∧
      (∀ x ∈ pending, x ∈ floodFillGo g fuel pending visited) ∧
      (∀ x ∈ floodFillGo g fuel pending visited, ∀ y ∈ g x,
        y ∈ visited ∨ y ∈ floodFillGo g fuel pending visited) ∧
      floodFillGo g (fuel + 1) pending visited = floodFillGo g fuel pending visited := by
  intro fuel
  induction fuel with
  | zero =>
    intro pending visited hpnd hvnd hdis hpb hvb hpr hfuel
    match hp : pending with
    | [] => simp [floodFillGo]
    | next :: rest =>
      exfalso
      have hnext : next < n := hpb next (by simp)
      have hnotm : next ∉ visited := hdis next (by simp)
      have := length_lt_of_nodup_bound visited n next hvnd hvb hnext hnotm
      omega
  | succ fuel ih =>
    intro pending visited hpnd hvnd hdis hpb hvb hpr hfuel
    match hp : pending with
    | [] => simp [floodFillGo]
    | next :: rest =>
      have hnext : next < n := hpb next (by simp)
      have hnotm : next ∉ visited := hdis next (by simp)
      have hreach : ReachG g start next := hpr next (by simp)
      set visited' := insertSet visited next with hvis'
      set pending' := extendSet rest ((g next).filter fun t => decide (t ∉ visited'))
        with hpend'
      have hrestnd : rest.Nodup := (List.nodup_cons.mp hpnd).2
      have hnextrest : next ∉ rest := (List.nodup_cons.mp hpnd).1
      have hpnd' : pending'.Nodup := extendSet_nodup hrestnd
      have hvnd' : visited'.Nodup := insertSet_nodup hvnd
      have hmem' : ∀ x, x ∈ pending' →
          x ∈ rest ∨ (x ∈ g next ∧ x ∉ visited') := by
        intro x hx
        rcases mem_extendSet.mp hx with hx | hx
        · exact Or.inl hx
        · rcases List.mem_filter.mp hx with ⟨h1, h2⟩
          exact Or.inr ⟨h1, by simpa using h2⟩
      have hdis' : ∀ x ∈ pending', x ∉ visited' := by
        intro x hx
        rcases hmem' x hx with hxr | hxg
        · intro hc
          rcases mem_insertSet.mp hc with hc | rfl
          · exact hdis x (List.mem_cons_of_mem _ hxr) hc
          · exact hnextrest hxr
        · exact hxg.2
      have hpb' : ∀ x ∈ pending', x < n := by
        intro x hx
        rcases hmem' x hx with hxr | hxg
        · exact hpb x (List.mem_cons_of_mem _ hxr)
        · exact hg next hnext x hxg.1
      have hvb' : ∀ x ∈ visited', x < n := by
        intro x hx
        rcases mem_insertSet.mp hx with hx | rfl
        · exact hvb x hx
        · exact hnext
      have hpr' : ∀ x ∈ pending', ReachG g start x := by
        intro x hx
        rcases hmem' x hx with hxr | hxg
        · exact hpr x (List.mem_cons_of_mem _ hxr)
        · exact ReachG.step hreach hxg.1
      have hfuel' : n ≤ fuel + visited'.length := by
        rw [hvis', insertSet_length_of_not_mem hnotm]
        omega
      obtain ⟨ihAvoid, ihNodup, ihReach, ihPending, ihClosed, ihStable⟩ :=
        ih pending' visited' hpnd' hvnd' hdis' hpb' hvb' hpr' hfuel'
      have hout : floodFillGo g (fuel + 1) pending visited =
          next :: floodFillGo g fuel pending' visited' := by
        rw [hp]
        rfl
      rw [hp] at *
      refine ⟨?_, ?_, ?_, ?_, ?_, ?_⟩
      · intro x hx
        rw [hout] at hx
        rcases List.mem_cons.mp hx with rfl | hx
        · exact hnotm
        · intro hc
          exact ihAvoid x hx (mem_insertSet.mpr (Or.inl hc))
      · rw [hout]
        refine List.nodup_cons.mpr ⟨?_, ihNodup⟩
        intro hc
        exact ihAvoid next hc (mem_insertSet.mpr (Or.inr rfl))
      · intro x hx
        rw [hout] at hx
        rcases List.mem_cons.mp hx with rfl | hx
        · exact hreach
        · exact ihReach x hx
      · intro x hx
        rw [hout]
        rcases List.mem_cons.mp hx with rfl | hx
        · exact List.mem_cons_self _ _
        · exact List.mem_cons_of_mem _
            (ihPending x (mem_extendSet.mpr (Or.inl hx)))
      · intro x hx y hy
        rw [hout] at hx ⊢
        rcases List.mem_cons.mp hx with rfl | hx
        · by_cases hyv : y ∈ visited'
          · rcases mem_insertSet.mp hyv with hyv | rfl
            · exact Or.inl hyv
            · exact Or.inr (List.mem_cons_self _ _)
          · refine Or.inr (List.mem_cons_of_mem _ (ihPending y ?_))
            exact mem_extendSet.mpr (Or.inr (List.mem_filter.mpr
              ⟨hy, by simpa using hyv⟩))
        · rcases ihClosed x hx y hy with hyv | hyp
          · rcases mem_insertSet.mp hyv with hyv | rfl
            · exact Or.inl hyv
            · exact Or.inr (List.mem_cons_self _ _)
          · exact Or.inr (List.mem_cons_of_mem _ hyp)
      · show floodFillGo g (fuel + 1 + 1) (next :: rest) visited = _
        rw [hout]
        conv_lhs => rw [show fuel + 1 + 1 = (fuel + 1) + 1 from rfl]
        rw [show floodFillGo g ((fuel + 1) + 1) (next :: rest) visited =
          next :: floodFillGo g (fuel + 1) pending' visited' from rfl, ihStable]

/-- C10: the flood-fill iterator yields each node at most once, is stable
once the fuel reaches `n + 1` (the loop has terminated), and yields
exactly the nodes reachable from the start (including the start);
consequently `Codegen::collect_states` assigns exactly one identifier
index per reachable DFA state: its keys are exactly the reachable states,
without duplicates, and the identifier indices `0, …, k-1` are pairwise
distinct. -/
theorem floodFillIter_spec (g : Nat → List Nat) (n start : Nat)
    (hg : ∀ i < n, ∀ j ∈ g i, j < n) (hstart : start < n) :
    (floodFillIter g n start).Nodup ∧
    (∀ fuel, n + 1 ≤ fuel →
      floodFillGo g fuel [start] [] = floodFillIter g n start) ∧
    (∀ x, x ∈ floodFillIter g n start ↔ ReachG g start x) ∧
    (∀ dfa : Dfa, dfa.root = start → dfa.nodes.length = n → dfa.neighbors = g →
      ((collect_states dfa).map Prod.fst).Nodup ∧
      (∀ x, x ∈ (collect_states dfa).map Prod.fst ↔ ReachG g start x) ∧
      ((collect_states dfa).map Prod.snd).Nodup) := by
  have base := floodFillGo_spec g n start hg (n + 1) [start] []
    (List.nodup_singleton _) List.nodup_nil (by simp)
    (by simpa using hstart) (by simp) (by simp; exact ReachG.refl) (by simp)
  obtain ⟨hAvoid, hNodup, hReach, hPending, hClosed, _⟩ := base
  have hmemiff : ∀ x, x ∈ floodFillIter g n start ↔ ReachG g start x := by
    intro x
    constructor
    · exact hReach x
    · intro hr
      induction hr with
      | refl => exact hPending start (by simp)
      | step hi hj ihx =>
        rcases hClosed _ ihx _ hj with hc | hc
        · simp at hc
        · exact hc
  have hstable : ∀ fuel, n + 1 ≤ fuel →
      floodFillGo g fuel [start] [] = floodFillIter g n start := by
    intro fuel hf
    induction fuel with
    | zero => omega
    | succ f ihf =>
      by_cases hle : n + 1 ≤ f
      · have step := (floodFillGo_spec g n start hg f [start] []
          (List.nodup_singleton _) List.nodup_nil (by simp)
          (by simpa using hstart) (by simp) (by simp; exact ReachG.refl)
          (by omega)).2.2.2.2.2
        rw [step]
        exact ihf hle
      · have : f + 1 = n + 1 := by omega
        rw [this]
        rfl
  refine ⟨hNodup, hstable, hmemiff, ?_⟩
  intro dfa h1 h2 h3
  have hkeys : (collect_states dfa).map Prod.fst = floodFillIter g n start := by
    simp only [collect_states, Dfa.iterList, h1, h2, h3, List.map_map]
    rw [show (Prod.fst ∘ fun p : Nat × Nat => (p.2, p.1)) = Prod.snd from rfl]
    rw [List.enum_map_snd]
  have hvals : (collect_states dfa).map Prod.snd =
      List.range dfa.iterList.length := by
    simp only [collect_states, List.map_map]
    rw [show (Prod.snd ∘ fun p : Nat × Nat => (p.2, p.1)) = Prod.fst from rfl]
    rw [List.enum_map_fst]
  refine ⟨hkeys ▸ hNodup, fun x => hkeys ▸ hmemiff x, ?_⟩
  rw [hvals]
  exact List.nodup_range _

/-- Witness for C10 on the two-node graph `0 → 1` (and the corresponding
one-edge DFA). -/
theorem floodFillIter_spec_witness :
    (floodFillIter (fun i => if i = 0 then [1] else []) 2 0).Nodup ∧
    (∀ fuel, 2 + 1 ≤ fuel →
      floodFillGo (fun i => if i = 0 then [1] else []) fuel [0] [] =
        floodFillIter (fun i => if i = 0 then [1] else []) 2 0) ∧
    (∀ x, x ∈ floodFillIter (fun i => if i = 0 then [1] else []) 2 0 ↔
      ReachG (fun i => if i = 0 then [1] else []) 0 x) ∧
    (∀ dfa : Dfa, dfa.root = 0 → dfa.nodes.length = 2 →
      dfa.neighbors = (fun i => if i = 0 then [1] else []) →
      ((collect_states dfa).map Prod.fst).Nodup ∧
      (∀ x, x ∈ (collect_states dfa).map Prod.fst ↔
        ReachG (fun i => if i = 0 then [1] else []) 0 x) ∧
      ((collect_states dfa).map Prod.snd).Nodup) :=
  floodFillIter_spec (fun i => if i = 0 then [1] else []) 2 0
    (by
      intro i _ j hj
      by_cases h0 : i = 0
      · simp [h0] at hj
        omega
      · simp [h0] at hj) (by omega)

/-! ## Claim C1 (scanner ↔ language, for capture-free patterns)

The claim presupposes that a scanner is generated for every capture-free
pattern.  It is not: `get_connected_nodes` in `dfa.rs` extends its
worklist with **all** ε-successors of the popped node, without filtering
out already-visited nodes (unlike `FloodFillIter` in `util.rs`, which
does filter).  For any pattern whose NFA contains an ε-cycle the
worklist therefore never empties and `Dfa::try_from` never returns, so
no scanner exists.  The capture-free pattern `(a?)*` is such a pattern:
its NFA (computed above) has the mutual ε-edges `1 → 3` and `3 → 1`.

The theorem below is order-independent: one loop iteration is modelled
as popping an *arbitrary* member of the pending set (`FxHashSet`
iteration order is unspecified), and along every possible run the
pending set is never empty. -/

/-- The NFA built for the pattern `(a?)*` (checked by `rfl` above). -/
def nfaAOptStar : Nfa :=
  { root := 0,
    nodes := [
      { edges := [1, 2], edge_kind := .epsilon, kind := .simple, is_accepting := false },
      { edges := [3, 4], edge_kind := .epsilon, kind := .simple, is_accepting := false },
      { edges := [], edge_kind := .epsilon, kind := .simple, is_accepting := true },
      { edges := [1, 2], edge_kind := .epsilon, kind := .simple, is_accepting := false },
      { edges := [3], edge_kind := .pattern (.char 'a'), kind := .simple,
        is_accepting := false }] }

/-- One iteration of `get_connected_nodes`' loop, popping an arbitrary
pending node (the set's iteration order is unspecified): the node moves
into the visited set and every one of its ε-successors — visited or
not — is pushed back onto the worklist. -/
inductive ClosureLoopStep (nfa : Nfa) : ClosureState → ClosureState → Prop
  | pop {s : ClosureState} {node : Nat} (hmem : node ∈ s.pending_nodes) :
      ClosureLoopStep nfa s
        { nodes := insertSet s.nodes node,
          pending_nodes :=
            extendSet (s.pending_nodes.erase node) (epsilon_successors nfa node) }

/-- C1: the claim fails because for the capture-free pattern `(a?)*` the
code generates no scanner at all: in `Dfa::try_from`, the very first
ε-closure computation (`get_connected_nodes` from the NFA root) never
terminates — whatever order the worklist set is popped in, its pending
set is never empty. -/
theorem dfa_construction_diverges_on_capture_free_pattern :
    ∀ T, fromStr "(a?)*" = .ok T →
    ∀ nfa, nfaTryFrom T = .ok nfa →
    ∀ s, Relation.ReflTransGen (ClosureLoopStep nfa)
        { nodes := [], pending_nodes := [nfa.root] } s →
      s.pending_nodes ≠ [] := by
  intro T hT nfa hN s hs
  rw [show fromStr "(a?)*" =
    Except.ok (RegexNode.many (.zeroOrOne (.literal (.char 'a')))) from rfl] at hT
  cases hT
  rw [show nfaTryFrom (RegexNode.many (.zeroOrOne (.literal (.char 'a')))) =
    .ok nfaAOptStar from rfl] at hN
  cases hN
  have hsucc0 : epsilon_successors nfaAOptStar 0 = [1, 2] := by rfl
  have hsucc1 : epsilon_successors nfaAOptStar 1 = [3] := by rfl
  have hsucc3 : epsilon_successors nfaAOptStar 3 = [1, 2] := by rfl
  -- the invariant: one of the ε-cycle nodes 1, 3 (or the root 0 that
  -- reaches them) is always pending
  have hinv : ∀ s, Relation.ReflTransGen (ClosureLoopStep nfaAOptStar)
      { nodes := [], pending_nodes := [nfaAOptStar.root] } s →
      0 ∈ s.pending_nodes ∨ 1 ∈ s.pending_nodes ∨ 3 ∈ s.pending_nodes := by
    intro s hs
    induction hs with
    | refl => exact Or.inl (by simp [nfaAOptStar])
    | tail hst hstep ih =>
      rcases hstep with ⟨hmem⟩
      rename_i s' node
      have keep : ∀ x : Nat, x ∈ s'.pending_nodes → x ≠ node →
          x ∈ extendSet (s'.pending_nodes.erase node)
            (epsilon_successors nfaAOptStar node) := by
        intro x hx hne
        exact mem_extendSet.mpr (Or.inl ((List.mem_erase_of_ne hne).mpr hx))
      have push : ∀ x : Nat, x ∈ epsilon_successors nfaAOptStar node →
          x ∈ extendSet (s'.pending_nodes.erase node)
            (epsilon_successors nfaAOptStar node) := by
        intro x hx
        exact mem_extendSet.mpr (Or.inr hx)
      rcases ih with h0 | h1 | h3
      · by_cases hn : (0 : Nat) = node
        · subst hn
          exact Or.inr (Or.inl (push 1 (by rw [hsucc0]; simp)))
        · exact Or.inl (keep 0 h0 hn)
      · by_cases hn : (1 : Nat) = node
        · subst hn
          exact Or.inr (Or.inr (push 3 (by rw [hsucc1]; simp)))
        · exact Or.inr (Or.inl (keep 1 h1 hn))
      · by_cases hn : (3 : Nat) = node
        · subst hn
          exact Or.inr (Or.inl (push 1 (by rw [hsucc3]; simp)))
        · exact Or.inr (Or.inr (keep 3 h3 hn))
  rcases hinv s hs with h | h | h <;>
    exact fun hc => by rw [hc] at h; cases h

/-- Witness for C1's divergence theorem: the initial worklist state of
`get_connected_nodes(nfa, root)` for the pattern `(a?)*` (reached by the
empty run) already has a non-empty pending set. -/
theorem dfa_construction_diverges_witness :
    fromStr "(a?)*" = .ok (RegexNode.many (.zeroOrOne (.literal (.char 'a')))) ∧
    nfaTryFrom (RegexNode.many (.zeroOrOne (.literal (.char 'a')))) = .ok nfaAOptStar ∧
    (ClosureState.mk [] [nfaAOptStar.root]).pending_nodes ≠ [] :=
  ⟨rfl, rfl,
    dfa_construction_diverges_on_capture_free_pattern _ rfl _ rfl _
      Relation.ReflTransGen.refl⟩

/-! ## Claim C5 (no structurally equal states after minimisation)

The fixpoint loop of `DfaBuilder::dedup` rewrites every *edge* that
targets a retired duplicate, but `Dfa::try_from` then takes its root
index straight from the `nfa_to_dfa` map without redirecting it.  When
the root itself is found to be a duplicate (which happens whenever the
root group materialises after one of its successor groups and ends up
structurally equal to it — e.g. for `A*`), the returned root is a
retired node that is structurally equal to its reachable canonical
representative: the claim is false exactly in the case it singles out.
The repaired statement — no two distinct *non-root* reachable states are
structurally equal — is proved below for every NFA. -/

/-- The NFA built for `A*` (checked by `rfl` above). -/
def nfaAStar : Nfa :=
  { root := 0,
    nodes := [
      { edges := [1, 2], edge_kind := .epsilon, kind := .simple, is_accepting := false },
      { edges := [3], edge_kind := .epsilon, kind := .simple, is_accepting := false },
      { edges := [], edge_kind := .epsilon, kind := .simple, is_accepting := true },
      { edges := [1, 2], edge_kind := .pattern (.char 'A'), kind := .simple,
        is_accepting := false }] }

/-- The DFA `Dfa::try_from` produces for `A*`: the returned root `1` is a
retired duplicate of state `0`. -/
def dfaAStar : Dfa :=
  { root := 1,
    nodes := [
      { is_accepting := true, var := none,
        edges := { default := none, edges := [('A', 0)] } },
      { is_accepting := true, var := none,
        edges := { default := none, edges := [('A', 0)] } }] }

/-- C5 counterexample: for the pattern `A*`, after `Dfa::try_from`
returns, the two distinct states `0` and `1` are both reachable from the
returned root and are structurally equal — the root itself was found to
be a duplicate, and precisely then the claimed invariant fails. -/
theorem dedup_root_duplicate_counterexample :
    fromStr "A*" = .ok (.many (.literal (.char 'A'))) ∧
    nfaTryFrom (.many (.literal (.char 'A'))) = .ok nfaAStar ∧
    dfaTryFrom nfaAStar = .ok dfaAStar ∧
    dfaAStar.root = 1 ∧
    ReachG dfaAStar.neighbors dfaAStar.root 1 ∧
    ReachG dfaAStar.neighbors dfaAStar.root 0 ∧
    (0 : Nat) ≠ 1 ∧
    getDfaNode dfaAStar.nodes 0 = getDfaNode dfaAStar.nodes 1 :=
  ⟨rfl, rfl, rfl, rfl, ReachG.refl,
    ReachG.step ReachG.refl (by decide), by decide, rfl⟩

/-! ### The dedup fixpoint: supporting lemmas. -/

/-- The edge targets of a DFA node (default edge first, as in the
`FloodFill` impl for `Dfa`). -/
def targetsOf (n : DfaNode) : List Nat :=
  n.edges.default.toList ++ n.edges.edges.map Prod.snd

theorem neighbors_eq_targetsOf (dfa : Dfa) (i : Nat) :
    dfa.neighbors i = targetsOf (getDfaNode dfa.nodes i) := rfl

/-- The duplicate scan only ever appends to its accumulator. -/
theorem findDuplicates_go_prefix (nodes : List DfaNode) (retired : List Nat) :
    ∀ (idxs visited : List Nat) (dups : List (Nat × Nat)),
      ∃ suf, (findDuplicates_go nodes retired idxs visited dups).2 = dups ++ suf := by
  intro idxs
  induction idxs with
  | nil => intro visited dups; exact ⟨[], by simp [findDuplicates_go]⟩
  | cons i rest ih =>
    intro visited dups
    simp only [findDuplicates_go]
    split
    · exact ih visited dups
    · rcases hf : visited.find? (fun j => decide (getDfaNode nodes j = getDfaNode nodes i))
        with _ | j
      · exact ih (visited ++ [i]) dups
      · obtain ⟨suf, hsuf⟩ := ih visited (dups ++ [(i, j)])
        exact ⟨(i, j) :: suf, by rw [hsuf]; simp⟩

/-- When the duplicate scan finds nothing new, every unretired index
differs in content from every previously visited node. -/
theorem findDuplicates_go_nil_visited (nodes : List DfaNode) (retired : List Nat) :
    ∀ (idxs visited : List Nat) (dups : List (Nat × Nat)),
      (findDuplicates_go nodes retired idxs visited dups).2 = dups →
      ∀ x ∈ idxs, x ∉ retired →
        ∀ v ∈ visited, getDfaNode nodes v ≠ getDfaNode nodes x := by
  intro idxs
  induction idxs with
  | nil => intro visited dups _ x hx; cases hx
  | cons i rest ih =>
    intro visited dups h x hx hxr v hv
    simp only [findDuplicates_go] at h
    rcases List.mem_cons.mp hx with rfl | hx
    · rw [if_neg hxr] at h
      rcases hf : visited.find? (fun j => decide (getDfaNode nodes j = getDfaNode nodes x))
        with _ | j
      · have := List.find?_eq_none.mp hf v hv
        simpa using this
      · rw [hf] at h
        obtain ⟨suf, hsuf⟩ := findDuplicates_go_prefix nodes retired rest visited
          (dups ++ [(x, j)])
        rw [hsuf] at h
        have : dups.length = (dups ++ [(x, j)] ++ suf).length := by rw [h]
        simp only [List.length_append, List.length_singleton] at this
        omega
    · split at h
      · exact ih visited dups h x hx hxr v hv
      · rcases hf : visited.find? (fun j => decide (getDfaNode nodes j = getDfaNode nodes i))
          with _ | j
        · rw [hf] at h
          exact ih (visited ++ [i]) dups h x hx hxr v (List.mem_append_left _ hv)
        · rw [hf] at h
          obtain ⟨suf, hsuf⟩ := findDuplicates_go_prefix nodes retired rest visited
            (dups ++ [(i, j)])
          rw [hsuf] at h
          have : dups.length = (dups ++ [(i, j)] ++ suf).length := by rw [h]
          simp only [List.length_append, List.length_singleton] at this
          omega

/-- When the duplicate scan finds nothing new, the unretired indexes are
pairwise distinct in content. -/
theorem findDuplicates_go_nil_pairwise (nodes : List DfaNode) (retired : List Nat) :
    ∀ (idxs visited : List Nat) (dups : List (Nat × Nat)),
      (findDuplicates_go nodes retired idxs visited dups).2 = dups →
      ∀ x ∈ idxs, ∀ y ∈ idxs, x ∉ retired → y ∉ retired → x ≠ y →
        getDfaNode nodes x ≠ getDfaNode nodes y := by
  intro idxs
  induction idxs with
  | nil => intro visited dups _ x hx; cases hx
  | cons i rest ih =>
    intro visited dups h x hx y hy hxr hyr hxy
    simp only [findDuplicates_go] at h
    by_cases hir : i ∈ retired
    · rw [if_pos hir] at h
      rcases List.mem_cons.mp hx with hxi | hx'
      · exact absurd (hxi ▸ hir) hxr
      · rcases List.mem_cons.mp hy with hyi | hy'
        · exact absurd (hyi ▸ hir) hyr
        · exact ih visited dups h x hx' y hy' hxr hyr hxy
    · rw [if_neg hir] at h
      rcases hf : visited.find? (fun j => decide (getDfaNode nodes j = getDfaNode nodes i))
        with _ | j
      · rw [hf] at h
        rcases List.mem_cons.mp hx with hxi | hx'
        · rcases List.mem_cons.mp hy with hyi | hy'
          · exact absurd (hxi.trans hyi.symm) hxy
          · subst hxi
            exact findDuplicates_go_nil_visited nodes retired rest (visited ++ [x])
              dups h y hy' hyr x
              (List.mem_append_right _ (List.mem_singleton_self _))
        · rcases List.mem_cons.mp hy with hyi | hy'
          · subst hyi
            intro hc
            exact findDuplicates_go_nil_visited nodes retired rest (visited ++ [y])
              dups h x hx' hxr y
              (List.mem_append_right _ (List.mem_singleton_self _)) hc.symm
          · exact ih (visited ++ [i]) dups h x hx' y hy' hxr hyr hxy
      · rw [hf] at h
        obtain ⟨suf, hsuf⟩ := findDuplicates_go_prefix nodes retired rest visited
          (dups ++ [(i, j)])
        rw [hsuf] at h
        have : dups.length = (dups ++ [(i, j)] ++ suf).length := by rw [h]
        simp only [List.length_append, List.length_singleton] at this
        omega

/-- If the duplicate scan reports no duplicates, then among the unretired
arena indexes no two distinct nodes are structurally equal. -/
theorem findDuplicates_nil_pairwise {nodes : List DfaNode} {retired : List Nat}
    (h : findDuplicates nodes retired = []) :
    ∀ i j, i < nodes.length → j < nodes.length → i ∉ retired → j ∉ retired →
      i ≠ j → getDfaNode nodes i ≠ getDfaNode nodes j := by
  intro i j hi hj hir hjr hij
  exact findDuplicates_go_nil_pairwise nodes retired (List.range nodes.length) [] [] h
    i (List.mem_range.mpr hi) j (List.mem_range.mpr hj) hir hjr hij

/-- Full characterisation of one duplicate scan: the reported duplicate
pairs have pairwise-distinct unretired firsts taken from the scanned
indexes, their seconds are kept (visited, hence unretired) nodes, and
firsts are never kept. -/
theorem findDuplicates_go_spec (nodes : List DfaNode) (retired : List Nat) :
    ∀ (idxs visited : List Nat) (dups : List (Nat × Nat)),
      idxs.Nodup → (∀ v ∈ visited, v ∉ retired) → (∀ x ∈ idxs, x ∉ visited) →
      ∃ suf vis',
        findDuplicates_go nodes retired idxs visited dups = (vis', dups ++ suf) ∧
        (∀ p ∈ suf, p.1 ∈ idxs ∧ p.1 ∉ retired ∧ p.2 ∈ vis' ∧ p.1 ∉ vis') ∧
        (suf.map Prod.fst).Nodup ∧
        (∀ v ∈ vis', (v ∈ visited ∨ v ∈ idxs) ∧ v ∉ retired) ∧
        (∀ v ∈ visited, v ∈ vis') := by
  intro idxs
  induction idxs with
  | nil =>
    intro visited dups _ hvr _
    exact ⟨[], visited, by simp [findDuplicates_go], by simp, by simp,
      fun v hv => ⟨Or.inl hv, hvr v hv⟩, fun v hv => hv⟩
  | cons i rest ih =>
    intro visited dups hnd hvr hdis
    have hirest : i ∉ rest := (List.nodup_cons.mp hnd).1
    have hrestnd : rest.Nodup := (List.nodup_cons.mp hnd).2
    by_cases hir : i ∈ retired
    · obtain ⟨suf, vis', heq, hp, hnodup, hv, hmono⟩ :=
        ih visited dups hrestnd hvr (fun x hx => hdis x (List.mem_cons_of_mem _ hx))
      refine ⟨suf, vis', ?_, ?_, hnodup, ?_, hmono⟩
      · simpa only [findDuplicates_go, if_pos hir] using heq
      · intro p hps
        obtain ⟨h1, h2, h3, h4⟩ := hp p hps
        exact ⟨List.mem_cons_of_mem _ h1, h2, h3, h4⟩
      · intro v hv'
        obtain ⟨h1, h2⟩ := hv v hv'
        exact ⟨h1.imp id (List.mem_cons_of_mem _), h2⟩
    · rcases hf : visited.find? (fun j => decide (getDfaNode nodes j = getDfaNode nodes i))
        with _ | j
      · -- no duplicate found: `i` joins the visited set
        have hvr' : ∀ v ∈ visited ++ [i], v ∉ retired := by
          intro v hv'
          rcases List.mem_append.mp hv' with hv' | hv'
          · exact hvr v hv'
          · rw [List.mem_singleton] at hv'
            exact hv' ▸ hir
        have hdis' : ∀ x ∈ rest, x ∉ visited ++ [i] := by
          intro x hx hc
          rcases List.mem_append.mp hc with hc | hc
          · exact hdis x (List.mem_cons_of_mem _ hx) hc
          · rw [List.mem_singleton] at hc
            exact hirest (hc ▸ hx)
        obtain ⟨suf, vis', heq, hp, hnodup, hv, hmono⟩ :=
          ih (visited ++ [i]) dups hrestnd hvr' hdis'
        refine ⟨suf, vis', ?_, ?_, hnodup, ?_, ?_⟩
        · simpa only [findDuplicates_go, if_neg hir, hf] using heq
        · intro p hps
          obtain ⟨h1, h2, h3, h4⟩ := hp p hps
          exact ⟨List.mem_cons_of_mem _ h1, h2, h3, h4⟩
        · intro v hv'
          obtain ⟨h1, h2⟩ := hv v hv'
          refine ⟨?_, h2⟩
          rcases h1 with h1 | h1
          · rcases List.mem_append.mp h1 with h1 | h1
            · exact Or.inl h1
            · rw [List.mem_singleton] at h1
              exact Or.inr (h1 ▸ List.mem_cons_self _ _)
          · exact Or.inr (List.mem_cons_of_mem _ h1)
        · intro v hv'
          exact hmono v (List.mem_append_left _ hv')
      · -- `i` duplicates the earlier visited node `j`
        have hjmem : j ∈ visited := List.mem_of_find?_eq_some hf
        obtain ⟨suf, vis', heq, hp, hnodup, hv, hmono⟩ :=
          ih visited (dups ++ [(i, j)]) hrestnd hvr
            (fun x hx => hdis x (List.mem_cons_of_mem _ hx))
        have hinotvis : i ∉ vis' := by
          intro hc
          obtain ⟨h1, _⟩ := hv i hc
          rcases h1 with h1 | h1
          · exact hdis i (List.mem_cons_self _ _) h1
          · exact hirest h1
        refine ⟨(i, j) :: suf, vis', ?_, ?_, ?_, ?_, hmono⟩
        · rw [show dups ++ (i, j) :: suf = (dups ++ [(i, j)]) ++ suf by simp]
          simpa only [findDuplicates_go, if_neg hir, hf] using heq
        · intro p hps
          rcases List.mem_cons.mp hps with rfl | hps
          · exact ⟨List.mem_cons_self _ _, hir, hmono j hjmem, hinotvis⟩
          · obtain ⟨h1, h2, h3, h4⟩ := hp p hps
            exact ⟨List.mem_cons_of_mem _ h1, h2, h3, h4⟩
        · rw [List.map_cons]
          refine List.nodup_cons.mpr ⟨?_, hnodup⟩
          intro hc
          rcases List.mem_map.mp hc with ⟨p, hps, hpe⟩
          refine hirest ?_
          rw [show ((i, j) : Nat × Nat).1 = i from rfl] at hpe
          rw [← hpe]
          exact (hp p hps).1
        · intro v hv'
          obtain ⟨h1, h2⟩ := hv v hv'
          exact ⟨h1.imp id (List.mem_cons_of_mem _), h2⟩

/-- `applyDuplicates` appends exactly the duplicate firsts to the retired
set. -/
theorem applyDuplicates_snd : ∀ (pairs : List (Nat × Nat)) (nodes : List DfaNode)
    (retired : List Nat),
    (applyDuplicates nodes retired pairs).2 = retired ++ pairs.map Prod.fst := by
  intro pairs
  induction pairs with
  | nil => intro nodes retired; simp [applyDuplicates]
  | cons p rest ih =>
    intro nodes retired
    obtain ⟨p1, n1⟩ := p
    rw [show applyDuplicates nodes retired ((p1, n1) :: rest) =
      applyDuplicates (replaceAll nodes p1 n1) (retired ++ [p1]) rest from rfl, ih]
    simp

/-- `applyDuplicates` preserves the arena size. -/
theorem applyDuplicates_length : ∀ (pairs : List (Nat × Nat)) (nodes : List DfaNode)
    (retired : List Nat),
    (applyDuplicates nodes retired pairs).1.length = nodes.length := by
  intro pairs
  induction pairs with
  | nil => intro nodes retired; rfl
  | cons p rest ih =>
    intro nodes retired
    obtain ⟨p1, n1⟩ := p
    rw [show applyDuplicates nodes retired ((p1, n1) :: rest) =
      applyDuplicates (replaceAll nodes p1 n1) (retired ++ [p1]) rest from rfl, ih]
    simp [replaceAll]

/-- Edge replacement substitutes targets pointwise. -/
theorem targetsOf_replace (n : DfaNode) (old_t new_t : Nat) :
    targetsOf { n with edges := n.edges.replace old_t new_t } =
      (targetsOf n).map (fun t => if t = old_t then new_t else t) := by
  rcases n with ⟨acc, v, ⟨d, es⟩⟩
  cases d <;>
    simp [targetsOf, DfaEdges.replace, List.map_map, Function.comp]

/-- Every node's targets are in-bounds arena indexes. -/
def targetsValid (nodes : List DfaNode) : Prop :=
  ∀ n ∈ nodes, ∀ t ∈ targetsOf n, t < nodes.length

/-- No node's targets hit the retired set. -/
def edgesAvoid (nodes : List DfaNode) (retired : List Nat) : Prop :=
  ∀ n ∈ nodes, ∀ t ∈ targetsOf n, t ∉ retired

/-- Applying one round of replacements keeps targets in bounds and keeps
them clear of the (extended) retired set. -/
theorem applyDuplicates_preserves :
    ∀ (pairs : List (Nat × Nat)) (nodes : List DfaNode) (retired : List Nat),
      targetsValid nodes → edgesAvoid nodes retired →
      (∀ p ∈ pairs, p.2 < nodes.length) →
      (∀ p ∈ pairs, p.2 ∉ retired) →
      (∀ p ∈ pairs, ∀ q ∈ pairs, p.2 ≠ q.1) →
      targetsValid (applyDuplicates nodes retired pairs).1 ∧
      edgesAvoid (applyDuplicates nodes retired pairs).1
        (applyDuplicates nodes retired pairs).2 := by
  intro pairs
  induction pairs with
  | nil => intro nodes retired htv hea _ _ _; exact ⟨htv, hea⟩
  | cons p rest ih =>
    intro nodes retired htv hea hlt hnr hpw
    obtain ⟨p1, n1⟩ := p
    rw [show applyDuplicates nodes retired ((p1, n1) :: rest) =
      applyDuplicates (replaceAll nodes p1 n1) (retired ++ [p1]) rest from rfl]
    have hn1p1 : n1 ≠ p1 :=
      hpw (p1, n1) (List.mem_cons_self _ _) (p1, n1) (List.mem_cons_self _ _)
    have hn1len : n1 < nodes.length := hlt (p1, n1) (List.mem_cons_self _ _)
    have hn1r : n1 ∉ retired := hnr (p1, n1) (List.mem_cons_self _ _)
    have hlen : (replaceAll nodes p1 n1).length = nodes.length := by
      simp [replaceAll]
    have hmem : ∀ m ∈ replaceAll nodes p1 n1, ∀ t ∈ targetsOf m,
        ∃ t₀, (∃ n₀ ∈ nodes, t₀ ∈ targetsOf n₀) ∧
          t = if t₀ = p1 then n1 else t₀ := by
      intro m hm t ht
      rcases List.mem_map.mp hm with ⟨n₀, hn₀, rfl⟩
      rw [targetsOf_replace] at ht
      rcases List.mem_map.mp ht with ⟨t₀, ht₀, rfl⟩
      exact ⟨t₀, ⟨n₀, hn₀, ht₀⟩, rfl⟩
    have htv' : targetsValid (replaceAll nodes p1 n1) := by
      intro m hm t ht
      obtain ⟨t₀, ⟨n₀, hn₀, ht₀⟩, rfl⟩ := hmem m hm t ht
      rw [hlen]
      split
      · exact hn1len
      · exact htv n₀ hn₀ t₀ ht₀
    have hea' : edgesAvoid (replaceAll nodes p1 n1) (retired ++ [p1]) := by
      intro m hm t ht hc
      obtain ⟨t₀, ⟨n₀, hn₀, ht₀⟩, rfl⟩ := hmem m hm t ht
      rcases List.mem_append.mp hc with hc | hc
      · split at hc
        · exact hn1r hc
        · exact hea n₀ hn₀ t₀ ht₀ hc
      · rw [List.mem_singleton] at hc
        split at hc
        · exact hn1p1 hc
        · next hne => exact hne hc
    have := ih (replaceAll nodes p1 n1) (retired ++ [p1]) htv' hea'
      (fun q hq => by rw [hlen]; exact hlt q (List.mem_cons_of_mem _ hq))
      (fun q hq hc => by
        rcases List.mem_append.mp hc with hc | hc
        · exact hnr q (List.mem_cons_of_mem _ hq) hc
        · rw [List.mem_singleton] at hc
          exact hpw q (List.mem_cons_of_mem _ hq) (p1, n1) (List.mem_cons_self _ _) hc)
      (fun q hq q' hq' =>
        hpw q (List.mem_cons_of_mem _ hq) q' (List.mem_cons_of_mem _ hq'))
    exact this

theorem length_le_of_nodup_bound (l : List Nat) (n : Nat) (hnd : l.Nodup)
    (hb : ∀ y ∈ l, y < n) : l.length ≤ n := by
  classical
  have hsub : l.toFinset ⊆ Finset.range n := by
    intro y hy
    exact Finset.mem_range.mpr (hb y (List.mem_toFinset.mp hy))
  have := Finset.card_le_card hsub
  rwa [List.toFinset_card_of_nodup hnd, Finset.card_range] at this

/-- The dedup fixpoint: with enough fuel the loop exits with no remaining
duplicates among unretired nodes, unchanged arena size, in-bounds
targets, and no edge into the retired set. -/
theorem dedupLoop_spec :
    ∀ (fuel : Nat) (nodes : List DfaNode) (retired : List Nat),
      retired.Nodup → (∀ r ∈ retired, r < nodes.length) →
      targetsValid nodes → edgesAvoid nodes retired →
      nodes.length + 1 ≤ fuel + retired.length →
      (dedupLoop nodes retired fuel).1.length = nodes.length ∧
      targetsValid (dedupLoop nodes retired fuel).1 ∧
      edgesAvoid (dedupLoop nodes retired fuel).1 (dedupLoop nodes retired fuel).2 ∧
      findDuplicates (dedupLoop nodes retired fuel).1 (dedupLoop nodes retired fuel).2
        = [] := by
  intro fuel
  induction fuel with
  | zero =>
    intro nodes retired hnd hrb _ _ hfuel
    exact absurd (length_le_of_nodup_bound retired nodes.length hnd hrb) (by omega)
  | succ fuel ih =>
    intro nodes retired hnd hrb htv hea hfuel
    by_cases hdup : (findDuplicates nodes retired).isEmpty
    · rw [show dedupLoop nodes retired (fuel + 1) = (nodes, retired) by
        simp [dedupLoop, hdup]]
      exact ⟨rfl, htv, hea, by rwa [List.isEmpty_iff] at hdup⟩
    · obtain ⟨suf, vis', heq, hp, hnodup, hv, _⟩ :=
        findDuplicates_go_spec nodes retired (List.range nodes.length) [] []
          (List.nodup_range _) (by simp) (by simp)
      have hsuf : findDuplicates nodes retired = suf := by
        rw [findDuplicates, heq]
        simp
      have hsufne : suf ≠ [] := by
        intro hc
        rw [hsuf, hc] at hdup
        simp at hdup
      have hp1lt : ∀ p ∈ suf, p.1 < nodes.length := fun p hps =>
        List.mem_range.mp (hp p hps).1
      have hp1r : ∀ p ∈ suf, p.1 ∉ retired := fun p hps => (hp p hps).2.1
      have hp2lt : ∀ p ∈ suf, p.2 < nodes.length := by
        intro p hps
        obtain ⟨h1, _⟩ := hv p.2 (hp p hps).2.2.1
        rcases h1 with h1 | h1
        · cases h1
        · exact List.mem_range.mp h1
      have hp2r : ∀ p ∈ suf, p.2 ∉ retired := fun p hps =>
        (hv p.2 (hp p hps).2.2.1).2
      have hpw : ∀ p ∈ suf, ∀ q ∈ suf, p.2 ≠ q.1 := by
        intro p hps q hqs hc
        exact (hp q hqs).2.2.2 (hc ▸ (hp p hps).2.2.1)
      have happ := applyDuplicates_preserves suf nodes retired htv hea hp2lt hp2r hpw
      have hretired' := applyDuplicates_snd suf nodes retired
      have hlen' := applyDuplicates_length suf nodes retired
      set res := applyDuplicates nodes retired suf with hres
      have hnd' : res.2.Nodup := by
        rw [hretired']
        refine List.Nodup.append hnd hnodup ?_
        intro x hx hx'
        rcases List.mem_map.mp hx' with ⟨p, hps, hpe⟩
        exact hp1r p hps (hpe ▸ hx)
      have hrb' : ∀ r ∈ res.2, r < res.1.length := by
        intro r hr
        rw [hlen']
        rw [hretired'] at hr
        rcases List.mem_append.mp hr with hr | hr
        · exact hrb r hr
        · rcases List.mem_map.mp hr with ⟨p, hps, hpe⟩
          exact hpe ▸ hp1lt p hps
      have hfuel' : res.1.length + 1 ≤ fuel + res.2.length := by
        rw [hlen', hretired']
        have : suf.length ≥ 1 := by
          cases suf
          · exact absurd rfl hsufne
          · simp
        simp only [List.length_append, List.length_map]
        omega
      have hstep : dedupLoop nodes retired (fuel + 1) = dedupLoop res.1 res.2 fuel := by
        rw [show dedupLoop nodes retired (fuel + 1) =
          (if (findDuplicates nodes retired).isEmpty then (nodes, retired)
           else dedupLoop (applyDuplicates nodes retired
              (findDuplicates nodes retired)).1
             (applyDuplicates nodes retired (findDuplicates nodes retired)).2 fuel)
          from rfl]
        rw [if_neg (by simpa using hdup), hsuf]
      rw [hstep]
      have := ih res.1 res.2 hnd' hrb' happ.1 happ.2 hfuel'
      rw [hlen'] at this
      exact this

/-! ### Builder invariants: targets stay in bounds through the worklist loop. -/

theorem insert_length_le (b : DfaBuilder) (key : List Nat) (node : DfaNode) :
    b.nodes.length ≤ (b.insert key node).1.nodes.length := by
  rcases hcase : lookupGroup b.nfa_to_dfa key with _ | idx <;>
    simp [DfaBuilder.insert, hcase]

theorem entry_length_le (b : DfaBuilder) (key : List Nat) :
    b.nodes.length ≤ (b.entry key).1.nodes.length := by
  rcases hcase : lookupGroup b.nfa_to_dfa key with _ | idx
  · simpa [DfaBuilder.entry, hcase] using
      insert_length_le { b with pending_nodes := b.pending_nodes ++ [key] } key
        .defaultNode
  · simp [DfaBuilder.entry, hcase]

theorem entry_idx_lt {b : DfaBuilder} (hm : mapInv b) (key : List Nat) :
    (b.entry key).2 < (b.entry key).1.nodes.length := by
  rcases hcase : lookupGroup b.nfa_to_dfa key with _ | idx
  · simp [DfaBuilder.entry, DfaBuilder.insert, hcase]
  · simpa [DfaBuilder.entry, hcase] using hm _ (lookupGroup_mem _ _ _ hcase)

theorem targetsValid_insert {b : DfaBuilder} (htv : targetsValid b.nodes)
    (key : List Nat) (node : DfaNode)
    (hn : ∀ t ∈ targetsOf node, t < b.nodes.length) :
    targetsValid (b.insert key node).1.nodes := by
  rcases hcase : lookupGroup b.nfa_to_dfa key with _ | idx
  · intro m hm t ht
    simp only [DfaBuilder.insert, hcase] at hm ⊢
    rcases List.mem_append.mp hm with hm | hm
    · simpa using Nat.lt_succ_of_lt (htv m hm t ht)
    · rw [List.mem_singleton] at hm
      subst hm
      simpa using Nat.lt_succ_of_lt (hn t ht)
  · intro m hm t ht
    simp only [DfaBuilder.insert, hcase] at hm ⊢
    rw [List.length_set]
    rcases List.mem_or_eq_of_mem_set hm with hm | rfl
    · exact htv m hm t ht
    · exact hn t ht

theorem targetsValid_entry {b : DfaBuilder} (htv : targetsValid b.nodes)
    (key : List Nat) : targetsValid (b.entry key).1.nodes := by
  rcases hcase : lookupGroup b.nfa_to_dfa key with _ | idx
  · simp only [DfaBuilder.entry, hcase]
    exact targetsValid_insert (b := { b with pending_nodes := b.pending_nodes ++ [key] })
      htv key .defaultNode (by simp [targetsOf, DfaNode.defaultNode, DfaEdges.emptyEdges])
  · simpa [DfaBuilder.entry, hcase] using htv

theorem entryFold_spec (fuel : Nat) (nfa : Nfa) :
    ∀ (l : List (Char × List Nat)) (acc : DfaBuilder × List (Char × Nat)),
      mapInv acc.1 → targetsValid acc.1.nodes →
      (∀ t ∈ acc.2.map Prod.snd, t < acc.1.nodes.length) →
      mapInv (entryFold fuel nfa l acc).1 ∧
      targetsValid (entryFold fuel nfa l acc).1.nodes ∧
      (∀ t ∈ (entryFold fuel nfa l acc).2.map Prod.snd,
        t < (entryFold fuel nfa l acc).1.nodes.length) ∧
      acc.1.nodes.length ≤ (entryFold fuel nfa l acc).1.nodes.length := by
  intro l
  induction l with
  | nil =>
    intro acc h1 h2 h3
    exact ⟨h1, h2, h3, le_refl _⟩
  | cons cts rest ih =>
    intro acc h1 h2 h3
    set g := expand_group nfa fuel cts.2 with hg
    set acc' : DfaBuilder × List (Char × Nat) :=
      ((acc.1.entry g).1, acc.2 ++ [(cts.1, (acc.1.entry g).2)]) with hacc'
    have hstep : entryFold fuel nfa (cts :: rest) acc = entryFold fuel nfa rest acc' := rfl
    rw [hstep]
    have hlen := entry_length_le acc.1 g
    have hrec := ih acc' (mapInv_entry h1 _) (targetsValid_entry h2 _) ?_
    · exact ⟨hrec.1, hrec.2.1, hrec.2.2.1, le_trans hlen hrec.2.2.2⟩
    · intro t ht
      simp only [hacc', List.map_append, List.mem_append] at ht
      rcases ht with ht | ht
      · exact lt_of_lt_of_le (h3 t ht) hlen
      · simp only [List.map_cons, List.map_nil, List.mem_singleton] at ht
        subst ht
        exact entry_idx_lt h1 g

theorem mem_insertEdgePair {p q : Char × Nat} {l : List (Char × Nat)} :
    p ∈ insertEdgePair q l ↔ p = q ∨ p ∈ l := by
  induction l with
  | nil => simp [insertEdgePair]
  | cons r rs ih =>
    simp only [insertEdgePair]
    split
    · exact List.mem_cons
    · rw [List.mem_cons, ih, List.mem_cons]
      tauto

theorem mem_sortEdges {p : Char × Nat} {l : List (Char × Nat)} :
    p ∈ sortEdges l ↔ p ∈ l := by
  induction l with
  | nil => simp [sortEdges]
  | cons r rs ih =>
    show p ∈ insertEdgePair r (sortEdges rs) ↔ _
    rw [mem_insertEdgePair, ih]
    simp [List.mem_cons]

theorem from_nfa_group_empty_eq (fuel : Nat) (b : DfaBuilder) (nfa : Nfa)
    (group : List Nat)
    (h : (finalizeBuckets (collectBuckets (get_non_epsilon_edges nfa group))).2.isEmpty
      = true) :
    from_nfa_group fuel b nfa group =
      ((entryFold fuel nfa
          (finalizeBuckets (collectBuckets (get_non_epsilon_edges nfa group))).1
          (b, [])).1,
        { default := none,
          edges := sortEdges (entryFold fuel nfa
            (finalizeBuckets (collectBuckets (get_non_epsilon_edges nfa group))).1
            (b, [])).2 }) := by
  simp [from_nfa_group, h]

theorem from_nfa_group_nonempty_eq (fuel : Nat) (b : DfaBuilder) (nfa : Nfa)
    (group : List Nat)
    (h : ¬ ((finalizeBuckets (collectBuckets (get_non_epsilon_edges nfa group))).2.isEmpty
      = true)) :
    from_nfa_group fuel b nfa group =
      ((entryFold fuel nfa
          (finalizeBuckets (collectBuckets (get_non_epsilon_edges nfa group))).1
          ((b.entry (expand_group nfa fuel
            (finalizeBuckets (collectBuckets (get_non_epsilon_edges nfa group))).2)).1,
            [])).1,
        { default := some (b.entry (expand_group nfa fuel
            (finalizeBuckets (collectBuckets (get_non_epsilon_edges nfa group))).2)).2,
          edges := sortEdges (entryFold fuel nfa
            (finalizeBuckets (collectBuckets (get_non_epsilon_edges nfa group))).1
            ((b.entry (expand_group nfa fuel
              (finalizeBuckets (collectBuckets
                (get_non_epsilon_edges nfa group))).2)).1, [])).2 }) := by
  simp [from_nfa_group, h]

theorem from_nfa_group_inv {b : DfaBuilder} (hm : mapInv b)
    (htv : targetsValid b.nodes) (fuel : Nat) (nfa : Nfa) (group : List Nat) :
    mapInv (from_nfa_group fuel b nfa group).1 ∧
    targetsValid (from_nfa_group fuel b nfa group).1.nodes ∧
    (∀ t ∈ (from_nfa_group fuel b nfa group).2.default.toList ++
        (from_nfa_group fuel b nfa group).2.edges.map Prod.snd,
      t < (from_nfa_group fuel b nfa group).1.nodes.length) := by
  by_cases hempty : (finalizeBuckets (collectBuckets
      (get_non_epsilon_edges nfa group))).2.isEmpty = true
  · rw [from_nfa_group_empty_eq fuel b nfa group hempty]
    have hfold := entryFold_spec fuel nfa
      (finalizeBuckets (collectBuckets (get_non_epsilon_edges nfa group))).1
      (b, []) hm htv (by simp)
    refine ⟨hfold.1, hfold.2.1, ?_⟩
    intro t ht
    simp only [Option.toList_none, List.nil_append] at ht
    rcases List.mem_map.mp ht with ⟨p, hp, rfl⟩
    rw [mem_sortEdges] at hp
    exact hfold.2.2.1 p.2 (List.mem_map.mpr ⟨p, hp, rfl⟩)
  · rw [from_nfa_group_nonempty_eq fuel b nfa group hempty]
    set g := expand_group nfa fuel
      (finalizeBuckets (collectBuckets (get_non_epsilon_edges nfa group))).2 with hg
    have hidx := entry_idx_lt hm g
    have hm1 := mapInv_entry hm g
    have htv1 := targetsValid_entry htv g
    have hfold := entryFold_spec fuel nfa
      (finalizeBuckets (collectBuckets (get_non_epsilon_edges nfa group))).1
      ((b.entry g).1, []) hm1 htv1 (by simp)
    refine ⟨hfold.1, hfold.2.1, ?_⟩
    intro t ht
    rcases List.mem_append.mp ht with ht | ht
    · simp only [Option.toList_some, List.mem_singleton] at ht
      subst ht
      exact lt_of_lt_of_le hidx hfold.2.2.2
    · rcases List.mem_map.mp ht with ⟨p, hp, rfl⟩
      rw [mem_sortEdges] at hp
      exact hfold.2.2.1 p.2 (List.mem_map.mpr ⟨p, hp, rfl⟩)

theorem compute_group_inv {b : DfaBuilder} (hm : mapInv b)
    (htv : targetsValid b.nodes) (fuel : Nat) (nfa : Nfa) (group : List Nat) :
    ∀ b', compute_group fuel b nfa group = .ok b' →
      mapInv b' ∧ targetsValid b'.nodes := by
  intro b' hok
  rw [compute_group] at hok
  rcases hcv : compute_group_variable nfa group with e | v
  · rw [hcv] at hok
    cases hok
  · rw [hcv] at hok
    simp only [Except.ok.injEq] at hok
    subst hok
    obtain ⟨hm1, htv1, hedges⟩ := from_nfa_group_inv hm htv fuel nfa group
    constructor
    · exact mapInv_insert hm1 _ _
    · exact targetsValid_insert htv1 _ _ (by simpa [targetsOf] using hedges)

theorem buildLoop_inv (nfa : Nfa) (cf : Nat) :
    ∀ (fuel : Nat) (b : DfaBuilder), mapInv b → targetsValid b.nodes →
      ∀ b', buildLoop nfa cf fuel b = .ok b' → mapInv b' ∧ targetsValid b'.nodes := by
  intro fuel
  induction fuel with
  | zero =>
    intro b hm htv b' hok
    cases hok
    exact ⟨hm, htv⟩
  | succ fuel ih =>
    intro b hm htv b' hok
    rw [buildLoop] at hok
    rcases hp : b.pending_nodes with _ | ⟨group, rest⟩
    · rw [hp] at hok
      cases hok
      exact ⟨hm, htv⟩
    · rw [hp] at hok
      simp only [bind, Except.bind] at hok
      rcases hcg : compute_group cf { b with pending_nodes := rest } nfa group
        with e | b''
      · rw [hcg] at hok
        cases hok
      · rw [hcg] at hok
        have hb'' := compute_group_inv (b := { b with pending_nodes := rest })
          (by simpa [mapInv] using hm) (by simpa using htv) cf nfa group b'' hcg
        exact ih b'' hb''.1 hb''.2 b' hok

/-- C5 (amended): after `Dfa::try_from` returns, no two **distinct
non-root** states reachable from the returned root are structurally
equal.  (The root itself may be structurally equal to another reachable
state, exactly when the root was found to be a duplicate — see the
counterexample for `A*`.) -/
theorem dfaTryFrom_no_duplicate_states (nfa : Nfa) (dfa : Dfa)
    (h : dfaTryFrom nfa = .ok dfa) :
    ∀ i j, ReachG dfa.neighbors dfa.root i → ReachG dfa.neighbors dfa.root j →
      i ≠ dfa.root → j ≠ dfa.root → i ≠ j →
      getDfaNode dfa.nodes i ≠ getDfaNode dfa.nodes j := by
  simp only [dfaTryFrom] at h
  rcases hb : buildLoop nfa (2 ^ nfa.nodes.length + 1) (2 ^ nfa.nodes.length + 2)
      { nodes := [], nfa_to_dfa := [],
        pending_nodes := [expand_group nfa (2 ^ nfa.nodes.length + 1) [nfa.root]] }
    with e | bfin
  · rw [hb] at h
    cases h
  · rw [hb] at h
    simp only [Except.ok.injEq] at h
    subst h
    obtain ⟨hm, htv⟩ := buildLoop_inv nfa _ _ _ (by intro kv hkv; cases hkv)
      (by intro n hn; cases hn) bfin hb
    -- the dedup postconditions
    have hded := dedupLoop_spec (bfin.nodes.length + 1) bfin.nodes []
      List.nodup_nil (by intro r hr; cases hr) htv
      (by intro n _ t _ hc; cases hc) (by omega)
    obtain ⟨hlen, htv', hea', hfd⟩ := hded
    set res := dedupLoop bfin.nodes [] (bfin.nodes.length + 1) with hres
    -- the resulting Dfa
    set dfa : Dfa :=
      { root := (lookupGroup bfin.dedup.nfa_to_dfa
          (expand_group nfa (2 ^ nfa.nodes.length + 1) [nfa.root])).getD 0,
        nodes := bfin.dedup.nodes } with hdfa
    have hnodes : dfa.nodes = res.1 := rfl
    -- every neighbour is in bounds and unretired
    have hstep : ∀ i j, j ∈ dfa.neighbors i → j < res.1.length ∧ j ∉ res.2 := by
      intro i j hj
      rw [neighbors_eq_targetsOf] at hj
      rw [show dfa.nodes = res.1 from rfl] at hj
      by_cases hi : i < res.1.length
      · have hmem : getDfaNode res.1 i ∈ res.1 := by
          rw [getDfaNode, List.getD_eq_getElem?_getD, List.getElem?_eq_getElem hi]
          exact Option.getD_some ▸ List.getElem_mem _
        exact ⟨htv' _ hmem j hj, hea' _ hmem j hj⟩
      · rw [getDfaNode, List.getD_eq_getElem?_getD, List.getElem?_eq_none (by omega)] at hj
        simp [targetsOf, DfaNode.defaultNode, DfaEdges.emptyEdges] at hj
    have hreach : ∀ x, ReachG dfa.neighbors dfa.root x →
        x = dfa.root ∨ (x < res.1.length ∧ x ∉ res.2) := by
      intro x hx
      induction hx with
      | refl => exact Or.inl rfl
      | step _ hj _ => exact Or.inr (hstep _ _ hj)
    intro i j hri hrj hir hjr hij
    rcases hreach i hri with rfl | ⟨hilt, hire⟩
    · exact absurd rfl hir
    · rcases hreach j hrj with rfl | ⟨hjlt, hjre⟩
      · exact absurd rfl hjr
      · exact findDuplicates_nil_pairwise hfd i j hilt hjlt hire hjre hij

/-- Witness for the amended C5 on the DFA of `AB` (root `1`, non-root
reachable states `0` and `2`). -/
theorem dfaTryFrom_no_duplicate_states_witness :
    getDfaNode
        [DfaNode.mk false none { default := none, edges := [('B', 2)] },
         DfaNode.mk false none { default := none, edges := [('A', 0)] },
         DfaNode.mk true none { default := none, edges := [] }] 0 ≠
      getDfaNode
        [DfaNode.mk false none { default := none, edges := [('B', 2)] },
         DfaNode.mk false none { default := none, edges := [('A', 0)] },
         DfaNode.mk true none { default := none, edges := [] }] 2 :=
  dfaTryFrom_no_duplicate_states
    (Nfa.mk 0
      [NfaNode.mk [1] .epsilon .simple false,
       NfaNode.mk [2] (.pattern (.char 'A')) .simple false,
       NfaNode.mk [] (.pattern (.char 'B')) .simple true])
    (Dfa.mk 1
      [DfaNode.mk false none { default := none, edges := [('B', 2)] },
       DfaNode.mk false none { default := none, edges := [('A', 0)] },
       DfaNode.mk true none { default := none, edges := [] }])
    rfl 0 2
    (ReachG.step (i := 1) ReachG.refl (by decide))
    (ReachG.step (i := 0) (ReachG.step (i := 1) ReachG.refl (by decide)) (by decide))
    (by decide) (by decide) (by decide)

/-! ## Claim C6 (NFA reachability and unique accepting node)

`convert_regex_node` on an empty `Or` (which the parser produces for the
pattern `[]`) creates a fresh target node and, with no children, never
connects anything to it: the accepting node is unreachable from the
root.  For trees without empty `Or` nodes every node *is* reachable, and
the accepting node is unique for every tree; both are proved below. -/

/-- The successor function of the NFA edge graph. -/
def Nfa.neighbors (nfa : Nfa) (i : Nat) : List Nat :=
  (getNode nfa.nodes i).edges

/-- The NFA built for `[]` (checked by `rfl` above): the accepting node
`1` has no incoming edge. -/
def nfaEmptyOr : Nfa :=
  { root := 0,
    nodes := [
      { edges := [], edge_kind := .epsilon, kind := .simple, is_accepting := false },
      { edges := [], edge_kind := .epsilon, kind := .simple, is_accepting := true }] }

/-- C6 counterexample: the tree parsed from `[]` is an empty `Or`; in its
NFA the (accepting) node `1` exists but is not reachable from the root. -/
theorem empty_or_nfa_unreachable_node :
    fromStr "[]" = .ok (.or []) ∧
    nfaTryFrom (.or []) = .ok nfaEmptyOr ∧
    1 < nfaEmptyOr.nodes.length ∧
    (getNode nfaEmptyOr.nodes 1).is_accepting = true ∧
    ¬ ReachG nfaEmptyOr.neighbors nfaEmptyOr.root 1 := by
  refine ⟨rfl, rfl, by decide, rfl, ?_⟩
  intro hreach
  have honly : ∀ x, ReachG nfaEmptyOr.neighbors nfaEmptyOr.root x → x = 0 := by
    intro x hx
    induction hx with
    | refl => rfl
    | step hi hj ihx =>
      subst ihx
      cases hj
  cases honly 1 hreach

mutual

/-- Trees whose `Or` nodes all have at least one child. -/
def noEmptyOr : RegexNode → Bool
  | .and cs => noEmptyOrList cs
  | .or cs => !cs.isEmpty && noEmptyOrList cs
  | .literal _ => true
  | .var _ => true
  | .zeroOrOne c => noEmptyOr c
  | .many c => noEmptyOr c
  | .oneOrMore c => noEmptyOr c

/-- `noEmptyOr` on every element of a child list. -/
def noEmptyOrList : List RegexNode → Bool
  | [] => true
  | c :: cs => noEmptyOr c && noEmptyOrList cs

end

/-- Arena extension: nodes are only appended, existing nodes only gain
edges (all other fields preserved), and every node beyond the original
length is non-accepting. -/
def arenaFrame (A B : List NfaNode) : Prop :=
  A.length ≤ B.length ∧
  (∀ i, i < A.length → ∃ extra, getNode B i =
    { getNode A i with edges := (getNode A i).edges ++ extra }) ∧
  (∀ i, A.length ≤ i → (getNode B i).is_accepting = false)

theorem getNode_oob {A : List NfaNode} {i : Nat} (h : A.length ≤ i) :
    getNode A i = .EPSILON := by
  rw [getNode, List.getD_eq_getElem?_getD, List.getElem?_eq_none h]
  rfl

theorem getNode_lt {A : List NfaNode} {i : Nat} (h : i < A.length) :
    getNode A i = A[i] := by
  rw [getNode, List.getD_eq_getElem?_getD, List.getElem?_eq_getElem h]
  rfl

theorem arenaFrame_refl (A : List NfaNode) : arenaFrame A A :=
  ⟨le_refl _, fun i _ => ⟨[], by simp⟩, fun i h => by rw [getNode_oob h]; rfl⟩

theorem arenaFrame_trans {A B C : List NfaNode} (h1 : arenaFrame A B)
    (h2 : arenaFrame B C) : arenaFrame A C := by
  obtain ⟨l1, f1, a1⟩ := h1
  obtain ⟨l2, f2, a2⟩ := h2
  refine ⟨le_trans l1 l2, ?_, ?_⟩
  · intro i hi
    obtain ⟨e1, h1⟩ := f1 i hi
    obtain ⟨e2, h2⟩ := f2 i (lt_of_lt_of_le hi l1)
    exact ⟨e1 ++ e2, by rw [h2, h1]; simp⟩
  · intro i hi
    by_cases hib : i < B.length
    · obtain ⟨e2, h2⟩ := f2 i hib
      rw [h2]
      exact a1 i hi
    · exact a2 i (by omega)

theorem arenaFrame_addNode {A : List NfaNode} {n : NfaNode}
    (hn : n.is_accepting = false) : arenaFrame A (A ++ [n]) := by
  refine ⟨by simp, ?_, ?_⟩
  · intro i hi
    refine ⟨[], ?_⟩
    rw [getNode_lt (by simp; omega), getNode_lt hi, List.getElem_append_left hi]
    simp
  · intro i hi
    by_cases he : i = A.length
    · subst he
      rw [getNode_lt (by simp)]
      simpa using hn
    · rw [getNode_oob (by simp; omega)]
      rfl

theorem connect_length (A : List NfaNode) (s t : Nat) :
    (connect A s t).length = A.length := by
  simp [connect]

theorem getNode_connect_self {A : List NfaNode} {s t : Nat} (hs : s < A.length) :
    getNode (connect A s t) s =
      { getNode A s with edges := (getNode A s).edges ++ [t] } := by
  rw [connect, getNode, List.getD_eq_getElem?_getD, List.getElem?_set_self (by exact hs)]
  rfl

theorem getNode_connect_other {A : List NfaNode} {s t i : Nat} (h : i ≠ s) :
    getNode (connect A s t) i = getNode A i := by
  rw [connect, getNode, List.getD_eq_getElem?_getD, List.getElem?_set_ne (Ne.symm h)]
  rw [getNode, List.getD_eq_getElem?_getD]

theorem arenaFrame_connect (A : List NfaNode) (s t : Nat) :
    arenaFrame A (connect A s t) := by
  refine ⟨by rw [connect_length], ?_, ?_⟩
  · intro i hi
    by_cases he : i = s
    · subst he
      exact ⟨[t], getNode_connect_self hi⟩
    · exact ⟨[], by rw [getNode_connect_other he]; simp⟩
  · intro i hi
    by_cases he : i = s
    · subst he
      rw [getNode_oob (by rwa [connect_length])]
      rfl
    · rw [getNode_connect_other he, getNode_oob hi]
      rfl

theorem arenaFrame_snoc {A B : List NfaNode} {n : NfaNode} (h : arenaFrame A B)
    (hn : n.is_accepting = false) : arenaFrame A (B ++ [n]) :=
  arenaFrame_trans h (arenaFrame_addNode hn)

theorem arenaFrame_conn {A B : List NfaNode} (h : arenaFrame A B) (s t : Nat) :
    arenaFrame A (connect B s t) :=
  arenaFrame_trans h (arenaFrame_connect B s t)

/-- The graph of an arena, as a successor function. -/
def graphOf (A : List NfaNode) (i : Nat) : List Nat :=
  (getNode A i).edges

/-- Reachability is monotone along arena extension. -/
theorem reach_mono {A B : List NfaNode} {root x : Nat} (h : arenaFrame A B)
    (hr : ReachG (graphOf A) root x) : ReachG (graphOf B) root x := by
  induction hr with
  | refl => exact ReachG.refl
  | step hi hj ihx =>
    refine ReachG.step ihx ?_
    rename_i a b
    by_cases ha : a < A.length
    · obtain ⟨extra, he⟩ := h.2.1 a ha
      rw [graphOf, he]
      simp only [List.mem_append]
      exact Or.inl hj
    · rw [graphOf, getNode_oob (by omega)] at hj
      cases hj

theorem reach_congr {g g' : Nat → List Nat} {root x : Nat}
    (h : ∀ i, g i = g' i) (hr : ReachG g root x) : ReachG g' root x := by
  induction hr with
  | refl => exact ReachG.refl
  | step hi hj ihx =>
    rename_i a b
    exact ReachG.step ihx (h a ▸ hj)

theorem convert_and_eq (nodes : List NfaNode) (cs : List RegexNode) (pred : Nat) :
    convert_regex_node nodes (.and cs) pred = convert_and_children nodes cs pred := rfl

theorem convert_or_eq (nodes : List NfaNode) (cs : List RegexNode) (pred : Nat) :
    convert_regex_node nodes (.or cs) pred =
      (convert_or_children (nodes ++ [NfaNode.EPSILON]) cs pred nodes.length,
       nodes.length) := rfl

theorem convert_literal_eq (nodes : List NfaNode) (p : RegexPattern) (pred : Nat) :
    convert_regex_node nodes (.literal p) pred =
      (connect (nodes ++ [(⟨[], .pattern p, .simple, false⟩ : NfaNode)])
        pred nodes.length, nodes.length) := rfl

theorem convert_var_eq (nodes : List NfaNode) (v : RegexVariable) (pred : Nat) :
    convert_regex_node nodes (.var v) pred =
      (connect (connect (nodes ++ [(⟨[], .pattern .anyCharLazy, .var v, false⟩ : NfaNode)])
        pred nodes.length) nodes.length nodes.length, nodes.length) := rfl

theorem convert_zeroOrOne_eq (nodes : List NfaNode) (c : RegexNode) (pred : Nat) :
    convert_regex_node nodes (.zeroOrOne c) pred =
      (let r := convert_regex_node
        (connect (nodes ++ [NfaNode.EPSILON]) pred nodes.length) c pred
       (connect r.1 r.2 nodes.length, nodes.length)) := rfl

theorem convert_many_eq (nodes : List NfaNode) (c : RegexNode) (pred : Nat) :
    convert_regex_node nodes (.many c) pred =
      (let A1 := connect (nodes ++ [NfaNode.EPSILON]) pred nodes.length
       let A2 := connect (A1 ++ [NfaNode.EPSILON]) pred A1.length
       let r := convert_regex_node A2 c nodes.length
       (connect (connect r.1 r.2 nodes.length) r.2 A1.length, A1.length)) := rfl

theorem convert_oneOrMore_eq (nodes : List NfaNode) (c : RegexNode) (pred : Nat) :
    convert_regex_node nodes (.oneOrMore c) pred =
      (let A1 := connect (nodes ++ [NfaNode.EPSILON]) pred nodes.length
       let r := convert_regex_node (A1 ++ [NfaNode.EPSILON]) c nodes.length
       (connect (connect r.1 r.2 nodes.length) r.2 A1.length, A1.length)) := rfl

theorem convert_and_nil_eq (nodes : List NfaNode) (pred : Nat) :
    convert_and_children nodes [] pred = (nodes, pred) := rfl

theorem convert_and_cons_eq (nodes : List NfaNode) (c : RegexNode)
    (cs : List RegexNode) (pred : Nat) :
    convert_and_children nodes (c :: cs) pred =
      convert_and_children (convert_regex_node nodes c pred).1 cs
        (convert_regex_node nodes c pred).2 := rfl

theorem convert_or_nil_eq (nodes : List NfaNode) (pred target : Nat) :
    convert_or_children nodes [] pred target = nodes := rfl

theorem convert_or_cons_eq (nodes : List NfaNode) (c : RegexNode)
    (cs : List RegexNode) (pred target : Nat) :
    convert_or_children nodes (c :: cs) pred target =
      convert_or_children
        (connect (convert_regex_node nodes c pred).1
          (convert_regex_node nodes c pred).2 target) cs pred target := rfl

mutual

/-- Frame conditions for `convert_regex_node`: the arena only grows,
existing nodes only gain edges, new nodes are non-accepting, and the
returned target is a valid index. -/
theorem convert_frame : ∀ (r : RegexNode) (nodes : List NfaNode) (pred : Nat),
    pred < nodes.length →
    arenaFrame nodes (convert_regex_node nodes r pred).1 ∧
    (convert_regex_node nodes r pred).2 < (convert_regex_node nodes r pred).1.length
  | .and cs, nodes, pred, hpred => by
    rw [convert_and_eq]
    exact convert_and_frame cs nodes pred hpred
  | .or cs, nodes, pred, hpred => by
    rw [convert_or_eq]
    have h2 := convert_or_frame cs (nodes ++ [NfaNode.EPSILON]) pred nodes.length
      (by simp only [List.length_append, List.length_singleton]; omega)
    refine ⟨arenaFrame_trans (arenaFrame_addNode rfl) h2, ?_⟩
    have := h2.1
    simp only [List.length_append, List.length_singleton] at this
    dsimp only
    omega
  | .literal p, nodes, pred, hpred => by
    rw [convert_literal_eq]
    refine ⟨arenaFrame_trans (arenaFrame_addNode rfl) (arenaFrame_connect _ _ _), ?_⟩
    dsimp only
    rw [connect_length]
    simp
  | .var v, nodes, pred, hpred => by
    rw [convert_var_eq]
    refine ⟨arenaFrame_trans (arenaFrame_addNode rfl)
      (arenaFrame_trans (arenaFrame_connect _ _ _) (arenaFrame_connect _ _ _)), ?_⟩
    dsimp only
    rw [connect_length, connect_length]
    simp
  | .zeroOrOne c, nodes, pred, hpred => by
    rw [convert_zeroOrOne_eq]
    dsimp only
    have hc := convert_frame c (connect (nodes ++ [NfaNode.EPSILON]) pred nodes.length)
      pred (by rw [connect_length]; simp only [List.length_append,
        List.length_singleton]; omega)
    constructor
    · refine arenaFrame_trans (arenaFrame_addNode (n := NfaNode.EPSILON) rfl) ?_
      exact arenaFrame_trans (arenaFrame_connect _ _ _)
        (arenaFrame_trans hc.1 (arenaFrame_connect _ _ _))
    · rw [connect_length]
      have hle := hc.1.1
      rw [connect_length] at hle
      simp only [List.length_append, List.length_singleton] at hle
      omega
  | .many c, nodes, pred, hpred => by
    rw [convert_many_eq]
    dsimp only
    set A1 := connect (nodes ++ [NfaNode.EPSILON]) pred nodes.length with hA1
    set A2 := connect (A1 ++ [NfaNode.EPSILON]) pred A1.length with hA2
    have hA1len : A1.length = nodes.length + 1 := by
      rw [hA1, connect_length]; simp
    have hA2len : A2.length = nodes.length + 2 := by
      rw [hA2, connect_length]; simp [hA1len]
    have f1 : arenaFrame nodes A1 := by
      rw [hA1]; exact arenaFrame_conn (arenaFrame_addNode rfl) _ _
    have f2 : arenaFrame nodes A2 := by
      rw [hA2]; exact arenaFrame_conn (arenaFrame_snoc f1 rfl) _ _
    have hc := convert_frame c A2 nodes.length (by omega)
    constructor
    · exact arenaFrame_conn (arenaFrame_conn (arenaFrame_trans f2 hc.1) _ _) _ _
    · simp only [connect_length]
      have := hc.1.1
      omega
  | .oneOrMore c, nodes, pred, hpred => by
    rw [convert_oneOrMore_eq]
    dsimp only
    set A1 := connect (nodes ++ [NfaNode.EPSILON]) pred nodes.length with hA1
    have hA1len : A1.length = nodes.length + 1 := by
      rw [hA1, connect_length]; simp
    have f1 : arenaFrame nodes A1 := by
      rw [hA1]; exact arenaFrame_conn (arenaFrame_addNode rfl) _ _
    have hc := convert_frame c (A1 ++ [NfaNode.EPSILON]) nodes.length
      (by simp only [List.length_append, List.length_singleton]; omega)
    constructor
    · exact arenaFrame_conn (arenaFrame_conn
        (arenaFrame_trans (arenaFrame_snoc f1 rfl) hc.1) _ _) _ _
    · simp only [connect_length]
      have := hc.1.1
      simp only [List.length_append, List.length_singleton] at this
      omega

theorem convert_and_frame : ∀ (cs : List RegexNode) (nodes : List NfaNode)
    (pred : Nat), pred < nodes.length →
    arenaFrame nodes (convert_and_children nodes cs pred).1 ∧
    (convert_and_children nodes cs pred).2 < (convert_and_children nodes cs pred).1.length
  | [], nodes, pred, hpred => ⟨arenaFrame_refl nodes, hpred⟩
  | c :: cs, nodes, pred, hpred => by
    rw [convert_and_cons_eq]
    have hc := convert_frame c nodes pred hpred
    have hrest := convert_and_frame cs (convert_regex_node nodes c pred).1
      (convert_regex_node nodes c pred).2 hc.2
    exact ⟨arenaFrame_trans hc.1 hrest.1, hrest.2⟩

theorem convert_or_frame : ∀ (cs : List RegexNode) (nodes : List NfaNode)
    (pred target : Nat), pred < nodes.length →
    arenaFrame nodes (convert_or_children nodes cs pred target)
  | [], nodes, pred, target, hpred => arenaFrame_refl nodes
  | c :: cs, nodes, pred, target, hpred => by
    rw [convert_or_cons_eq]
    have hc := convert_frame c nodes pred hpred
    have hrest := convert_or_frame cs
      (connect (convert_regex_node nodes c pred).1
        (convert_regex_node nodes c pred).2 target) pred target
      (by rw [connect_length]; exact lt_of_lt_of_le hpred hc.1.1)
    exact arenaFrame_trans hc.1 (arenaFrame_trans (arenaFrame_connect _ _ _) hrest)

end

theorem getNode_append_lt {A : List NfaNode} (B : List NfaNode) {i : Nat}
    (h : i < A.length) : getNode (A ++ B) i = getNode A i := by
  rw [getNode_lt (by rw [List.length_append]; omega), getNode_lt h,
    List.getElem_append_left h]

/-- Edge membership survives arena extension. -/
theorem mem_graph_of_frame {A B : List NfaNode} (h : arenaFrame A B) {i x : Nat}
    (hi : i < A.length) (hx : x ∈ graphOf A i) : x ∈ graphOf B i := by
  obtain ⟨e, he⟩ := h.2.1 i hi
  rw [graphOf, he]
  simp only [List.mem_append]
  exact Or.inl hx

theorem mem_graph_connect_self {A : List NfaNode} {s t : Nat} (hs : s < A.length) :
    t ∈ graphOf (connect A s t) s := by
  rw [graphOf, getNode_connect_self hs]
  simp

mutual

/-- Reachability through `convert_regex_node`: assuming every node of the
input arena is either excused (in `P`) or reachable from `root`, and the
predecessor is reachable, the same holds of the output arena and the
returned target is reachable.  Requires `noEmptyOr`: the target of an
`Or` with no children is never connected. -/
theorem convert_reach : ∀ (r : RegexNode) (nodes : List NfaNode)
    (pred root : Nat) (P : List Nat), noEmptyOr r = true → pred < nodes.length →
    ReachG (graphOf nodes) root pred →
    (∀ j, j < nodes.length → j ∈ P ∨ ReachG (graphOf nodes) root j) →
    (∀ j, j < (convert_regex_node nodes r pred).1.length →
      j ∈ P ∨ ReachG (graphOf (convert_regex_node nodes r pred).1) root j) ∧
    ReachG (graphOf (convert_regex_node nodes r pred).1) root
      (convert_regex_node nodes r pred).2
  | .and cs, nodes, pred, root, P, hA, hpred, hreach, hinv => by
    rw [convert_and_eq]
    exact convert_and_reach cs nodes pred root P (by simpa [noEmptyOr] using hA)
      hpred hreach hinv
  | .or cs, nodes, pred, root, P, hA, hpred, hreach, hinv => by
    rw [convert_or_eq]
    dsimp only
    have hA2 : cs ≠ [] ∧ noEmptyOrList cs = true := by
      rw [noEmptyOr, Bool.and_eq_true] at hA
      exact ⟨fun hnil => by rw [hnil] at hA; simp at hA, hA.2⟩
    have f0 : arenaFrame nodes (nodes ++ [NfaNode.EPSILON]) := arenaFrame_addNode rfl
    have hpredN : pred < (nodes ++ [NfaNode.EPSILON]).length := by
      simp only [List.length_append, List.length_singleton]; omega
    have hreachN := reach_mono f0 hreach
    have hinvN : ∀ j, j < (nodes ++ [NfaNode.EPSILON]).length →
        j ∈ (nodes.length :: P) ∨
        ReachG (graphOf (nodes ++ [NfaNode.EPSILON])) root j := by
      intro j hj
      simp only [List.length_append, List.length_singleton] at hj
      by_cases hje : j = nodes.length
      · exact Or.inl (by simp [hje])
      · rcases hinv j (by omega) with hP | hR
        · exact Or.inl (List.mem_cons_of_mem _ hP)
        · exact Or.inr (reach_mono f0 hR)
    have ho := convert_or_reach cs (nodes ++ [NfaNode.EPSILON]) pred nodes.length
      root (nodes.length :: P) hA2.2 hpredN hreachN hinvN
    have htgt := ho.2 hA2.1
    refine ⟨?_, htgt⟩
    intro j hj
    rcases ho.1 j hj with hP | hR
    · rcases List.mem_cons.mp hP with hje | hP
      · exact Or.inr (hje ▸ htgt)
      · exact Or.inl hP
    · exact Or.inr hR
  | .literal p, nodes, pred, root, P, hA, hpred, hreach, hinv => by
    rw [convert_literal_eq]
    dsimp only
    have f : arenaFrame nodes
        (connect (nodes ++ [(⟨[], .pattern p, .simple, false⟩ : NfaNode)])
          pred nodes.length) :=
      arenaFrame_conn (arenaFrame_snoc (arenaFrame_refl nodes) rfl) _ _
    have htgt : ReachG (graphOf
        (connect (nodes ++ [(⟨[], .pattern p, .simple, false⟩ : NfaNode)])
          pred nodes.length)) root nodes.length := by
      refine ReachG.step (reach_mono f hreach) ?_
      exact mem_graph_connect_self (by
        simp only [List.length_append, List.length_singleton]; omega)
    refine ⟨?_, htgt⟩
    intro j hj
    rw [connect_length, List.length_append, List.length_singleton] at hj
    by_cases hje : j = nodes.length
    · exact Or.inr (hje ▸ htgt)
    · rcases hinv j (by omega) with hP | hR
      · exact Or.inl hP
      · exact Or.inr (reach_mono f hR)
  | .var v, nodes, pred, root, P, hA, hpred, hreach, hinv => by
    rw [convert_var_eq]
    dsimp only
    have f1 : arenaFrame nodes
        (connect (nodes ++ [(⟨[], .pattern .anyCharLazy, .var v, false⟩ : NfaNode)])
          pred nodes.length) :=
      arenaFrame_conn (arenaFrame_snoc (arenaFrame_refl nodes) rfl) _ _
    have htgt1 : ReachG (graphOf
        (connect (nodes ++ [(⟨[], .pattern .anyCharLazy, .var v, false⟩ : NfaNode)])
          pred nodes.length)) root nodes.length := by
      refine ReachG.step (reach_mono f1 hreach) ?_
      exact mem_graph_connect_self (by
        simp only [List.length_append, List.length_singleton]; omega)
    have f2 : arenaFrame nodes
        (connect (connect (nodes ++
          [(⟨[], .pattern .anyCharLazy, .var v, false⟩ : NfaNode)])
          pred nodes.length) nodes.length nodes.length) :=
      arenaFrame_conn f1 _ _
    have htgt : ReachG (graphOf
        (connect (connect (nodes ++
          [(⟨[], .pattern .anyCharLazy, .var v, false⟩ : NfaNode)])
          pred nodes.length) nodes.length nodes.length)) root nodes.length :=
      reach_mono (arenaFrame_connect _ _ _) htgt1
    refine ⟨?_, htgt⟩
    intro j hj
    rw [connect_length, connect_length, List.length_append,
      List.length_singleton] at hj
    by_cases hje : j = nodes.length
    · exact Or.inr (hje ▸ htgt)
    · rcases hinv j (by omega) with hP | hR
      · exact Or.inl hP
      · exact Or.inr (reach_mono f2 hR)
  | .zeroOrOne c, nodes, pred, root, P, hA, hpred, hreach, hinv => by
    rw [convert_zeroOrOne_eq]
    dsimp only
    set X := connect (nodes ++ [NfaNode.EPSILON]) pred nodes.length with hX
    have fX : arenaFrame nodes X := by
      rw [hX]; exact arenaFrame_conn (arenaFrame_addNode rfl) _ _
    have hXlen : X.length = nodes.length + 1 := by
      rw [hX, connect_length]; simp
    have hpredX : pred < X.length := by omega
    have hreachX := reach_mono fX hreach
    have hreach_n_X : ReachG (graphOf X) root nodes.length := by
      refine ReachG.step hreachX ?_
      rw [hX]
      exact mem_graph_connect_self (by
        simp only [List.length_append, List.length_singleton]; omega)
    have hinvX : ∀ j, j < X.length → j ∈ P ∨ ReachG (graphOf X) root j := by
      intro j hj
      by_cases hje : j = nodes.length
      · exact Or.inr (hje ▸ hreach_n_X)
      · rcases hinv j (by omega) with hP | hR
        · exact Or.inl hP
        · exact Or.inr (reach_mono fX hR)
    have hcr := convert_reach c X pred root P (by simpa [noEmptyOr] using hA)
      hpredX hreachX hinvX
    have hcf := convert_frame c X pred hpredX
    have fout : arenaFrame (convert_regex_node X c pred).1
        (connect (convert_regex_node X c pred).1
          (convert_regex_node X c pred).2 nodes.length) :=
      arenaFrame_connect _ _ _
    have htgt : ReachG (graphOf (connect (convert_regex_node X c pred).1
        (convert_regex_node X c pred).2 nodes.length)) root nodes.length :=
      reach_mono fout (reach_mono hcf.1 hreach_n_X)
    refine ⟨?_, htgt⟩
    intro j hj
    rw [connect_length] at hj
    rcases hcr.1 j hj with hP | hR
    · exact Or.inl hP
    · exact Or.inr (reach_mono fout hR)
  | .many c, nodes, pred, root, P, hA, hpred, hreach, hinv => by
    rw [convert_many_eq]
    dsimp only
    set A1 := connect (nodes ++ [NfaNode.EPSILON]) pred nodes.length with hA1
    set A2 := connect (A1 ++ [NfaNode.EPSILON]) pred A1.length with hA2
    have hA1len : A1.length = nodes.length + 1 := by
      rw [hA1, connect_length]; simp
    have hA2len : A2.length = nodes.length + 2 := by
      rw [hA2, connect_length]; simp [hA1len]
    have f1 : arenaFrame nodes A1 := by
      rw [hA1]; exact arenaFrame_conn (arenaFrame_addNode rfl) _ _
    have f2 : arenaFrame nodes A2 := by
      rw [hA2]; exact arenaFrame_conn (arenaFrame_snoc f1 rfl) _ _
    have f12 : arenaFrame A1 A2 := by
      rw [hA2]; exact arenaFrame_conn (arenaFrame_snoc (arenaFrame_refl A1) rfl) _ _
    have hreachA2 := reach_mono f2 hreach
    have hreach_n_A1 : ReachG (graphOf A1) root nodes.length := by
      refine ReachG.step (reach_mono f1 hreach) ?_
      rw [hA1]
      exact mem_graph_connect_self (by
        simp only [List.length_append, List.length_singleton]; omega)
    have hreach_n_A2 : ReachG (graphOf A2) root nodes.length :=
      reach_mono f12 hreach_n_A1
    have hreach_t_A2 : ReachG (graphOf A2) root A1.length := by
      refine ReachG.step hreachA2 ?_
      rw [hA2]
      exact mem_graph_connect_self (by
        simp only [List.length_append, List.length_singleton]; omega)
    have hinvA2 : ∀ j, j < A2.length → j ∈ P ∨ ReachG (graphOf A2) root j := by
      intro j hj
      by_cases hj1 : j = nodes.length
      · exact Or.inr (hj1 ▸ hreach_n_A2)
      · by_cases hj2 : j = nodes.length + 1
        · exact Or.inr (by rw [hj2, ← hA1len]; exact hreach_t_A2)
        · rcases hinv j (by omega) with hP | hR
          · exact Or.inl hP
          · exact Or.inr (reach_mono f2 hR)
    have hcr := convert_reach c A2 nodes.length root P
      (by simpa [noEmptyOr] using hA) (by omega) hreach_n_A2 hinvA2
    have hcf := convert_frame c A2 nodes.length (by omega)
    have fout : arenaFrame (convert_regex_node A2 c nodes.length).1
        (connect (connect (convert_regex_node A2 c nodes.length).1
          (convert_regex_node A2 c nodes.length).2 nodes.length)
          (convert_regex_node A2 c nodes.length).2 A1.length) :=
      arenaFrame_conn (arenaFrame_conn (arenaFrame_refl _) _ _) _ _
    have htgt : ReachG (graphOf (connect (connect
        (convert_regex_node A2 c nodes.length).1
        (convert_regex_node A2 c nodes.length).2 nodes.length)
        (convert_regex_node A2 c nodes.length).2 A1.length)) root A1.length :=
      reach_mono fout (reach_mono hcf.1 hreach_t_A2)
    refine ⟨?_, htgt⟩
    intro j hj
    rw [connect_length, connect_length] at hj
    rcases hcr.1 j hj with hP | hR
    · exact Or.inl hP
    · exact Or.inr (reach_mono fout hR)
  | .oneOrMore c, nodes, pred, root, P, hA, hpred, hreach, hinv => by
    rw [convert_oneOrMore_eq]
    dsimp only
    set A1 := connect (nodes ++ [NfaNode.EPSILON]) pred nodes.length with hA1
    have hA1len : A1.length = nodes.length + 1 := by
      rw [hA1, connect_length]; simp
    have f1 : arenaFrame nodes A1 := by
      rw [hA1]; exact arenaFrame_conn (arenaFrame_addNode rfl) _ _
    have f2 : arenaFrame nodes (A1 ++ [NfaNode.EPSILON]) := arenaFrame_snoc f1 rfl
    have f12 : arenaFrame A1 (A1 ++ [NfaNode.EPSILON]) := arenaFrame_addNode rfl
    have hreach_n_A1 : ReachG (graphOf A1) root nodes.length := by
      refine ReachG.step (reach_mono f1 hreach) ?_
      rw [hA1]
      exact mem_graph_connect_self (by
        simp only [List.length_append, List.length_singleton]; omega)
    have hreach_n_X : ReachG (graphOf (A1 ++ [NfaNode.EPSILON])) root nodes.length :=
      reach_mono f12 hreach_n_A1
    have hinvX : ∀ j, j < (A1 ++ [NfaNode.EPSILON]).length →
        j ∈ (A1.length :: P) ∨ ReachG (graphOf (A1 ++ [NfaNode.EPSILON])) root j := by
      intro j hj
      simp only [List.length_append, List.length_singleton] at hj
      by_cases hj1 : j = nodes.length
      · exact Or.inr (hj1 ▸ hreach_n_X)
      · by_cases hj2 : j = A1.length
        · exact Or.inl (by simp [hj2])
        · rcases hinv j (by omega) with hP | hR
          · exact Or.inl (List.mem_cons_of_mem _ hP)
          · exact Or.inr (reach_mono f2 hR)
    have hcr := convert_reach c (A1 ++ [NfaNode.EPSILON]) nodes.length root
      (A1.length :: P) (by simpa [noEmptyOr] using hA)
      (by simp only [List.length_append, List.length_singleton]; omega)
      hreach_n_X hinvX
    have hcf := convert_frame c (A1 ++ [NfaNode.EPSILON]) nodes.length
      (by simp only [List.length_append, List.length_singleton]; omega)
    have fout : arenaFrame (convert_regex_node (A1 ++ [NfaNode.EPSILON]) c
        nodes.length).1
        (connect (connect (convert_regex_node (A1 ++ [NfaNode.EPSILON]) c
          nodes.length).1 (convert_regex_node (A1 ++ [NfaNode.EPSILON]) c
          nodes.length).2 nodes.length)
          (convert_regex_node (A1 ++ [NfaNode.EPSILON]) c nodes.length).2
          A1.length) :=
      arenaFrame_conn (arenaFrame_conn (arenaFrame_refl _) _ _) _ _
    have htgt : ReachG (graphOf (connect (connect
        (convert_regex_node (A1 ++ [NfaNode.EPSILON]) c nodes.length).1
        (convert_regex_node (A1 ++ [NfaNode.EPSILON]) c nodes.length).2
        nodes.length)
        (convert_regex_node (A1 ++ [NfaNode.EPSILON]) c nodes.length).2
        A1.length)) root A1.length := by
      refine ReachG.step (reach_mono fout hcr.2) ?_
      refine mem_graph_connect_self ?_
      rw [connect_length]
      exact hcf.2
    refine ⟨?_, htgt⟩
    intro j hj
    rw [connect_length, connect_length] at hj
    rcases hcr.1 j hj with hP | hR
    · rcases List.mem_cons.mp hP with hje | hP
      · exact Or.inr (hje ▸ htgt)
      · exact Or.inl hP
    · exact Or.inr (reach_mono fout hR)

theorem convert_and_reach : ∀ (cs : List RegexNode) (nodes : List NfaNode)
    (pred root : Nat) (P : List Nat), noEmptyOrList cs = true →
    pred < nodes.length →
    ReachG (graphOf nodes) root pred →
    (∀ j, j < nodes.length → j ∈ P ∨ ReachG (graphOf nodes) root j) →
    (∀ j, j < (convert_and_children nodes cs pred).1.length →
      j ∈ P ∨ ReachG (graphOf (convert_and_children nodes cs pred).1) root j) ∧
    ReachG (graphOf (convert_and_children nodes cs pred).1) root
      (convert_and_children nodes cs pred).2
  | [], nodes, pred, root, P, hA, hpred, hreach, hinv => by
    rw [convert_and_nil_eq]
    exact ⟨hinv, hreach⟩
  | c :: cs, nodes, pred, root, P, hA, hpred, hreach, hinv => by
    rw [convert_and_cons_eq]
    rw [noEmptyOrList, Bool.and_eq_true] at hA
    have hcr := convert_reach c nodes pred root P hA.1 hpred hreach hinv
    have hcf := convert_frame c nodes pred hpred
    exact convert_and_reach cs (convert_regex_node nodes c pred).1
      (convert_regex_node nodes c pred).2 root P hA.2 hcf.2 hcr.2 hcr.1

theorem convert_or_reach : ∀ (cs : List RegexNode) (nodes : List NfaNode)
    (pred target root : Nat) (P : List Nat), noEmptyOrList cs = true →
    pred < nodes.length →
    ReachG (graphOf nodes) root pred →
    (∀ j, j < nodes.length → j ∈ P ∨ ReachG (graphOf nodes) root j) →
    (∀ j, j < (convert_or_children nodes cs pred target).length →
      j ∈ P ∨ ReachG (graphOf (convert_or_children nodes cs pred target)) root j) ∧
    (cs ≠ [] → ReachG (graphOf (convert_or_children nodes cs pred target))
      root target)
  | [], nodes, pred, target, root, P, hA, hpred, hreach, hinv => by
    rw [convert_or_nil_eq]
    exact ⟨hinv, fun h => absurd rfl h⟩
  | c :: cs, nodes, pred, target, root, P, hA, hpred, hreach, hinv => by
    rw [convert_or_cons_eq]
    rw [noEmptyOrList, Bool.and_eq_true] at hA
    have hcr := convert_reach c nodes pred root P hA.1 hpred hreach hinv
    have hcf := convert_frame c nodes pred hpred
    have fc : arenaFrame (convert_regex_node nodes c pred).1
        (connect (convert_regex_node nodes c pred).1
          (convert_regex_node nodes c pred).2 target) :=
      arenaFrame_connect _ _ _
    have htgtC : ReachG (graphOf (connect (convert_regex_node nodes c pred).1
        (convert_regex_node nodes c pred).2 target)) root target := by
      refine ReachG.step (reach_mono fc hcr.2) ?_
      exact mem_graph_connect_self hcf.2
    have hpredC : pred < (connect (convert_regex_node nodes c pred).1
        (convert_regex_node nodes c pred).2 target).length := by
      rw [connect_length]
      exact lt_of_lt_of_le hpred hcf.1.1
    have hreachC := reach_mono fc (reach_mono hcf.1 hreach)
    have hinvC : ∀ j, j < (connect (convert_regex_node nodes c pred).1
        (convert_regex_node nodes c pred).2 target).length →
        j ∈ P ∨ ReachG (graphOf (connect (convert_regex_node nodes c pred).1
          (convert_regex_node nodes c pred).2 target)) root j := by
      intro j hj
      rw [connect_length] at hj
      rcases hcr.1 j hj with hP | hR
      · exact Or.inl hP
      · exact Or.inr (reach_mono fc hR)
    have hrest := convert_or_reach cs (connect (convert_regex_node nodes c pred).1
      (convert_regex_node nodes c pred).2 target) pred target root P hA.2
      hpredC hreachC hinvC
    refine ⟨hrest.1, fun _ => ?_⟩
    have frest := convert_or_frame cs (connect (convert_regex_node nodes c pred).1
      (convert_regex_node nodes c pred).2 target) pred target hpredC
    exact reach_mono frest htgtC

end

theorem filter_false_nil : ∀ (l : List NfaNode),
    (∀ n ∈ l, n.is_accepting = false) → l.filter (fun n => n.is_accepting) = []
  | [], _ => rfl
  | a :: l, h => by
    rw [List.filter_cons]
    have ha := h a (List.mem_cons_self a l)
    simp only [ha, Bool.false_eq_true, if_false]
    exact filter_false_nil l (fun n hn => h n (List.mem_cons_of_mem a hn))

/-- Setting one index of an all-non-accepting arena to an accepting node
leaves exactly one accepting node. -/
theorem filter_acc_set : ∀ (l : List NfaNode) (i : Nat) (m : NfaNode),
    i < l.length → (∀ n ∈ l, n.is_accepting = false) → m.is_accepting = true →
    ((l.set i m).filter (fun n => n.is_accepting)).length = 1
  | [], i, m, hi, _, _ => absurd hi (by simp)
  | a :: l, 0, m, _, hall, hm => by
    show ((m :: l).filter (fun n => n.is_accepting)).length = 1
    rw [List.filter_cons]
    simp only [hm, if_true]
    rw [filter_false_nil l (fun n hn => hall n (List.mem_cons_of_mem a hn))]
    rfl
  | a :: l, i + 1, m, hi, hall, hm => by
    show ((a :: l.set i m).filter (fun n => n.is_accepting)).length = 1
    rw [List.filter_cons]
    have ha := hall a (List.mem_cons_self a l)
    simp only [ha, Bool.false_eq_true, if_false]
    exact filter_acc_set l i m (by simpa using hi)
      (fun n hn => hall n (List.mem_cons_of_mem a hn)) hm

/-- The accept-marking step of `Nfa::try_from`: set `is_accepting` on the
returned target of the conversion. -/
def markAccepting (r : List NfaNode × Nat) : List NfaNode :=
  r.1.set r.2 { getNode r.1 r.2 with is_accepting := true }

theorem nfaTryFrom_eq (value : RegexNode) :
    nfaTryFrom value =
      (match check_variables
          (markAccepting (convert_regex_node [NfaNode.EPSILON] value 0)) with
       | .error e => .error e
       | .ok _ =>
         .ok { root := 0,
               nodes := markAccepting
                 (convert_regex_node [NfaNode.EPSILON] value 0) }) := rfl

/-- Setting the accepting flag leaves the graph unchanged. -/
theorem graphOf_set_acc {out : List NfaNode} {t : Nat} (ht : t < out.length)
    (i : Nat) :
    graphOf (out.set t { getNode out t with is_accepting := true }) i =
      graphOf out i := by
  by_cases hit : i = t
  · subst hit
    rw [graphOf, graphOf, getNode, List.getD_eq_getElem?_getD,
      List.getElem?_set_self ht]
    rw [getNode_lt ht]
    rfl
  · rw [graphOf, graphOf, getNode, getNode, getNode, List.getD_eq_getElem?_getD,
      List.getD_eq_getElem?_getD, List.getElem?_set_ne (Ne.symm hit),
      List.getD_eq_getElem?_getD]

/-- C6: For every regex tree T accepted by the parser, in the NFA built
from T exactly one node is marked accepting; and — provided no `Or` node
of T is childless (the amendment; `[]` parses to an empty `Or`, whose
target node is never connected, refuting the unrestricted claim) — every
node is reachable from the root. -/
theorem nfaTryFrom_reachable_and_unique_accepting (T : RegexNode) (nfa : Nfa)
    (h : nfaTryFrom T = .ok nfa) :
    (nfa.nodes.filter (fun n => n.is_accepting)).length = 1 ∧
    (noEmptyOr T = true →
      ∀ j, j < nfa.nodes.length → ReachG nfa.neighbors nfa.root j) := by
  rw [nfaTryFrom_eq] at h
  have hcf := convert_frame T [NfaNode.EPSILON] 0 (by simp)
  have hall : ∀ n ∈ (convert_regex_node [NfaNode.EPSILON] T 0).1,
      n.is_accepting = false := by
    intro n hn
    obtain ⟨i, hi, rfl⟩ := List.mem_iff_getElem.mp hn
    rw [← getNode_lt hi]
    by_cases h1 : i < ([NfaNode.EPSILON] : List NfaNode).length
    · obtain ⟨e, he⟩ := hcf.1.2.1 i h1
      rw [he]
      have h0 : i = 0 := by simp at h1; omega
      subst h0
      rfl
    · exact hcf.1.2.2 i (by omega)
  rcases hcv : check_variables
      (markAccepting (convert_regex_node [NfaNode.EPSILON] T 0)) with e | u
  · rw [hcv] at h
    cases h
  · rw [hcv] at h
    have hnfa : nfa =
        { root := 0,
          nodes := markAccepting (convert_regex_node [NfaNode.EPSILON] T 0) } := by
      cases h
      rfl
    subst hnfa
    constructor
    · exact filter_acc_set _ _ _ hcf.2 hall rfl
    · intro hNE j hj
      have hcr := convert_reach T [NfaNode.EPSILON] 0 0 [] hNE (by simp)
        ReachG.refl (fun k hk => Or.inr (by
          have hk0 : k = 0 := by simp at hk; omega
          exact hk0 ▸ ReachG.refl))
      have hjlen : j < (convert_regex_node [NfaNode.EPSILON] T 0).1.length := by
        simpa [markAccepting, List.length_set] using hj
      have hreach := (hcr.1 j hjlen).resolve_left (by simp)
      exact reach_congr (fun i => (graphOf_set_acc hcf.2 i).symm) hreach

/-- C6 witness: the pattern `A` (a tree with no empty `Or`): its NFA has
exactly one accepting node and both nodes reachable from the root. -/
theorem nfaTryFrom_reachable_and_unique_accepting_witness :
    ∃ nfa, nfaTryFrom (.literal (.char 'A')) = .ok nfa ∧
      (nfa.nodes.filter (fun n => n.is_accepting)).length = 1 ∧
      ∀ j, j < nfa.nodes.length → ReachG nfa.neighbors nfa.root j := by
  have h := nfaTryFrom_reachable_and_unique_accepting (.literal (.char 'A'))
    { root := 0,
      nodes := [
        { edges := [1], edge_kind := .epsilon, kind := .simple,
          is_accepting := false },
        { edges := [], edge_kind := .pattern (.char 'A'), kind := .simple,
          is_accepting := true }] } rfl
  exact ⟨_, rfl, h.1, fun j hj => h.2 rfl j hj⟩

/-! ## Display (`regex.rs`) and the parse/display round trip -/

mutual

/-- The `Display` impl for `RegexDisplay` in `regex.rs`: render a tree
back to surface syntax.  No parentheses are ever emitted. -/
def display : RegexNode → String
  | .and cs => displayList cs
  | .or cs => displayOr cs
  | .literal (.char c) => String.singleton c
  | .literal (.range a b) => String.singleton a ++ "-" ++ String.singleton b
  | .literal .anyChar => "."
  | .literal .anyCharLazy => "."
  | .var v =>
    match v.kind with
    | .singular => "\x7b" ++ v.name ++ "\x7d"
    | .multiple => "\x7b" ++ v.name ++ "*\x7d"
  | .zeroOrOne c => display c ++ "?"
  | .many c => display c ++ "*"
  | .oneOrMore c => display c ++ "+"

/-- The `And` arm of the `Display` impl: children concatenated. -/
def displayList : List RegexNode → String
  | [] => ""
  | c :: cs => display c ++ displayList cs

/-- The `Or` arm of the `Display` impl: children separated by bars. -/
def displayOr : List RegexNode → String
  | [] => ""
  | [c] => display c
  | c :: cs => display c ++ "|" ++ displayOr cs

end

example : display (.many (.and [.literal (.char 'a'), .literal (.char 'b')])) =
    "ab*" := by rfl

example : display (.or [.literal (.char 'a'), .literal (.char 'b')]) = "a|b" := by rfl

/-- C7 counterexample: `(ab)*` parses to `Many(And[a,b])`, whose rendering
drops the parentheses and reads back as `And[a, Many b]` — the round trip
changes the tree (the parenthesisation was significant). -/
theorem display_roundtrip_counterexample :
    fromStr "(ab)*" =
      .ok (.many (.and [.literal (.char 'a'), .literal (.char 'b')])) ∧
    display (.many (.and [.literal (.char 'a'), .literal (.char 'b')])) = "ab*" ∧
    fromStr (display (.many (.and [.literal (.char 'a'), .literal (.char 'b')]))) =
      .ok (.and [.literal (.char 'a'), .many (.literal (.char 'b'))]) ∧
    RegexNode.and [.literal (.char 'a'), .many (.literal (.char 'b'))] ≠
      .many (.and [.literal (.char 'a'), .literal (.char 'b')]) :=
  ⟨rfl, rfl, rfl, by decide⟩

/-- Atoms whose rendering re-tokenizes to themselves: a plain character
(no special token, not the escape character) or the wildcard dot. -/
def plainAtom : RegexNode → Bool
  | .literal (.char c) => decide (c ≠ '\\') && decide (charToken c = .char c)
  | .literal .anyChar => true
  | _ => false

/-- An optionally-postfixed atom. -/
def elemG : RegexNode → Bool
  | .zeroOrOne c => plainAtom c
  | .many c => plainAtom c
  | .oneOrMore c => plainAtom c
  | n => plainAtom n

/-- The number of values the `parse_and` loop collects for a branch. -/
def numElems : RegexNode → Nat
  | .and cs => cs.length
  | _ => 1

/-- An `Or` branch that renders faithfully: a sequence of two or more
elements, or a single element. -/
def branchG : RegexNode → Bool
  | .and cs => decide (2 ≤ cs.length) && cs.all elemG
  | n => elemG n

/-- Top-level trees whose rendering needs no parentheses: an `Or` of two
or more branches, the empty sequence, or a single branch. -/
def topG : RegexNode → Bool
  | .or cs => decide (2 ≤ cs.length) && cs.all branchG
  | .and [] => true
  | n => branchG n

/-- The head character of an atom's rendering. -/
def atomChar : RegexNode → Char
  | .literal (.char c) => c
  | _ => '.'

/-- The token an atom re-tokenizes to. -/
def atomTok : RegexNode → Token
  | .literal (.char c) => .char c
  | _ => .dot

/-- The token sequence of an element's rendering. -/
def elemToks : RegexNode → List Token
  | .zeroOrOne c => [atomTok c, .postfixOp .questionMark]
  | .many c => [atomTok c, .postfixOp .star]
  | .oneOrMore c => [atomTok c, .postfixOp .plus]
  | n => [atomTok n]

/-- The head token of an element's rendering. -/
def headTok : RegexNode → Token
  | .zeroOrOne c => atomTok c
  | .many c => atomTok c
  | .oneOrMore c => atomTok c
  | n => atomTok n

/-- Token sequence of a rendered element list. -/
def joinElems : List RegexNode → List Token
  | [] => []
  | c :: cs => elemToks c ++ joinElems cs

/-- Token sequence of a rendered branch. -/
def branchToks : RegexNode → List Token
  | .and cs => joinElems cs
  | n => elemToks n

/-- Token sequence of a rendered branch list (bars in between). -/
def joinBranches : List RegexNode → List Token
  | [] => []
  | [c] => branchToks c
  | c :: cs => branchToks c ++ .pipe :: joinBranches cs

/-- Token sequence of a rendered top-level tree. -/
def topToks : RegexNode → List Token
  | .or cs => joinBranches cs
  | n => branchToks n

/-- The fuel the `parse_or` loop needs on a rendered branch list. -/
def orFuel : List RegexNode → Nat
  | [] => 2
  | b :: bs => numElems b + 4 + orFuel bs

theorem tokenizeChars_cons {c : Char} (rest : List Char) (hc : ¬ c = '\\') :
    tokenizeChars (c :: rest) = charToken c :: tokenizeChars rest := by
  rw [tokenizeChars.eq_def]
  simp only [if_neg hc]

theorem tokenizeChars_append : ∀ (l1 l2 : List Char), '\\' ∉ l1 →
    tokenizeChars (l1 ++ l2) = tokenizeChars l1 ++ tokenizeChars l2
  | [], _, _ => rfl
  | c :: l1, l2, h => by
    have hc : ¬ c = '\\' := fun he => h (he ▸ List.mem_cons_self c l1)
    rw [List.cons_append, tokenizeChars_cons _ hc, tokenizeChars_cons _ hc,
      tokenizeChars_append l1 l2 (fun hm => h (List.mem_cons_of_mem c hm))]
    rfl

theorem string_toList_append (s t : String) :
    (s ++ t).toList = s.toList ++ t.toList := rfl

theorem atom_chars {a : RegexNode} (h : plainAtom a = true) :
    (display a).toList = [atomChar a] ∧ atomChar a ≠ '\\' ∧
    charToken (atomChar a) = atomTok a := by
  cases a with
  | literal p =>
    cases p with
    | char c =>
      simp only [plainAtom, Bool.and_eq_true, decide_eq_true_eq] at h
      exact ⟨rfl, h.1, h.2⟩
    | range a b => simp [plainAtom] at h
    | anyChar => exact ⟨rfl, by decide, by decide⟩
    | anyCharLazy => simp [plainAtom] at h
  | and cs => simp [plainAtom] at h
  | or cs => simp [plainAtom] at h
  | var v => simp [plainAtom] at h
  | zeroOrOne c => simp [plainAtom] at h
  | many c => simp [plainAtom] at h
  | oneOrMore c => simp [plainAtom] at h

theorem elem_chars {e : RegexNode} (h : elemG e = true) :
    tokenizeChars ((display e).toList) = elemToks e ∧
    '\\' ∉ (display e).toList := by
  cases e with
  | zeroOrOne c =>
    rw [elemG] at h
    obtain ⟨hd, hbs, htk⟩ := atom_chars h
    constructor
    · show tokenizeChars ((display c ++ "?").toList) = _
      rw [string_toList_append, hd]
      show tokenizeChars [atomChar c, '?'] = _
      simp only [tokenizeChars, if_neg hbs, htk]
      rfl
    · show '\\' ∉ (display c ++ "?").toList
      rw [string_toList_append, hd]
      intro hm
      rcases List.mem_append.mp hm with hm | hm
      · rw [List.mem_singleton] at hm
        exact hbs hm.symm
      · exact absurd hm (by decide)
  | many c =>
    rw [elemG] at h
    obtain ⟨hd, hbs, htk⟩ := atom_chars h
    constructor
    · show tokenizeChars ((display c ++ "*").toList) = _
      rw [string_toList_append, hd]
      show tokenizeChars [atomChar c, '*'] = _
      simp only [tokenizeChars, if_neg hbs, htk]
      rfl
    · show '\\' ∉ (display c ++ "*").toList
      rw [string_toList_append, hd]
      intro hm
      rcases List.mem_append.mp hm with hm | hm
      · rw [List.mem_singleton] at hm
        exact hbs hm.symm
      · exact absurd hm (by decide)
  | oneOrMore c =>
    rw [elemG] at h
    obtain ⟨hd, hbs, htk⟩ := atom_chars h
    constructor
    · show tokenizeChars ((display c ++ "+").toList) = _
      rw [string_toList_append, hd]
      show tokenizeChars [atomChar c, '+'] = _
      simp only [tokenizeChars, if_neg hbs, htk]
      rfl
    · show '\\' ∉ (display c ++ "+").toList
      rw [string_toList_append, hd]
      intro hm
      rcases List.mem_append.mp hm with hm | hm
      · rw [List.mem_singleton] at hm
        exact hbs hm.symm
      · exact absurd hm (by decide)
  | literal p =>
    obtain ⟨hd, hbs, htk⟩ := atom_chars (h : plainAtom (.literal p) = true)
    refine ⟨?_, ?_⟩
    · rw [hd]
      simp only [tokenizeChars, if_neg hbs, htk]
      rfl
    · rw [hd]
      intro hm
      rw [List.mem_singleton] at hm
      exact hbs hm.symm
  | and cs => simp [elemG, plainAtom] at h
  | or cs => simp [elemG, plainAtom] at h
  | var v => simp [elemG, plainAtom] at h

theorem joinElems_chars : ∀ (cs : List RegexNode), cs.all elemG = true →
    tokenizeChars ((displayList cs).toList) = joinElems cs ∧
    '\\' ∉ (displayList cs).toList
  | [], _ => ⟨rfl, by simp [displayList]⟩
  | c :: cs, h => by
    simp only [List.all_cons, Bool.and_eq_true] at h
    obtain ⟨h1, h2⟩ := h
    obtain ⟨hc1, hc2⟩ := elem_chars h1
    obtain ⟨hs1, hs2⟩ := joinElems_chars cs h2
    constructor
    · rw [displayList, string_toList_append, tokenizeChars_append _ _ hc2,
        hc1, hs1, joinElems]
    · rw [displayList, string_toList_append]
      intro hm
      rcases List.mem_append.mp hm with hm | hm
      · exact hc2 hm
      · exact hs2 hm

theorem branch_chars {b : RegexNode} (h : branchG b = true) :
    tokenizeChars ((display b).toList) = branchToks b ∧
    '\\' ∉ (display b).toList := by
  cases b with
  | and cs =>
    rw [branchG, Bool.and_eq_true] at h
    exact joinElems_chars cs h.2
  | or cs => simp [branchG, elemG, plainAtom] at h
  | literal p => exact elem_chars (h : elemG (.literal p) = true)
  | var v => simp [branchG, elemG, plainAtom] at h
  | zeroOrOne c => exact elem_chars (h : elemG (.zeroOrOne c) = true)
  | many c => exact elem_chars (h : elemG (.many c) = true)
  | oneOrMore c => exact elem_chars (h : elemG (.oneOrMore c) = true)

theorem joinBranches_chars : ∀ (bs : List RegexNode), bs.all branchG = true →
    tokenizeChars ((displayOr bs).toList) = joinBranches bs ∧
    '\\' ∉ (displayOr bs).toList
  | [], _ => ⟨rfl, by simp [displayOr]⟩
  | [b], h => by
    simp only [List.all_cons, List.all_nil, Bool.and_true] at h
    exact branch_chars h
  | b :: b2 :: bs, h => by
    simp only [List.all_cons, Bool.and_eq_true] at h
    obtain ⟨h1, h2, h3⟩ := h
    obtain ⟨hb1, hb2⟩ := branch_chars h1
    obtain ⟨hs1, hs2⟩ := joinBranches_chars (b2 :: bs) (by simp [h2, h3])
    have hshape : displayOr (b :: b2 :: bs) =
        display b ++ "|" ++ displayOr (b2 :: bs) := rfl
    constructor
    · rw [hshape, string_toList_append, string_toList_append,
        List.append_assoc,
        tokenizeChars_append _ _ hb2, hb1,
        tokenizeChars_append _ _ (by decide), hs1]
      rfl
    · rw [hshape, string_toList_append, string_toList_append]
      intro hm
      rcases List.mem_append.mp hm with hm | hm
      · rcases List.mem_append.mp hm with hm | hm
        · exact hb2 hm
        · exact absurd hm (by decide)
      · exact hs2 hm

theorem top_chars {T : RegexNode} (h : topG T = true) :
    tokenize (display T) = topToks T := by
  cases T with
  | or cs =>
    rw [topG, Bool.and_eq_true] at h
    exact (joinBranches_chars cs h.2).1
  | and cs =>
    cases cs with
    | nil => rfl
    | cons c cs => exact (branch_chars (by simpa only [topG] using h)).1
  | literal p => exact (branch_chars (by simpa only [topG] using h)).1
  | var v => exact (branch_chars (by simpa only [topG] using h)).1
  | zeroOrOne c => exact (branch_chars (by simpa only [topG] using h)).1
  | many c => exact (branch_chars (by simpa only [topG] using h)).1
  | oneOrMore c => exact (branch_chars (by simpa only [topG] using h)).1

open Parser

/-- Applying a postfix operator token to a node, as `parse_postfix` does. -/
def apPost (p : PostfixToken) (n : RegexNode) : RegexNode :=
  match p with
  | .questionMark => .zeroOrOne n
  | .star => .many n
  | .plus => .oneOrMore n

theorem atomTok_shape_any (n : RegexNode) :
    (∃ x, atomTok n = .char x) ∨ atomTok n = .dot := by
  cases n with
  | literal p =>
    cases p with
    | char c => exact Or.inl ⟨c, rfl⟩
    | range a b => exact Or.inr rfl
    | anyChar => exact Or.inr rfl
    | anyCharLazy => exact Or.inr rfl
  | and cs => exact Or.inr rfl
  | or cs => exact Or.inr rfl
  | var v => exact Or.inr rfl
  | zeroOrOne c => exact Or.inr rfl
  | many c => exact Or.inr rfl
  | oneOrMore c => exact Or.inr rfl

theorem headTok_shape (e : RegexNode) :
    (∃ x, headTok e = .char x) ∨ headTok e = .dot := by
  cases e with
  | zeroOrOne c => exact atomTok_shape_any c
  | many c => exact atomTok_shape_any c
  | oneOrMore c => exact atomTok_shape_any c
  | and cs => exact atomTok_shape_any (.and cs)
  | or cs => exact atomTok_shape_any (.or cs)
  | literal p => exact atomTok_shape_any (.literal p)
  | var v => exact atomTok_shape_any (.var v)

theorem elemToks_cons (e : RegexNode) : ∃ l, elemToks e = headTok e :: l := by
  cases e with
  | zeroOrOne c => exact ⟨_, rfl⟩
  | many c => exact ⟨_, rfl⟩
  | oneOrMore c => exact ⟨_, rfl⟩
  | and cs => exact ⟨_, rfl⟩
  | or cs => exact ⟨_, rfl⟩
  | literal p => exact ⟨_, rfl⟩
  | var v => exact ⟨_, rfl⟩

theorem atomTok_of_plain {a : RegexNode} (h : plainAtom a = true) :
    (∃ x, atomTok a = .char x ∧ a = .literal (.char x)) ∨
    (atomTok a = .dot ∧ a = .literal .anyChar) := by
  cases a with
  | literal p =>
    cases p with
    | char c => exact Or.inl ⟨c, rfl, rfl⟩
    | range a b => simp [plainAtom] at h
    | anyChar => exact Or.inr ⟨rfl, rfl⟩
    | anyCharLazy => simp [plainAtom] at h
  | and cs => simp [plainAtom] at h
  | or cs => simp [plainAtom] at h
  | var v => simp [plainAtom] at h
  | zeroOrOne c => simp [plainAtom] at h
  | many c => simp [plainAtom] at h
  | oneOrMore c => simp [plainAtom] at h

/-- Decompose an element into an atom with an optional postfix operator,
with its token sequence. -/
theorem elem_decomp {e : RegexNode} (he : elemG e = true) :
    (∃ p a, e = apPost p a ∧ plainAtom a = true ∧
      elemToks e = [atomTok a, .postfixOp p]) ∨
    (plainAtom e = true ∧ elemToks e = [atomTok e]) := by
  cases e with
  | zeroOrOne c => exact Or.inl ⟨.questionMark, c, rfl, by rwa [elemG] at he, rfl⟩
  | many c => exact Or.inl ⟨.star, c, rfl, by rwa [elemG] at he, rfl⟩
  | oneOrMore c => exact Or.inl ⟨.plus, c, rfl, by rwa [elemG] at he, rfl⟩
  | and cs => simp [elemG, plainAtom] at he
  | or cs => simp [elemG, plainAtom] at he
  | literal p => exact Or.inr ⟨he, rfl⟩
  | var v => simp [elemG, plainAtom] at he

theorem push_node_row (src : List Token) (row : List RegexNode)
    (S : List (List RegexNode)) (n : RegexNode) :
    push_node { source := src, stack := row :: S } n =
      .ok { source := src, stack := (row ++ [n]) :: S } := rfl

theorem pop_single_snoc (src : List Token) (row : List RegexNode)
    (c : RegexNode) (S : List (List RegexNode)) :
    pop_single { source := src, stack := (row ++ [c]) :: S } =
      .ok (c, { source := src, stack := row :: S }) := by
  simp [pop_single, List.getLast?_concat, List.dropLast_concat]

theorem parse_postfix_snoc (p : PostfixToken) (rest : List Token)
    (row : List RegexNode) (c : RegexNode) (S : List (List RegexNode)) :
    parse_postfix { source := .postfixOp p :: rest, stack := (row ++ [c]) :: S } =
      .ok { source := rest, stack := (row ++ [apPost p c]) :: S } := by
  cases p with
  | questionMark =>
    show (pop_single { source := rest, stack := (row ++ [c]) :: S }).bind
      (fun x => push_node x.2 (RegexNode.zeroOrOne x.1)) = _
    rw [pop_single_snoc]
    rfl
  | star =>
    show (pop_single { source := rest, stack := (row ++ [c]) :: S }).bind
      (fun x => push_node x.2 (RegexNode.many x.1)) = _
    rw [pop_single_snoc]
    rfl
  | plus =>
    show (pop_single { source := rest, stack := (row ++ [c]) :: S }).bind
      (fun x => push_node x.2 (RegexNode.oneOrMore x.1)) = _
    rw [pop_single_snoc]
    rfl

/-- `parse_value` on an atom token followed by a postfix operator token:
push the atom and wrap it. -/
theorem parse_value_atom_post (fuel : Nat) {t : Token} {nd : RegexNode}
    (h : (∃ x, t = .char x ∧ nd = .literal (.char x)) ∨
      (t = .dot ∧ nd = .literal .anyChar))
    (p : PostfixToken) (rest : List Token) (row : List RegexNode)
    (S : List (List RegexNode)) :
    parse_value (fuel + 1)
      { source := t :: .postfixOp p :: rest, stack := row :: S } =
      .ok { source := rest, stack := (row ++ [apPost p nd]) :: S } := by
  rcases h with ⟨x, rfl, rfl⟩ | ⟨rfl, rfl⟩
  · show parse_postfix
        { source := Token.postfixOp p :: rest,
          stack := (row ++ [RegexNode.literal (.char x)]) :: S } = _
    exact parse_postfix_snoc p rest row _ S
  · show parse_postfix
        { source := Token.postfixOp p :: rest,
          stack := (row ++ [RegexNode.literal .anyChar]) :: S } = _
    exact parse_postfix_snoc p rest row _ S

/-- `parse_value` on an atom token not followed by a postfix token:
push the atom. -/
theorem parse_value_atom (fuel : Nat) {t : Token} {nd : RegexNode}
    (h : (∃ x, t = .char x ∧ nd = .literal (.char x)) ∨
      (t = .dot ∧ nd = .literal .anyChar))
    (rest : List Token) (hpost : ∀ p, rest.headD .eof ≠ .postfixOp p)
    (row : List RegexNode) (S : List (List RegexNode)) :
    parse_value (fuel + 1) { source := t :: rest, stack := row :: S } =
      .ok { source := rest, stack := (row ++ [nd]) :: S } := by
  rcases h with ⟨x, rfl, rfl⟩ | ⟨rfl, rfl⟩ <;>
    (cases rest with
     | nil => rfl
     | cons t2 rest' =>
       cases t2 with
       | postfixOp p => exact absurd rfl (hpost p)
       | char c => rfl
       | dot => rfl
       | characterClass cls => rfl
       | leftBrace => rfl
       | rightBrace => rfl
       | leftParenthesis => rfl
       | rightParenthesis => rfl
       | leftBracket => rfl
       | rightBracket => rfl
       | minus => rfl
       | pipe => rfl
       | eof => rfl)

/-- `parse_value` on the token sequence of a class-`G` element pushes
exactly that element. -/
theorem parse_value_elem (fuel : Nat) {e : RegexNode} (he : elemG e = true)
    (rest : List Token) (hpost : ∀ p, rest.headD .eof ≠ .postfixOp p)
    (row : List RegexNode) (S : List (List RegexNode)) :
    parse_value (fuel + 1) { source := elemToks e ++ rest, stack := row :: S } =
      .ok { source := rest, stack := (row ++ [e]) :: S } := by
  rcases elem_decomp he with ⟨p, a, rfl, ha, hts⟩ | ⟨ha, hts⟩
  · rw [hts]
    simp only [List.cons_append, List.nil_append]
    exact parse_value_atom_post fuel (atomTok_of_plain ha) p rest row S
  · rw [hts]
    simp only [List.cons_append, List.nil_append]
    exact parse_value_atom fuel (atomTok_of_plain ha) rest hpost row S

/-- The `parse_and` loop on the token sequence of a non-empty element
list pushes exactly those elements onto the current row. -/
theorem parse_and_loop_elems : ∀ (cs : List RegexNode) (fuel : Nat)
    (rest : List Token) (row : List RegexNode) (S : List (List RegexNode)),
    cs ≠ [] → cs.all elemG = true →
    (rest.headD .eof).is_valid_after_value = false →
    (∀ p, rest.headD .eof ≠ .postfixOp p) →
    cs.length + 1 ≤ fuel →
    parse_and_loop fuel { source := joinElems cs ++ rest, stack := row :: S } =
      .ok { source := rest, stack := (row ++ cs) :: S }
  | [], _, _, _, _, hne, _, _, _, _ => absurd rfl hne
  | [c], fuel, rest, row, S, _, hall, hterm, hpost, hfuel => by
    simp only [List.all_cons, List.all_nil, Bool.and_true] at hall
    obtain ⟨f, rfl⟩ : ∃ f, fuel = f + 2 := ⟨fuel - 2, by
      simp only [List.length_cons, List.length_nil] at hfuel; omega⟩
    show (parse_value (f + 1)
        { source := joinElems [c] ++ rest, stack := row :: S }).bind
      (fun s => if (peek s).is_valid_after_value = true
        then parse_and_loop (f + 1) s else .ok s) = _
    have hj : joinElems [c] ++ rest = elemToks c ++ rest := by
      simp [joinElems]
    rw [hj, parse_value_elem f hall rest hpost row S]
    show (if (rest.headD .eof).is_valid_after_value = true
      then parse_and_loop (f + 1) { source := rest, stack := (row ++ [c]) :: S }
      else .ok { source := rest, stack := (row ++ [c]) :: S }) = _
    rw [hterm]
    simp
  | c :: c2 :: cs', fuel, rest, row, S, _, hall, hterm, hpost, hfuel => by
    simp only [List.all_cons, Bool.and_eq_true] at hall
    obtain ⟨hc, hc2, hcs⟩ := hall
    obtain ⟨f, rfl⟩ : ∃ f, fuel = f + 2 := ⟨fuel - 2, by
      simp only [List.length_cons] at hfuel; omega⟩
    obtain ⟨l2, hl2⟩ := elemToks_cons c2
    have hhead : (joinElems (c2 :: cs') ++ rest).headD .eof = headTok c2 := by
      rw [joinElems, hl2]
      rfl
    have hpost2 : ∀ p, (joinElems (c2 :: cs') ++ rest).headD .eof ≠
        .postfixOp p := by
      intro p
      rw [hhead]
      rcases headTok_shape c2 with ⟨x, hx⟩ | hx <;> rw [hx] <;> simp
    show (parse_value (f + 1)
        { source := joinElems (c :: c2 :: cs') ++ rest, stack := row :: S }).bind
      (fun s => if (peek s).is_valid_after_value = true
        then parse_and_loop (f + 1) s else .ok s) = _
    have hj : joinElems (c :: c2 :: cs') ++ rest =
        elemToks c ++ (joinElems (c2 :: cs') ++ rest) := by
      rw [joinElems, List.append_assoc]
    rw [hj, parse_value_elem f hc _ hpost2 row S]
    show (if ((joinElems (c2 :: cs') ++ rest).headD .eof).is_valid_after_value
        = true
      then parse_and_loop (f + 1)
        { source := joinElems (c2 :: cs') ++ rest, stack := (row ++ [c]) :: S }
      else .ok { source := joinElems (c2 :: cs') ++ rest,
                 stack := (row ++ [c]) :: S }) = _
    rw [hhead]
    have hvalid : (headTok c2).is_valid_after_value = true := by
      rcases headTok_shape c2 with ⟨x, hx⟩ | hx <;> rw [hx] <;> rfl
    rw [hvalid, if_pos rfl,
      parse_and_loop_elems (c2 :: cs') (f + 1) rest (row ++ [c]) S (by simp)
        (by simp [hc2, hcs]) hterm hpost
        (by simp only [List.length_cons] at hfuel ⊢; omega),
      List.append_assoc, List.singleton_append]

/-- The number of tokens of an element is at least one. -/
theorem elemToks_len (e : RegexNode) : 1 ≤ (elemToks e).length := by
  obtain ⟨l, hl⟩ := elemToks_cons e
  rw [hl]
  simp

theorem joinElems_len : ∀ (cs : List RegexNode),
    cs.length ≤ (joinElems cs).length
  | [] => le_refl 0
  | c :: cs => by
    rw [joinElems, List.length_append, List.length_cons]
    have h1 := elemToks_len c
    have h2 := joinElems_len cs
    omega

theorem branchToks_bounds {b : RegexNode} (h : branchG b = true) :
    numElems b ≤ (branchToks b).length ∧ 1 ≤ (branchToks b).length := by
  cases b with
  | and cs =>
    rw [branchG, Bool.and_eq_true, decide_eq_true_eq] at h
    have h1 := joinElems_len cs
    exact ⟨h1, le_trans (by omega) h1⟩
  | or cs => simp [branchG, elemG, plainAtom] at h
  | literal p => exact ⟨elemToks_len (.literal p), elemToks_len (.literal p)⟩
  | var v => exact ⟨elemToks_len (.var v), elemToks_len (.var v)⟩
  | zeroOrOne c => exact ⟨elemToks_len (.zeroOrOne c), elemToks_len (.zeroOrOne c)⟩
  | many c => exact ⟨elemToks_len (.many c), elemToks_len (.many c)⟩
  | oneOrMore c => exact ⟨elemToks_len (.oneOrMore c), elemToks_len (.oneOrMore c)⟩

theorem orFuel_le : ∀ (bs : List RegexNode), bs ≠ [] → bs.all branchG = true →
    orFuel bs ≤ 5 * (joinBranches bs).length + 2
  | [], hne, _ => absurd rfl hne
  | [b], _, hall => by
    simp only [List.all_cons, List.all_nil, Bool.and_true] at hall
    obtain ⟨h1, h2⟩ := branchToks_bounds hall
    simp only [orFuel, joinBranches]
    omega
  | b :: b2 :: bs', _, hall => by
    simp only [List.all_cons, Bool.and_eq_true] at hall
    obtain ⟨h1, h2, h3⟩ := hall
    obtain ⟨hb1, hb2⟩ := branchToks_bounds h1
    have hrec := orFuel_le (b2 :: bs') (by simp) (by simp [h2, h3])
    have hlen : (joinBranches (b :: b2 :: bs')).length =
        (branchToks b).length + 1 + (joinBranches (b2 :: bs')).length := by
      show (branchToks b ++ .pipe :: joinBranches (b2 :: bs')).length = _
      simp only [List.length_append, List.length_cons]
      omega
    rw [orFuel, hlen]
    omega

/-- `parse_and` on the token sequence of a class-`G` branch pushes that
branch as a single node. -/
theorem parse_and_branch (b : RegexNode) (fuel : Nat) (rest : List Token)
    (row : List RegexNode) (S : List (List RegexNode))
    (hb : branchG b = true)
    (hterm : (rest.headD .eof).is_valid_after_value = false)
    (hpost : ∀ p, rest.headD .eof ≠ .postfixOp p)
    (hfuel : numElems b + 3 ≤ fuel) :
    parse_and fuel { source := branchToks b ++ rest, stack := row :: S } =
      .ok { source := rest, stack := (row ++ [b]) :: S } := by
  obtain ⟨f, rfl⟩ : ∃ f, fuel = f + 1 := ⟨fuel - 1, by omega⟩
  show (parse_and_loop f
      { source := branchToks b ++ rest, stack := [] :: row :: S }).bind
    (fun s => (pop_row s).bind
      (fun x => finish_row x.2 x.1 RegexNode.and)) = _
  cases b with
  | and cs =>
    rw [branchG, Bool.and_eq_true, decide_eq_true_eq] at hb
    obtain ⟨h2, hall⟩ := hb
    rcases cs with _ | ⟨c1, _ | ⟨c2, cs''⟩⟩
    · simp at h2
    · simp at h2
    · rw [show branchToks (.and (c1 :: c2 :: cs'')) =
          joinElems (c1 :: c2 :: cs'') from rfl,
        parse_and_loop_elems (c1 :: c2 :: cs'') f rest [] (row :: S) (by simp)
          hall hterm hpost
          (by simp only [numElems] at hfuel; omega)]
      rfl
  | or cs => simp [branchG, elemG, plainAtom] at hb
  | literal p =>
    rw [show branchToks (.literal p) ++ rest =
        joinElems [RegexNode.literal p] ++ rest by simp [joinElems, branchToks],
      parse_and_loop_elems [RegexNode.literal p] f rest [] (row :: S) (by simp)
        (by simp only [List.all_cons, List.all_nil, Bool.and_true]; exact hb)
        hterm hpost (by simp only [numElems] at hfuel; simp; omega)]
    rfl
  | var v => simp [branchG, elemG, plainAtom] at hb
  | zeroOrOne c =>
    rw [show branchToks (.zeroOrOne c) ++ rest =
        joinElems [RegexNode.zeroOrOne c] ++ rest by simp [joinElems, branchToks],
      parse_and_loop_elems [RegexNode.zeroOrOne c] f rest [] (row :: S) (by simp)
        (by simp only [List.all_cons, List.all_nil, Bool.and_true]; exact hb)
        hterm hpost (by simp only [numElems] at hfuel; simp; omega)]
    rfl
  | many c =>
    rw [show branchToks (.many c) ++ rest =
        joinElems [RegexNode.many c] ++ rest by simp [joinElems, branchToks],
      parse_and_loop_elems [RegexNode.many c] f rest [] (row :: S) (by simp)
        (by simp only [List.all_cons, List.all_nil, Bool.and_true]; exact hb)
        hterm hpost (by simp only [numElems] at hfuel; simp; omega)]
    rfl
  | oneOrMore c =>
    rw [show branchToks (.oneOrMore c) ++ rest =
        joinElems [RegexNode.oneOrMore c] ++ rest by simp [joinElems, branchToks],
      parse_and_loop_elems [RegexNode.oneOrMore c] f rest [] (row :: S) (by simp)
        (by simp only [List.all_cons, List.all_nil, Bool.and_true]; exact hb)
        hterm hpost (by simp only [numElems] at hfuel; simp; omega)]
    rfl

/-- The `parse_or` loop on a rendered non-empty branch list pushes the
branches onto the current row and consumes the whole source. -/
theorem parse_or_loop_branches : ∀ (bs : List RegexNode) (fuel : Nat)
    (row : List RegexNode) (S : List (List RegexNode)),
    bs ≠ [] → bs.all branchG = true → orFuel bs ≤ fuel →
    parse_or_loop fuel { source := joinBranches bs, stack := row :: S } =
      .ok { source := [], stack := (row ++ bs) :: S }
  | [], _, _, _, hne, _, _ => absurd rfl hne
  | [b], fuel, row, S, _, hall, hfuel => by
    simp only [List.all_cons, List.all_nil, Bool.and_true] at hall
    obtain ⟨f, rfl⟩ : ∃ f, fuel = f + 1 :=
      ⟨fuel - 1, by simp only [orFuel] at hfuel; omega⟩
    show (parse_and f { source := joinBranches [b], stack := row :: S }).bind
      (fun s => if peek s = .pipe
        then parse_or_loop f (consume s).2 else .ok s) = _
    have hsrc : joinBranches [b] = branchToks b ++ [] := by simp [joinBranches]
    rw [hsrc, parse_and_branch b f [] row S hall rfl (by intro p; simp)
      (by simp only [orFuel] at hfuel; omega)]
    rfl
  | b :: b2 :: bs', fuel, row, S, _, hall, hfuel => by
    simp only [List.all_cons, Bool.and_eq_true] at hall
    obtain ⟨h1, h2, h3⟩ := hall
    obtain ⟨f, rfl⟩ : ∃ f, fuel = f + 1 :=
      ⟨fuel - 1, by simp only [orFuel] at hfuel; omega⟩
    show (parse_and f
        { source := joinBranches (b :: b2 :: bs'), stack := row :: S }).bind
      (fun s => if peek s = .pipe
        then parse_or_loop f (consume s).2 else .ok s) = _
    have hsrc : joinBranches (b :: b2 :: bs') =
        branchToks b ++ (.pipe :: joinBranches (b2 :: bs')) := rfl
    rw [hsrc, parse_and_branch b f (.pipe :: joinBranches (b2 :: bs')) row S h1
      rfl (by intro p; simp) (by simp only [orFuel] at hfuel; omega)]
    show parse_or_loop f
      { source := joinBranches (b2 :: bs'), stack := (row ++ [b]) :: S } = _
    rw [parse_or_loop_branches (b2 :: bs') f (row ++ [b]) S (by simp)
      (by simp [h2, h3]) (by simp only [orFuel] at hfuel ⊢; omega),
      List.append_assoc, List.singleton_append]

/-- `parse` on the rendering of an `Or` of two or more class-`G` branches. -/
theorem parseTokens_or (cs : List RegexNode) (h2 : 2 ≤ cs.length)
    (hall : cs.all branchG = true) :
    parseTokens (joinBranches cs) = .ok (.or cs) := by
  have hfb : orFuel cs ≤ 8 * (joinBranches cs).length + 14 := by
    have := orFuel_le cs (by intro hh; rw [hh] at h2; simp at h2) hall
    omega
  rcases cs with _ | ⟨c1, _ | ⟨c2, cs''⟩⟩
  · simp at h2
  · simp at h2
  · show ((parse_or_loop (8 * (joinBranches (c1 :: c2 :: cs'')).length + 14)
        { source := joinBranches (c1 :: c2 :: cs''), stack := [[], []] }).bind
      (fun s => (pop_row s).bind
        (fun x => finish_row x.2 x.1 RegexNode.or))).bind
      (fun st => if Parser.peek st ≠ .eof
        then .error (.err (.expectedEof (Parser.peek st)))
        else match st.stack with
          | [[root]] => .ok root
          | _ => .error .panicked) = _
    rw [parse_or_loop_branches (c1 :: c2 :: cs'')
      (8 * (joinBranches (c1 :: c2 :: cs'')).length + 14) [] [[]] (by simp)
      hall hfb]
    rfl

/-- `parse` on the rendering of a single class-`G` branch. -/
theorem parseTokens_branch (b : RegexNode) (hb : branchG b = true) :
    parseTokens (branchToks b) = .ok b := by
  have h0 : branchToks b = joinBranches [b] := by simp [joinBranches]
  rw [h0]
  have hfb : orFuel [b] ≤ 8 * (joinBranches [b]).length + 14 := by
    have := orFuel_le [b] (by simp) (by simp [hb])
    omega
  show ((parse_or_loop (8 * (joinBranches [b]).length + 14)
      { source := joinBranches [b], stack := [[], []] }).bind
    (fun s => (pop_row s).bind
      (fun x => finish_row x.2 x.1 RegexNode.or))).bind
    (fun st => if Parser.peek st ≠ .eof
      then .error (.err (.expectedEof (Parser.peek st)))
      else match st.stack with
        | [[root]] => .ok root
        | _ => .error .panicked) = _
  rw [parse_or_loop_branches [b]
    (8 * (joinBranches [b]).length + 14) [] [[]] (by simp) (by simp [hb]) hfb]
  rfl

theorem parseTokens_top (T : RegexNode) (h : topG T = true) :
    parseTokens (topToks T) = .ok T := by
  cases T with
  | or cs =>
    rw [topG, Bool.and_eq_true, decide_eq_true_eq] at h
    exact parseTokens_or cs h.1 h.2
  | and cs =>
    cases cs with
    | nil => rfl
    | cons c cs' =>
      rw [show topToks (.and (c :: cs')) = branchToks (.and (c :: cs')) from rfl]
      exact parseTokens_branch _ (by simpa only [topG] using h)
  | literal p =>
    rw [show topToks (.literal p) = branchToks (.literal p) from rfl]
    exact parseTokens_branch _ (by simpa only [topG] using h)
  | var v =>
    rw [show topToks (.var v) = branchToks (.var v) from rfl]
    exact parseTokens_branch _ (by simpa only [topG] using h)
  | zeroOrOne c =>
    rw [show topToks (.zeroOrOne c) = branchToks (.zeroOrOne c) from rfl]
    exact parseTokens_branch _ (by simpa only [topG] using h)
  | many c =>
    rw [show topToks (.many c) = branchToks (.many c) from rfl]
    exact parseTokens_branch _ (by simpa only [topG] using h)
  | oneOrMore c =>
    rw [show topToks (.oneOrMore c) = branchToks (.oneOrMore c) from rfl]
    exact parseTokens_branch _ (by simpa only [topG] using h)

/-- C7: For a tree in the parenthesis-free class `topG` — elements are
plain-character or wildcard atoms with an optional postfix operator,
branches are single elements or sequences of two or more elements, the
top level is a branch, the empty sequence, or an `Or` of two or more
branches — rendering via the `Display` impl and re-parsing returns the
same tree.  (The amendment: the unrestricted claim fails, because
`Display` drops grouping parentheses — `parse("(ab)*")` renders to
`ab*`, which re-parses to a different tree.) -/
theorem display_roundtrip (T : RegexNode) (h : topG T = true) :
    fromStr (display T) = .ok T := by
  show parseTokens (tokenize (display T)) = .ok T
  rw [top_chars h]
  exact parseTokens_top T h

/-- C7 witness: the round trip on the rendered form of `x|y*`. -/
theorem display_roundtrip_witness :
    topG (.or [.literal (.char 'x'), .many (.literal (.char 'y'))]) = true ∧
    fromStr (display (.or [.literal (.char 'x'), .many (.literal (.char 'y'))])) =
      .ok (.or [.literal (.char 'x'), .many (.literal (.char 'y'))]) :=
  ⟨by decide, display_roundtrip _ (by decide)⟩

end ReParse
